import Mathlib

/-!
Verification development for the jaunt incremental build orchestrator.

This file gives a shallow embedding, in Lean 4, of the core of the jaunt
build system (src/jaunt/digest.py, src/jaunt/builder.py, src/jaunt/deps.py,
src/jaunt/generate/base.py) and proves the frozen specification claims
about it.

Modelling conventions:
- Python strings are Lean String; module names and spec references
  (SpecRef is a NewType over str) are plain strings.
- Python dicts are association lists; Python sets are lists whose
  iteration order is irrelevant to every stated property.
- sha256 hashing is modelled by an arbitrary function parameter
  (hashF : String -> String): every claim proved here holds for every
  choice of that function, in particular for real sha256.
- The Python parser (ast.parse together with ast.get_source_segment) is
  modelled by an abstract function parameter segOf : source text ->
  qualname -> Option segment; the normalisation that digest.py performs
  on the extracted segment is embedded faithfully.
- Recursion that Python bounds by the finiteness of the input
  (memoised depth-first digests, DFS toposort, the scheduler loops) is
  embedded with an explicit fuel parameter; running out of fuel is a
  distinguished error that the theorems show to be unreachable where a
  claim needs termination.
- The asyncio nondeterminism of run_build (which of the in-flight
  generation tasks finishes first, and the iteration order of the
  finished set) is captured by a choice oracle (pickDone); theorems
  quantify over all oracles.
-/

namespace Jaunt

/-! ## Generic string and list helpers -/

/-- Lexicographic strict comparison of character lists by code point,
matching the comparison Python uses on str. -/
def charsLt : List Char → List Char → Bool
  | [], [] => false
  | [], _ :: _ => true
  | _ :: _, [] => false
  | c :: cs, d :: ds =>
    if c.toNat < d.toNat then true
    else if d.toNat < c.toNat then false
    else charsLt cs ds

/-- Lexicographic comparison of character lists by code point. -/
def charsLe : List Char → List Char → Bool
  | [], _ => true
  | _ :: _, [] => false
  | c :: cs, d :: ds =>
    if c.toNat < d.toNat then true
    else if d.toNat < c.toNat then false
    else charsLe cs ds

/-- String order used for every Python sorted call modelled here. -/
def strLe (a b : String) : Prop :=
  charsLe a.data b.data = true

/-- Strict string order by code points. -/
def strLt (a b : String) : Prop :=
  charsLt a.data b.data = true

instance (a b : String) : Decidable (strLe a b) := by unfold strLe; infer_instance

instance (a b : String) : Decidable (strLt a b) := by unfold strLt; infer_instance

theorem charsLe_refl : ∀ l : List Char, charsLe l l = true
  | [] => rfl
  | c :: cs => by simp [charsLe, charsLe_refl cs]

theorem charsLe_total : ∀ a b : List Char, charsLe a b = true ∨ charsLe b a = true
  | [], _ => .inl rfl
  | _ :: _, [] => .inr rfl
  | c :: cs, d :: ds => by
    by_cases h1 : c.toNat < d.toNat
    · exact .inl (by simp [charsLe, h1])
    · by_cases h2 : d.toNat < c.toNat
      · exact .inr (by simp [charsLe, h2, Nat.lt_asymm h2])
      · rcases charsLe_total cs ds with h | h
        · exact .inl (by simp [charsLe, h1, h2, h])
        · exact .inr (by simp [charsLe, h1, h2, h])

theorem charsLe_antisymm : ∀ a b : List Char,
    charsLe a b = true → charsLe b a = true → a = b
  | [], [], _, _ => rfl
  | [], _ :: _, _, h => by simp [charsLe] at h
  | _ :: _, [], h, _ => by simp [charsLe] at h
  | c :: cs, d :: ds, h1, h2 => by
    by_cases hcd : c.toNat < d.toNat
    · simp [charsLe, hcd, Nat.lt_asymm hcd] at h2
    · by_cases hdc : d.toNat < c.toNat
      · simp [charsLe, hcd, hdc] at h1
      · have hc : c = d := Char.ext (UInt32.ext (Nat.le_antisymm (Nat.not_lt.mp hdc) (Nat.not_lt.mp hcd)))
        simp [charsLe, hcd, hdc] at h1 h2
        exact hc ▸ congrArg (c :: ·) (charsLe_antisymm cs ds h1 h2)

theorem charsLe_trans : ∀ a b c : List Char,
    charsLe a b = true → charsLe b c = true → charsLe a c = true
  | [], _, _, _, _ => rfl
  | _ :: _, [], _, h, _ => by simp [charsLe] at h
  | _ :: _, _ :: _, [], _, h => by simp [charsLe] at h
  | a :: as, b :: bs, c :: cs, h1, h2 => by
    simp only [charsLe] at h1 h2 ⊢
    by_cases hab : a.toNat < b.toNat
    · by_cases hbc : b.toNat < c.toNat
      · simp [show a.toNat < c.toNat from Nat.lt_trans hab hbc]
      · by_cases hcb : c.toNat < b.toNat
        · simp [hbc, hcb] at h2
        · have hbc' : b.toNat = c.toNat := Nat.le_antisymm (Nat.not_lt.mp hcb) (Nat.not_lt.mp hbc)
          simp [show a.toNat < c.toNat from hbc' ▸ hab]
    · by_cases hba : b.toNat < a.toNat
      · simp [hab, hba] at h1
      · have hab' : a.toNat = b.toNat := Nat.le_antisymm (Nat.not_lt.mp hba) (Nat.not_lt.mp hab)
        by_cases hbc : b.toNat < c.toNat
        · simp [show a.toNat < c.toNat from hab' ▸ hbc]
        · by_cases hcb : c.toNat < b.toNat
          · simp [hbc, hcb] at h2
          · simp only [hab, hba, if_neg, ite_false] at h1
            simp only [hbc, hcb, if_neg, ite_false] at h2
            have hac : ¬ a.toNat < c.toNat := hab' ▸ hbc
            have hca : ¬ c.toNat < a.toNat := hab' ▸ hcb
            simp [hac, hca, charsLe_trans as bs cs h1 h2]

/-- Sort a list of strings ascending, as Python sorted does on str. -/
def sortStr (l : List String) : List String :=
  l.insertionSort strLe

/-- Split a character list at newline characters, str.split style: n
newlines yield n+1 pieces. -/
def splitNlChars : List Char → List (List Char)
  | [] => [[]]
  | c :: cs =>
    if c = '\n' then [] :: splitNlChars cs
    else
      match splitNlChars cs with
      | [] => [[c]]
      | l :: ls => (c :: l) :: ls

/-- Split a string into its newline-separated lines. -/
def splitNl (s : String) : List String :=
  (splitNlChars s.data).map String.mk

/-- Prefix test on strings by their character lists, str.startswith. -/
def isPrefixOfStr (p s : String) : Bool :=
  p.data.isPrefixOf s.data

/-- Newline canonicalisation: each CRLF pair and each remaining CR
becomes LF, the combined effect of the two replacements digest.py
performs. -/
def normNl : List Char → List Char
  | [] => []
  | '\r' :: '\n' :: cs => '\n' :: normNl cs
  | '\r' :: cs => '\n' :: normNl cs
  | c :: cs => c :: normNl cs

/-- Python str.rstrip: drop trailing whitespace characters. -/
def rstripStr (s : String) : String :=
  ⟨(s.data.reverse.dropWhile Char.isWhitespace).reverse⟩

/-- A line consisting only of spaces and tabs, and nonempty
(the lines that the textwrap.dedent whitespace-only regex blanks). -/
def isBlankTabSp (s : String) : Bool :=
  s ≠ "" && s.data.all (fun c => c = ' ' || c = '\t')

/-- Leading run of spaces and tabs of a line. -/
def leadingTabSp (s : String) : List Char :=
  s.data.takeWhile (fun c => c = ' ' || c = '\t')

/-- Longest common prefix of two character lists. -/
def commonPre : List Char → List Char → List Char
  | a :: as, b :: bs => if a = b then a :: commonPre as bs else []
  | _, _ => []

/-- Model of textwrap.dedent: blank the whitespace-only lines, compute the
margin common to the remaining lines, strip it. -/
def dedent (s : String) : String :=
  let ls := (splitNl s).map (fun l => if isBlankTabSp l then "" else l)
  let margins := (ls.filter (fun l => l ≠ "")).map leadingTabSp
  let margin :=
    match margins with
    | [] => []
    | m :: ms => ms.foldl commonPre m
  let stripped := ls.map (fun l =>
    if margin ≠ [] && isPrefixOfStr (String.mk margin) l then l.drop margin.length else l)
  String.intercalate "\n" stripped

/-- Drop trailing empty strings from a list of lines. -/
def dropTrailingEmpty (ls : List String) : List String :=
  (ls.reverse.dropWhile (· = "")).reverse

/-- msg mentions name when name occurs in msg as a contiguous substring. -/
def Mentions (msg name : String) : Prop :=
  name.data <:+: msg.data

instance (msg name : String) : Decidable (Mentions msg name) := by
  unfold Mentions; infer_instance

/-! ## Digest engine (src/jaunt/digest.py) -/

/-- A registered spec entry (jaunt.registry.SpecEntry), restricted to the
fields the digest engine and the builder read.  decorator_kwargs enters
local_digest only through the canonical sorted-key JSON serialisation that
digest.py produces from it; that serialisation is a pure function of the
kwargs and is carried here already serialised, as the field kwargsJson. -/
structure SpecEntry where
  spec_ref : String
  module : String
  qualname : String
  source_file : String
  kwargsJson : String
deriving DecidableEq, Repr

/-- The ambient environment digest computations read:
fs is the file system (path to contents; none models a missing or
unreadable file), segOf models ast.parse plus ast.get_source_segment
(source text and qualname to the raw source segment of the matching
top-level definition, none when parsing or lookup fails), and hashF
models hashlib.sha256 hexdigest. -/
structure DigestEnv where
  fs : String → Option String
  segOf : String → String → Option String
  hashF : String → String

/-- Errors digest computations can raise.  outOfFuel is a modelling
artifact marking exhausted recursion fuel, not a Python behaviour. -/
inductive DigestErr
  | cycleDetected (msg : String)
  | missingKey (sr : String)
  | readFailed (path : String)
  | badValue (msg : String)
  | outOfFuel
deriving DecidableEq, Repr

/-- Normalisation digest.py applies to an extracted segment: dedent,
newline canonicalisation, per-line rstrip, trailing blank lines dropped. -/
def normalizeSegment (seg : String) : String :=
  let s1 := dedent seg
  let s2 : String := ⟨normNl s1.data⟩
  let lines := (splitNl s2).map rstripStr
  String.intercalate "\n" (dropTrailingEmpty lines)

/-- digest.extract_source_segment: read the source file of the entry,
locate the top-level definition named by the entry, normalise it. -/
def extract_source_segment (env : DigestEnv) (e : SpecEntry) : Except DigestErr String :=
  match env.fs e.source_file with
  | none => .error (.readFailed e.source_file)
  | some src =>
    match env.segOf src e.qualname with
    | none => .error (.badValue e.spec_ref)
    | some seg => .ok (normalizeSegment seg)

/-- digest.local_digest: hash of the normalised segment, a newline, and
the canonical serialisation of the decorator kwargs. -/
def local_digest (env : DigestEnv) (e : SpecEntry) : Except DigestErr String :=
  (extract_source_segment env e).map (fun seg => env.hashF (seg ++ "\n" ++ e.kwargsJson))

/-- The memo cache of graph_digest: spec reference to finished digest. -/
abbrev DigestMemo := List (String × String)

/-- The worker of digest.graph_digest.  It processes a worklist of spec
references sequentially, threading the memo; computing one reference
first consults the memo, then the in-progress set (visiting), then
recursively digests the sorted dependencies before hashing.  The fuel
bounds the recursion depth and is a modelling artifact. -/
def graphDigestGo (env : DigestEnv) (specs : List (String × SpecEntry))
    (graph : String → List String) :
    Nat → List String → DigestMemo → List String →
    Except DigestErr (List String × DigestMemo)
  | 0, _, _, _ => .error .outOfFuel
  | _ + 1, _, memo, [] => .ok ([], memo)
  | fuel + 1, visiting, memo, sr :: rest =>
    match memo.lookup sr with
    | some d => do
      let (ds, memo') ← graphDigestGo env specs graph fuel visiting memo rest
      .ok (d :: ds, memo')
    | none =>
      if sr ∈ visiting then
        .error (.cycleDetected ("Dependency cycle detected while hashing: " ++ sr))
      else
        match specs.lookup sr with
        | none => .error (.missingKey sr)
        | some e => do
          let ld ← local_digest env e
          let (deps, memo') ←
            graphDigestGo env specs graph fuel (sr :: visiting) memo (sortStr (graph sr))
          let d := env.hashF (ld ++ "\n" ++ String.intercalate "\n" deps)
          let (ds, memo'') ← graphDigestGo env specs graph fuel visiting ((sr, d) :: memo') rest
          .ok (d :: ds, memo'')

/-- digest.graph_digest for a single reference, starting from a caller
supplied cache and an empty in-progress set. -/
def graph_digest (env : DigestEnv) (specs : List (String × SpecEntry))
    (graph : String → List String) (fuel : Nat) (cache : DigestMemo)
    (sr : String) : Except DigestErr (String × DigestMemo) := do
  let (ds, memo) ← graphDigestGo env specs graph fuel [] cache [sr]
  match ds with
  | [d] => .ok (d, memo)
  | _ => .error .outOfFuel

/-- Sort spec entries by the string form of their reference, as
module_digest does before digesting. -/
def sortEntries (es : List SpecEntry) : List SpecEntry :=
  es.insertionSort (fun a b => strLe a.spec_ref b.spec_ref)

/-- digest.module_digest: graph digests of the module entries, computed
in sorted entry order through one shared fresh cache, then hashed in
sorted digest order. -/
def module_digest (env : DigestEnv) (specs : List (String × SpecEntry))
    (graph : String → List String) (fuel : Nat) (moduleName : String)
    (moduleSpecs : List SpecEntry) : Except DigestErr String := do
  let (ds, _) ←
    graphDigestGo env specs graph fuel [] [] ((sortEntries moduleSpecs).map (·.spec_ref))
  let _ := moduleName
  .ok (env.hashF (String.intercalate "\n" (sortStr ds)))

/-! ## Generation with retry (src/jaunt/generate/base.py) -/

/-- The result record of GeneratorBackend.generate_with_retry. -/
structure GenerationResult where
  attempts : Nat
  source : Option String
  errors : List String
deriving DecidableEq, Repr

/-- The collaborators generate_with_retry drives: gen models the abstract
generate_module of the backend (indexed by the attempt number so that a
stateful provider is covered), validate models
validation.validate_generated_source applied to the expected names of the
context. -/
structure GenEnv where
  gen : Nat → Option (List String) → String
  validate : String → List String

/-- The while loop of generate_with_retry.  remaining is
max_attempts - attempts, and the carried last source, last errors and
extra context evolve exactly as the Python locals do. -/
def retryLoop (e : GenEnv) : Nat → Nat → Option (List String) → Option String →
    List String → GenerationResult
  | 0, attempts, _, lastSrc, lastErrs => ⟨attempts, lastSrc, lastErrs⟩
  | r + 1, attempts, extraCtx, _, _ =>
    let attempts' := attempts + 1
    let src := e.gen attempts' extraCtx
    let errs := e.validate src
    if errs = [] then ⟨attempts', some src, []⟩
    else if r = 0 then ⟨attempts', some src, errs⟩
    else
      retryLoop e r attempts'
        (some (extraCtx.getD [] ++ errs.map (fun s => "previous output errors: " ++ s)))
        (some src) errs

/-- generate_with_retry with its default bound of two attempts. -/
def generate_with_retry (e : GenEnv) (maxAttempts : Nat := 2) : GenerationResult :=
  retryLoop e maxAttempts 0 none none []

/-! ## Staleness detection (src/jaunt/builder.py) -/

/-- What reading the persisted artifact of a module yields: the file may
be missing, unreadable (read_text raising), or readable with contents. -/
inductive ReadRes
  | missing
  | unreadable
  | content (s : String)
deriving DecidableEq, Repr

/-- Modelled from the spec: jaunt.header.extract_module_digest is imported
by builder.py but src/jaunt/header.py is not among the provided sources.
Per the external-interface section of the spec, a persisted artifact
starts with six reserved header lines, one of which has the form
"# jaunt:module_digest=sha256:<64 hex chars>"; extraction returns the
value embedded in that line, or none when no such line is present. -/
def extract_module_digest (text : String) : Option String :=
  (((splitNl text).take 6).filterMap (fun l =>
    if isPrefixOfStr "# jaunt:module_digest=" l then some (l.drop 22) else none)).head?

/-- builder._normalize_digest: empty digests become none and an sha256
prefix is stripped. -/
def normalize_digest : Option String → Option String
  | none => none
  | some d =>
    if d = "" then none
    else if isPrefixOfStr "sha256:" d then some (d.drop 7) else some d

/-- One module of builder.detect_stale_modules without force: stale when
the artifact is missing or unreadable, or the embedded digest or the
computed digest fails to normalise, or the two differ. -/
def staleCheckOne (env : DigestEnv) (specs : List (String × SpecEntry))
    (graph : String → List String) (fuel : Nat) (artifact : String → ReadRes)
    (m : String) (entries : List SpecEntry) : Except DigestErr Bool :=
  match artifact m with
  | .missing => .ok true
  | .unreadable => .ok true
  | .content existing => do
    let onDisk := normalize_digest (extract_module_digest existing)
    let dg ← module_digest env specs graph fuel m entries
    let computed := normalize_digest (some dg)
    .ok (onDisk = none || computed = none || onDisk ≠ computed)

/-- builder.detect_stale_modules.  The file system interaction (path
computation plus exists plus read_text) is modelled as the artifact
function from module names to read outcomes.  With force, every module
with queued units is returned. -/
def detect_stale_modules (env : DigestEnv) (specs : List (String × SpecEntry))
    (graph : String → List String) (fuel : Nat) (artifact : String → ReadRes)
    (moduleSpecs : List (String × List SpecEntry)) (force : Bool) :
    Except DigestErr (List String) :=
  if force then .ok (moduleSpecs.map (·.1))
  else
    moduleSpecs.foldlM (fun acc p => do
      let st ← staleCheckOne env specs graph fuel artifact p.1 p.2
      .ok (if st then acc ++ [p.1] else acc)) []

/-! ## Topological sort with cycle reporting (src/jaunt/deps.py) -/

/-- Worklist items of the iterative rendering of deps.toposort: entering
a node (the head of visit) and leaving it (the bookkeeping after the
recursive calls over its sorted dependencies return). -/
inductive TItem
  | enter (n : String)
  | leave (n : String)
deriving DecidableEq, Repr

/-- The mutable state of deps.toposort: the temporary and permanent
marks, the recursion stack and the output order. -/
structure TState where
  temp : List String
  perm : List String
  stack : List String
  order : List String
deriving DecidableEq, Repr

/-- Errors of the toposort model. -/
inductive TopoErr
  | cycleFound (msg : String)
  | outOfFuel
deriving DecidableEq, Repr

/-- The message deps.toposort raises on re-entering a node on the stack:
the stack suffix from the first occurrence of the node, closed by the
node, joined by arrows.  Like the Python code, a node absent from the
stack falls back to index 0. -/
def cycleMsgOf (stack : List String) (n : String) : String :=
  let i := if n ∈ stack then stack.indexOf n else 0
  "Dependency cycle detected: " ++ String.intercalate " -> " (stack.drop i ++ [n])

/-- The DFS of deps.toposort over an explicit worklist.  Entering an
already permanent node is a no-op; entering a temporary node raises the
cycle error; otherwise the node is marked temporary, pushed, and its
sorted dependencies are entered before the node is left.  Leaving pops
the stack, moves the node from temporary to permanent and appends it to
the order. -/
def topoGo (g : String → List String) :
    Nat → List TItem → TState → Except TopoErr TState
  | 0, _, _ => .error .outOfFuel
  | _ + 1, [], ts => .ok ts
  | fuel + 1, .enter n :: rest, ts =>
    if n ∈ ts.perm then topoGo g fuel rest ts
    else if n ∈ ts.temp then .error (.cycleFound (cycleMsgOf ts.stack n))
    else
      topoGo g fuel ((sortStr (g n)).map .enter ++ .leave n :: rest)
        { ts with temp := n :: ts.temp, stack := ts.stack ++ [n] }
  | fuel + 1, .leave n :: rest, ts =>
    topoGo g fuel rest
      { temp := ts.temp.erase n, perm := n :: ts.perm,
        stack := ts.stack.dropLast, order := ts.order ++ [n] }

/-- All nodes of a graph given as an association list: the keys together
with every node appearing in a dependency set, deduplicated and sorted
as Python sorted(all_nodes) does. -/
def allNodesOf (graph : List (String × List String)) : List String :=
  sortStr ((graph.map (·.1) ++ (graph.map (·.2)).flatten).dedup)

/-- Dependency lookup of a graph association list, defaulting to the
empty set like graph.get(n, set()). -/
def graphDeps (graph : List (String × List String)) (n : String) : List String :=
  (graph.lookup n).getD []

/-- deps.toposort: visit all nodes in sorted order, producing the
dependencies-first order or raising on a cycle. -/
def toposort (graph : List (String × List String)) (fuel : Nat) :
    Except TopoErr (List String) :=
  (topoGo (graphDeps graph) fuel ((allNodesOf graph).map .enter)
    ⟨[], [], [], []⟩).map (·.order)

/-! ## Stale set expansion (builder.expand_stale_modules) -/

/-- The reverse-edge map of expand_stale_modules: the modules of the DAG
whose dependency set contains m. -/
def dagDependents (dag : List (String × List String)) (m : String) : List String :=
  (dag.map (·.1)).filter (fun k => m ∈ graphDeps dag k)

/-- The inner loop of expand_stale_modules over one dependents list,
threading the expanded set and the LIFO queue (queue.append plus
queue.pop work the far end; the model keeps the top at the head). -/
def expandAdd : List String → List String → List String → List String × List String
  | [], expanded, queue => (expanded, queue)
  | d :: ds, expanded, queue =>
    if d ∈ expanded then expandAdd ds expanded queue
    else expandAdd ds (expanded ++ [d]) (d :: queue)

/-- The worklist loop of expand_stale_modules. -/
def expandGo (dag : List (String × List String)) :
    Nat → List String → List String → Option (List String)
  | 0, _, _ => none
  | _ + 1, expanded, [] => some expanded
  | fuel + 1, expanded, m :: queue =>
    let (expanded', queue') := expandAdd (dagDependents dag m) expanded queue
    expandGo dag fuel expanded' queue'

/-- builder.expand_stale_modules: close the stale set under transitive
dependents. -/
def expand_stale_modules (dag : List (String × List String))
    (staleMs : List String) (fuel : Nat) : Option (List String) :=
  expandGo dag fuel staleMs staleMs

/-! ## The scheduler (builder.run_build)

The asynchronous scheduler is embedded as a deterministic transition
system parameterised by two oracles: genResult gives the outcome of
build_one for each module (covering generation success, validation
failure and the defensive unhandled-error branch alike, since the
scheduler only consumes the returned pair), and pickDone chooses which
of the in-flight tasks asyncio.wait reports finished, in which order.
Ghost events record every create_task (dispatched) and every completion
bookkeeping (terminal) without influencing the run. -/

/-- Ghost observation of the scheduler: module dispatched to build_one,
module reached a terminal outcome. -/
inductive Event
  | dispatched (m : String)
  | terminal (m : String)
deriving DecidableEq, Repr

/-- The mutable scheduler state of run_build. -/
structure BState where
  indeg : String → Int
  ready : List String
  inFlight : List String
  completed : List String
  generated : List String
  failed : List (String × List String)
  events : List Event

/-- The per-run context the scheduler closes over: the induced stale
set, its dependency and dependent maps, the priorities, the outcome
oracle, the clamped concurrency limit and the completion-choice oracle. -/
structure Ctx where
  stale : List String
  depsIn : String → List String
  dependentsOf : String → List String
  prio : String → Nat
  genResult : String → Bool × List String
  jobsN : Nat
  pickDone : Nat → List String

/-- Failed module names of a state. -/
def failedKeys (failed : List (String × List String)) : List String :=
  failed.map (·.1)

/-- The recursive complete coroutine of run_build, flattened to a DFS
worklist: each worklist entry is a dependent whose indegree must be
decremented for one just-completed dependency.  A dependent reaching
indegree zero is either failed immediately (when one of its stale
dependencies failed) with its dependents pushed in front, or pushed to
the ready heap. -/
def completeW (C : Ctx) : Nat → List String → BState → Option BState
  | 0, _, _ => none
  | _ + 1, [], st => some st
  | fuel + 1, dep :: rest, st =>
    if dep ∈ st.completed then completeW C fuel rest st
    else
      let st1 := { st with indeg := fun x => if x = dep then st.indeg dep - 1 else st.indeg x }
      if st1.indeg dep ≠ 0 then completeW C fuel rest st1
      else
        let bad := (C.depsIn dep).filter (fun d => d ∈ failedKeys st1.failed)
        if bad.isEmpty then
          completeW C fuel rest { st1 with ready := dep :: st1.ready }
        else
          completeW C fuel (C.dependentsOf dep ++ rest)
            { st1 with
              failed := (dep, bad.map (fun d => "Dependency failed: " ++ d)) :: st1.failed,
              completed := dep :: st1.completed,
              events := st1.events ++ [Event.terminal dep] }

/-- The bookkeeping loop over the finished tasks returned by one
asyncio.wait: pop the task, record success or failure (an empty error
list becomes the Unknown error placeholder), then run complete. -/
def processDone (C : Ctx) (cwFuel : Nat) : List String → BState → Option BState
  | [], st => some st
  | m :: ms, st =>
    let res := C.genResult m
    let st1 := { st with
      inFlight := st.inFlight.erase m,
      completed := m :: st.completed,
      events := st.events ++ [Event.terminal m] }
    let st2 :=
      if res.1 then { st1 with generated := m :: st1.generated }
      else { st1 with
        failed := (m, if res.2.isEmpty then ["Unknown error."] else res.2) :: st1.failed }
    match completeW C cwFuel (C.dependentsOf m) st2 with
    | none => none
    | some st3 => processDone C cwFuel ms st3

/-- The heap key of a ready module: the heap stores (-priority, name)
pairs, so the popped module maximises priority and breaks ties by
ascending name. -/
def keyLtB (C : Ctx) (a b : String) : Bool :=
  if (-(C.prio a : Int)) = (-(C.prio b : Int)) then charsLt a.data b.data
  else decide ((-(C.prio a : Int)) < (-(C.prio b : Int)))

/-- The minimum-key element of a nonempty ready collection, which is
what heapq.heappop returns. -/
def bestOf (C : Ctx) : String → List String → String
  | b, [] => b
  | b, x :: xs => bestOf C (if keyLtB C x b then x else b) xs

/-- The inner dispatch loop of run_build: while the ready heap is
nonempty and fewer than jobs tasks are in flight, pop the best ready
module, skip it when already completed, otherwise create its task. -/
def dispatchLoop (C : Ctx) : Nat → BState → Option BState
  | 0, _ => none
  | fuel + 1, st =>
    match st.ready with
    | [] => some st
    | r :: rs =>
      if st.inFlight.length < C.jobsN then
        let m := bestOf C r rs
        if m ∈ st.completed then
          dispatchLoop C fuel { st with ready := st.ready.erase m }
        else
          dispatchLoop C fuel { st with
            ready := st.ready.erase m,
            inFlight := m :: st.inFlight,
            events := st.events ++ [Event.dispatched m] }
      else some st

/-- The nonempty completion set one asyncio.wait returns, as chosen by
the oracle: the oracle picks any subset of the in-flight tasks in any
order, defaulting to all of them when its pick selects none. -/
def chooseDone (pick : List String) (inflight : List String) : List String :=
  let d := (pick.filter (fun m => m ∈ inflight)).dedup
  if d.isEmpty then inflight else d

/-- The outer while loop of run_build: dispatch while capacity remains,
break when nothing is in flight, otherwise await some completions and
process them. -/
def mainLoop (C : Ctx) (cwFuel : Nat) : Nat → BState → Option BState
  | 0, _ => none
  | fuel + 1, st =>
    if st.ready.isEmpty && st.inFlight.isEmpty then some st
    else
      match dispatchLoop C (st.ready.length + 1) st with
      | none => none
      | some st1 =>
        if st1.inFlight.isEmpty then some st1
        else
          match processDone C cwFuel (chooseDone (C.pickDone fuel) st1.inFlight) st1 with
          | none => none
          | some st2 => mainLoop C cwFuel fuel st2

/-- Maximum of a list of naturals, zero when empty, as Python max over
the nonempty list of child lengths combined with the empty guard. -/
def natMaxList (l : List Nat) : Nat :=
  l.foldl max 0

/-- builder._critical_path_lengths: the length of a module is zero when
no module of the induced set depends on it, else one more than the
maximal length of such a dependent.  Python memoises this recursion; the
model recomputes it, which agrees on the acyclic graphs the scheduler
reaches it on, with fuel bounding the recursion depth. -/
def cplGo (children : String → List String) : Nat → String → Nat
  | 0, _ => 0
  | fuel + 1, m =>
    match children m with
    | [] => 0
    | c :: cs => 1 + natMaxList ((c :: cs).map (cplGo children fuel))

/-- Everything run_build consumes: the modules that have queued specs
(the module_specs keys in insertion order), the module DAG, the incoming
stale set, the outcome oracle standing for build_one, the completion
choice oracle standing for the asyncio.wait nondeterminism, and the
requested concurrency. -/
structure SchedParams where
  specKeys : List String
  moduleDag : List (String × List String)
  staleIn : List String
  genResult : String → Bool × List String
  pickDone : Nat → List String
  jobs : Int

/-- Errors of the scheduler model. -/
inductive RunErr
  | cycleFound (msg : String)
  | outOfFuel
deriving DecidableEq, Repr

/-- The final output of one scheduler run: the report fields together
with the ghost event history. -/
structure RunOut where
  generated : List String
  skipped : List String
  failed : List (String × List String)
  events : List Event
deriving DecidableEq, Repr

/-- The report run_build returns. -/
structure BuildReport where
  generated : List String
  skipped : List String
  failed : List (String × List String)
deriving DecidableEq, Repr

/-- Fuel with which run_build expands the stale set. -/
def expandFuel (P : SchedParams) : Nat :=
  P.moduleDag.length + P.staleIn.length + 1

/-- The expanded stale set of a run. -/
def expandedOf (P : SchedParams) : Option (List String) :=
  expand_stale_modules P.moduleDag P.staleIn (expandFuel P)

/-- The induced stale set of a run: the expansion restricted to modules
with queued specs. -/
def staleOf (P : SchedParams) : List String :=
  P.specKeys.filter (fun m => m ∈ (expandedOf P).getD [])

/-- The skipped set of a run. -/
def skippedOf (P : SchedParams) : List String :=
  P.specKeys.filter (fun m => m ∉ staleOf P)

/-- Module dependencies from the input DAG. -/
def depsOfDag (P : SchedParams) (m : String) : List String :=
  graphDeps P.moduleDag m

/-- deps_in_stale: the dependencies of a stale module that are stale. -/
def depsInOf (P : SchedParams) (m : String) : List String :=
  (depsOfDag P m).filter (fun d => d ∈ staleOf P)

/-- The sorted dependents map the complete coroutine iterates. -/
def dependentsOfP (P : SchedParams) (d : String) : List String :=
  sortStr ((staleOf P).filter (fun m => d ∈ depsInOf P m))

/-- The children map of _critical_path_lengths: dependents within the
induced set, read off the full module DAG. -/
def childrenOf (P : SchedParams) (m : String) : List String :=
  (staleOf P).filter (fun c => m ∈ depsInOf P c)

/-- The priorities run_build computes. -/
def prioOf (P : SchedParams) (m : String) : Nat :=
  cplGo (childrenOf P) ((staleOf P).length + 1) m

/-- The induced subgraph handed to the pre-flight acyclicity check. -/
def inducedGraph (P : SchedParams) : List (String × List String) :=
  (staleOf P).map (fun m => (m, depsInOf P m))

/-- Fuel that always suffices for the toposort model on a graph. -/
def topoFuel (graph : List (String × List String)) : Nat :=
  4 * (graph.length + (graph.map (·.2.length)).sum) + 8

/-- Fuel that always suffices for one complete worklist run. -/
def completeFuel (P : SchedParams) : Nat :=
  ((staleOf P).length + 1) *
    (((staleOf P).map (fun m => (dependentsOfP P m).length)).sum + (staleOf P).length + 2)

/-- The scheduler context of a run. -/
def ctxOf (P : SchedParams) : Ctx where
  stale := staleOf P
  depsIn := depsInOf P
  dependentsOf := dependentsOfP P
  prio := prioOf P
  genResult := P.genResult
  jobsN := (max 1 P.jobs).toNat
  pickDone := P.pickDone

/-- The initial scheduler state of a run. -/
def initState (P : SchedParams) : BState where
  indeg := fun m => ((depsInOf P m).length : Int)
  ready := (staleOf P).filter (fun m => (depsInOf P m).length = 0)
  inFlight := []
  completed := []
  generated := []
  failed := []
  events := []

/-- builder.run_build: clamp jobs, expand the stale set and restrict it
to modules with queued specs, return early when nothing is stale, check
the induced subgraph for cycles, run the scheduling loop, and fail with
a scoped cycle error when some stale module never completed. -/
def run_sched (P : SchedParams) : Except RunErr RunOut :=
  match expandedOf P with
  | none => .error .outOfFuel
  | some _ =>
    let stale := staleOf P
    if stale.isEmpty then .ok ⟨[], skippedOf P, [], []⟩
    else
      match toposort (inducedGraph P) (topoFuel (inducedGraph P)) with
      | .error (.cycleFound msg) => .error (.cycleFound msg)
      | .error .outOfFuel => .error .outOfFuel
      | .ok _ =>
        match mainLoop (ctxOf P) (completeFuel P) (stale.length + 1) (initState P) with
        | none => .error .outOfFuel
        | some stF =>
          let remaining := stale.filter (fun m => m ∉ stF.completed)
          if remaining.isEmpty then .ok ⟨stF.generated, skippedOf P, stF.failed, stF.events⟩
          else
            let sub := remaining.map (fun m =>
              (m, (depsInOf P m).filter (fun d => d ∈ remaining)))
            match toposort sub (topoFuel sub) with
            | .error (.cycleFound msg) => .error (.cycleFound msg)
            | .error .outOfFuel => .error .outOfFuel
            | .ok _ => .error (.cycleFound "Dependency cycle detected.")

/-- The build report of a run. -/
def run_build (P : SchedParams) : Except RunErr BuildReport :=
  (run_sched P).map (fun o => ⟨o.generated, o.skipped, o.failed⟩)

/-! ## Predicates used by the theorems -/

/-- Acyclicity of the stale-induced module subgraph: a rank strictly
decreasing along induced dependency edges exists.  On the finite graphs
at hand this is equivalent to the absence of directed cycles. -/
def InducedAcyclic (P : SchedParams) : Prop :=
  ∃ rank : String → Nat, ∀ m ∈ staleOf P, ∀ d ∈ depsInOf P m, rank d < rank m

/-- B transitively depends on A inside the induced stale subgraph: a
nonempty chain of induced dependency edges leads from B down to A. -/
inductive TransDep (C : Ctx) : String → String → Prop
  | base {a b : String} : b ∈ C.stale → a ∈ C.depsIn b → TransDep C a b
  | step {a b c : String} : TransDep C a b → c ∈ C.stale → b ∈ C.depsIn c →
      TransDep C a c

/-- The well-formedness a scheduler context inherits from Python dict
and set semantics: the stale set and each dependency set is duplicate
free, induced dependencies stay inside the stale set, the dependents map
agrees with the dependency map, and the concurrency limit is clamped. -/
structure CtxOK (C : Ctx) : Prop where
  stale_nodup : C.stale.Nodup
  depsIn_sub : ∀ m ∈ C.stale, ∀ d ∈ C.depsIn m, d ∈ C.stale
  depsIn_nodup : ∀ m, (C.depsIn m).Nodup
  dependents_mem : ∀ d m, m ∈ C.dependentsOf d ↔ (m ∈ C.stale ∧ d ∈ C.depsIn m)
  dependents_nodup : ∀ d, (C.dependentsOf d).Nodup
  jobs_pos : 1 ≤ C.jobsN

/-- Growth of the scheduler state under every scheduler operation: the
completed, generated and failed records only gain entries at the front,
the event history only gains entries at the back. -/
structure Ext (st st' : BState) : Prop where
  completed : st.completed <:+ st'.completed
  generated : st.generated <:+ st'.generated
  failed : st.failed <:+ st'.failed
  events : st.events <+: st'.events

/-- The scheduler invariant, generalised over the pending worklist of
the complete coroutine: work counts, for every module, the dependency
completions whose indegree decrement is still outstanding. -/
structure WInv (C : Ctx) (work : List String) (st : BState) : Prop where
  work_stale : ∀ m ∈ work, m ∈ C.stale
  comp_stale : ∀ m ∈ st.completed, m ∈ C.stale
  comp_nodup : st.completed.Nodup
  infl_stale : ∀ m ∈ st.inFlight, m ∈ C.stale
  infl_nodup : st.inFlight.Nodup
  infl_comp : ∀ m ∈ st.inFlight, m ∉ st.completed
  ready_stale : ∀ m ∈ st.ready, m ∈ C.stale
  ready_nodup : st.ready.Nodup
  ready_comp : ∀ m ∈ st.ready, m ∉ st.completed
  ready_infl : ∀ m ∈ st.ready, m ∉ st.inFlight
  ready_indeg : ∀ m ∈ st.ready, st.indeg m = 0
  infl_indeg : ∀ m ∈ st.inFlight, st.indeg m = 0
  gen_sub : ∀ m ∈ st.generated, m ∈ st.completed
  fail_sub : ∀ m ∈ failedKeys st.failed, m ∈ st.completed
  comp_cover : ∀ m ∈ st.completed, m ∈ st.generated ∨ m ∈ failedKeys st.failed
  gen_fail_disj : ∀ m ∈ st.generated, m ∉ failedKeys st.failed
  windeg : ∀ m ∈ C.stale, m ∉ st.completed →
    st.indeg m = (((C.depsIn m).filter (fun d => d ∉ st.completed)).length : Int) +
      work.count m
  wzero : ∀ m ∈ C.stale, m ∉ st.completed → st.indeg m = 0 →
    m ∈ st.ready ∨ m ∈ st.inFlight
  ready_deps : ∀ m ∈ st.ready, ∀ d ∈ C.depsIn m,
    d ∈ st.completed ∧ d ∉ failedKeys st.failed
  disp_deps : ∀ m, Event.dispatched m ∈ st.events → ∀ d ∈ C.depsIn m,
    d ∈ st.completed ∧ d ∉ failedKeys st.failed
  term_comp : ∀ m, Event.terminal m ∈ st.events ↔ m ∈ st.completed
  disp_state : ∀ m, Event.dispatched m ∈ st.events → m ∈ st.inFlight ∨ m ∈ st.completed
  infl_disp : ∀ m ∈ st.inFlight, Event.dispatched m ∈ st.events
  gen_disp : ∀ m ∈ st.generated, Event.dispatched m ∈ st.events
  edge_order : ∀ m, Event.dispatched m ∈ st.events → ∀ d ∈ C.depsIn m,
    [Event.terminal d, Event.dispatched m].Sublist st.events
  fail_reasons : ∀ p ∈ st.failed, Event.dispatched p.1 ∈ st.events ∨
    (p.1 ∈ C.stale ∧ Event.dispatched p.1 ∉ st.events ∧
     (∀ d ∈ C.depsIn p.1, d ∈ st.completed) ∧
     ((C.depsIn p.1).filter (fun d => d ∈ failedKeys st.failed)) ≠ [] ∧
     p.2 = ((C.depsIn p.1).filter (fun d => d ∈ failedKeys st.failed)).map
       (fun d => "Dependency failed: " ++ d))

/-- The scheduler invariant between operations: no outstanding work. -/
def SInv (C : Ctx) (st : BState) : Prop :=
  WInv C [] st

/-- The fuel potential of the complete worklist: pending items plus the
dependents still releasable by completing further modules. -/
def cwPot (C : Ctx) (work : List String) (st : BState) : Nat :=
  work.length +
    (((C.stale.filter (fun x => x ∉ st.completed)).map
      (fun x => (C.dependentsOf x).length)).sum)

/-- The shape of the toposort worklist relative to the recursion stack
given top first: before the leave marker of the stack top come enter
markers for dependencies of that top, and so on down the stack; below
the whole stack only enter markers of graph nodes remain. -/
def ShapeR (g : String → List String) (allN : List String) :
    List TItem → List String → Prop
  | work, [] => ∀ it ∈ work, ∃ n, it = TItem.enter n ∧ n ∈ allN
  | work, t :: srest => ∃ (w1 : List String) (w2 : List TItem),
      work = w1.map TItem.enter ++ TItem.leave t :: w2 ∧
      (∀ x ∈ w1, x ∈ g t) ∧ ShapeR g allN w2 srest

/-- The invariant of the toposort DFS. -/
structure TInv (g : String → List String) (allN : List String)
    (work : List TItem) (ts : TState) : Prop where
  shape : ShapeR g allN work ts.stack.reverse
  temp_stack : ∀ x, x ∈ ts.temp ↔ x ∈ ts.stack
  temp_nodup : ts.temp.Nodup
  stack_nodup : ts.stack.Nodup
  stack_chain : ts.stack.Chain' (fun a b => b ∈ g a)
  stack_sub : ∀ x ∈ ts.stack, x ∈ allN
  perm_sub : ∀ x ∈ ts.perm, x ∈ allN

/-- The fuel potential of the toposort worklist. -/
def topoPot (g : String → List String) (allN : List String)
    (work : List TItem) (ts : TState) : Nat :=
  work.length +
    (((allN.filter (fun n => n ∉ ts.temp ∧ n ∉ ts.perm)).map
      (fun n => (sortStr (g n)).length + 2)).sum)

/-! ## Concrete inputs used by counterexamples and witnesses -/

/-- A hash stand-in for witnesses: prefix the payload, so outputs are
nonempty, never sha256-prefixed, and distinct payloads stay distinct. -/
def hashW (s : String) : String := "H" ++ s

/-- Digest environment for witnesses. -/
def envW : DigestEnv := ⟨fun _ => some "text", fun _ q => some q, hashW⟩

/-- Two entries in one module, used by digest witnesses. -/
def entryA : SpecEntry := ⟨"pkg.m:fa", "pkg.m", "fa", "pkg/m.py", "kwa"⟩

/-- Second witness entry. -/
def entryB : SpecEntry := ⟨"pkg.m:fb", "pkg.m", "fb", "pkg/m.py", "kwb"⟩

/-- Witness spec table. -/
def specsW : List (String × SpecEntry) := [("pkg.m:fa", entryA), ("pkg.m:fb", entryB)]

/-- The two-cycle dependency graph of the cycle-detection scenario. -/
def graphCycW : String → List String :=
  fun s => if s = "pkg.m:fa" then ["pkg.m:fb"] else if s = "pkg.m:fb" then ["pkg.m:fa"] else []

/-- The failing three-module chain of the failure-propagation
counterexample: m2 depends on m1, m3 depends on m2, generation of m1
fails, everything is stale. -/
def chainParams : SchedParams where
  specKeys := ["m1", "m2", "m3"]
  moduleDag := [("m1", []), ("m2", ["m1"]), ("m3", ["m2"])]
  staleIn := ["m1"]
  genResult := fun m => if m = "m1" then (false, ["generation failed"]) else (true, [])
  pickDone := fun _ => []
  jobs := 4

/-- A cyclic module DAG none of whose members is stale, for the
no-stale early return. -/
def cycNoStaleParams : SchedParams where
  specKeys := ["a", "b"]
  moduleDag := [("a", ["b"]), ("b", ["a"])]
  staleIn := []
  genResult := fun _ => (true, [])
  pickDone := fun _ => []
  jobs := 1

/-- The two-module success scenario used by scheduler witnesses. -/
def twoChainParams : SchedParams where
  specKeys := ["a", "b"]
  moduleDag := [("a", []), ("b", ["a"])]
  staleIn := ["a", "b"]
  genResult := fun _ => (true, [])
  pickDone := fun _ => []
  jobs := 1

/-- Third witness entry. -/
def entryC : SpecEntry := ⟨"pkg.m:fc", "pkg.m", "fc", "pkg/m.py", "kwc"⟩

/-- Witness spec table with three entries. -/
def specsW3 : List (String × SpecEntry) :=
  [("pkg.m:fa", entryA), ("pkg.m:fb", entryB), ("pkg.m:fc", entryC)]

/-- A dependency graph for the order-independence witness. -/
def gPermA : String → List String :=
  fun sr => if sr = "pkg.m:fb" then ["pkg.m:fa", "pkg.m:fc"] else []

/-- The same graph with each dependency set permuted. -/
def gPermB : String → List String :=
  fun sr => if sr = "pkg.m:fb" then ["pkg.m:fc", "pkg.m:fa"] else []

/-- A second file system differing from the witness one only on a file
no spec entry reads. -/
def fsW2 : String → Option String :=
  fun p => if p = "unrelated.py" then some "junk" else some "text"

/-- The module table of the staleness witness. -/
def moduleSpecsW : List (String × List SpecEntry) := [("pkg.m", [entryA, entryB])]

/-! ## Theorems: order and sort lemmas -/

instance : IsTotal String strLe :=
  ⟨fun a b => charsLe_total a.data b.data⟩

instance : IsTrans String strLe :=
  ⟨fun a b c => charsLe_trans a.data b.data c.data⟩

instance : IsAntisymm String strLe :=
  ⟨fun a b h1 h2 => by
    cases a with
    | mk da => cases b with
      | mk db => exact congrArg String.mk (charsLe_antisymm da db h1 h2)⟩

instance : IsRefl String strLe :=
  ⟨fun a => charsLe_refl a.data⟩

theorem sortStr_perm (l : List String) : List.Perm (sortStr l) l :=
  List.perm_insertionSort strLe l

theorem mem_sortStr {a : String} {l : List String} : a ∈ sortStr l ↔ a ∈ l :=
  (sortStr_perm l).mem_iff

theorem sortStr_nodup {l : List String} (h : l.Nodup) : (sortStr l).Nodup :=
  (sortStr_perm l).nodup_iff.mpr h

theorem sortStr_length (l : List String) : (sortStr l).length = l.length :=
  (sortStr_perm l).length_eq

theorem sortStr_sorted (l : List String) : (sortStr l).Sorted strLe :=
  List.sorted_insertionSort strLe l

theorem sortStr_eq_of_perm {l1 l2 : List String} (h : List.Perm l1 l2) :
    sortStr l1 = sortStr l2 :=
  List.eq_of_perm_of_sorted ((sortStr_perm l1).trans (h.trans (sortStr_perm l2).symm))
    (sortStr_sorted l1) (sortStr_sorted l2)

theorem sortEntries_perm (es : List SpecEntry) : List.Perm (sortEntries es) es :=
  List.perm_insertionSort _ es

/-- Two key-sorted lists that are permutations of one another and whose
keys are duplicate free are equal. -/
theorem perm_sorted_key_eq {α : Type} (k : α → String) :
    ∀ {l1 l2 : List α}, List.Perm l1 l2 →
      l1.Sorted (fun a b => strLe (k a) (k b)) →
      l2.Sorted (fun a b => strLe (k a) (k b)) →
      (l1.map k).Nodup → l1 = l2
  | [], l2, h, _, _, _ => h.nil_eq
  | a :: as, l2, h, hs1, hs2, hn => by
    have ha2 : a ∈ l2 := h.mem_iff.mp (List.mem_cons_self a as)
    cases l2 with
    | nil => exact absurd h.symm.nil_eq (by simp)
    | cons b bs =>
      have hb1 : b ∈ a :: as := h.mem_iff.mpr (List.mem_cons_self b bs)
      have hab : a = b := by
        rcases List.mem_cons.mp ha2 with h1 | h1
        · exact h1
        rcases List.mem_cons.mp hb1 with h2 | h2
        · exact h2.symm
        have hle1 : strLe (k a) (k b) := (List.sorted_cons.mp hs1).1 b h2
        have hle2 : strLe (k b) (k a) := (List.sorted_cons.mp hs2).1 a h1
        have hk : k a = k b := antisymm hle1 hle2
        have hmem : k b ∈ as.map k := List.mem_map_of_mem k h2
        exact absurd (hk ▸ hmem) (List.nodup_cons.mp hn).1
      subst hab
      have hperm : List.Perm as bs := (List.perm_cons a).mp h
      have := perm_sorted_key_eq k hperm (List.sorted_cons.mp hs1).2
        (List.sorted_cons.mp hs2).2 (List.nodup_cons.mp hn).2
      rw [this]

theorem sortEntries_sorted (es : List SpecEntry) :
    (sortEntries es).Sorted (fun a b => strLe a.spec_ref b.spec_ref) := by
  haveI : IsTotal SpecEntry (fun a b => strLe a.spec_ref b.spec_ref) :=
    ⟨fun a b => charsLe_total _ _⟩
  haveI : IsTrans SpecEntry (fun a b => strLe a.spec_ref b.spec_ref) :=
    ⟨fun a b c => charsLe_trans _ _ _⟩
  exact List.sorted_insertionSort _ es

theorem sortEntries_eq_of_perm {l1 l2 : List SpecEntry} (h : List.Perm l1 l2)
    (hn : (l1.map (·.spec_ref)).Nodup) : sortEntries l1 = sortEntries l2 := by
  refine perm_sorted_key_eq (·.spec_ref)
    ((sortEntries_perm l1).trans (h.trans (sortEntries_perm l2).symm))
    (sortEntries_sorted l1) (sortEntries_sorted l2) ?_
  exact ((sortEntries_perm l1).map (·.spec_ref)).nodup_iff.mpr hn

/-! ## Theorems: digest congruence -/

theorem lookup_mem {α : Type} : ∀ {l : List (String × α)} {k : String} {v : α},
    l.lookup k = some v → (k, v) ∈ l
  | [], _, _, h => by simp [List.lookup] at h
  | (k', v') :: rest, k, v, h => by
    by_cases hk : k = k'
    · subst hk
      simp [List.lookup] at h
      simp [h]
    · have hne : (k == k') = false := beq_false_of_ne hk
      simp [List.lookup, hne] at h
      exact List.mem_cons_of_mem _ (lookup_mem h)

/-- The digest worker depends on the environment only through the local
digests of the listed specs and the hash function, and on the dependency
graph only through the sorted dependency lists. -/
theorem graphDigestGo_congr (env1 env2 : DigestEnv)
    (specs : List (String × SpecEntry)) (g1 g2 : String → List String)
    (hg : ∀ sr, sortStr (g1 sr) = sortStr (g2 sr))
    (hl : ∀ p ∈ specs, local_digest env1 p.2 = local_digest env2 p.2)
    (hh : env1.hashF = env2.hashF) :
    ∀ fuel visiting memo ws,
      graphDigestGo env1 specs g1 fuel visiting memo ws =
      graphDigestGo env2 specs g2 fuel visiting memo ws := by
  intro fuel
  induction fuel with
  | zero => intro visiting memo ws; rfl
  | succ fuel ih =>
    intro visiting memo ws
    cases ws with
    | nil => rfl
    | cons sr rest =>
      simp only [graphDigestGo]
      cases hmemo : memo.lookup sr with
      | some d => rw [ih]
      | none =>
        by_cases hv : sr ∈ visiting
        · simp only [if_pos hv]
        · simp only [if_neg hv]
          cases hspec : specs.lookup sr with
          | none => rfl
          | some e =>
            have hld : local_digest env1 e = local_digest env2 e :=
              hl (sr, e) (lookup_mem hspec)
            simp only [hld, hg, hh, ih]

/-- module_digest is invariant under permuting the module entry list
and the dependency lists, provided the entry references are duplicate
free (they are dict keys in Python). -/
theorem module_digest_perm (env : DigestEnv) (specs : List (String × SpecEntry))
    (g1 g2 : String → List String) (fuel : Nat) (n : String)
    (l1 l2 : List SpecEntry) (hperm : List.Perm l1 l2)
    (hn : (l1.map (·.spec_ref)).Nodup)
    (hg : ∀ sr, List.Perm (g1 sr) (g2 sr)) :
    module_digest env specs g1 fuel n l1 = module_digest env specs g2 fuel n l2 := by
  unfold module_digest
  rw [sortEntries_eq_of_perm hperm hn,
    graphDigestGo_congr env env specs g1 g2 (fun sr => sortStr_eq_of_perm (hg sr))
      (fun _ _ => rfl) rfl]

theorem extract_source_segment_congr (fs1 fs2 : String → Option String)
    (segOf : String → String → Option String) (h1 h2 : String → String)
    (e : SpecEntry) (hfs : fs1 e.source_file = fs2 e.source_file) :
    extract_source_segment ⟨fs1, segOf, h1⟩ e = extract_source_segment ⟨fs2, segOf, h2⟩ e := by
  unfold extract_source_segment
  dsimp only
  rw [hfs]

theorem local_digest_congr (fs1 fs2 : String → Option String)
    (segOf : String → String → Option String) (h : String → String)
    (e : SpecEntry) (hfs : fs1 e.source_file = fs2 e.source_file) :
    local_digest ⟨fs1, segOf, h⟩ e = local_digest ⟨fs2, segOf, h⟩ e := by
  unfold local_digest
  rw [extract_source_segment_congr fs1 fs2 segOf h h e hfs]

/-- The digest worker ignores the file system beyond the source files
of the listed specs. -/
theorem graphDigestGo_fs (fs1 fs2 : String → Option String)
    (segOf : String → String → Option String) (h : String → String)
    (specs : List (String × SpecEntry)) (g : String → List String)
    (hfs : ∀ p ∈ specs, fs1 p.2.source_file = fs2 p.2.source_file) :
    ∀ fuel visiting memo ws,
      graphDigestGo ⟨fs1, segOf, h⟩ specs g fuel visiting memo ws =
      graphDigestGo ⟨fs2, segOf, h⟩ specs g fuel visiting memo ws :=
  graphDigestGo_congr _ _ specs g g (fun _ => rfl)
    (fun p hp => local_digest_congr fs1 fs2 segOf h p.2 (hfs p hp)) rfl

/-! ## Theorems: staleness detection -/

/-- The stale check of a module fails only when its digest computation
does; when the digest computes, it returns a boolean. -/
theorem staleCheckOne_total (env : DigestEnv) (specs : List (String × SpecEntry))
    (graph : String → List String) (fuel : Nat) (artifact : String → ReadRes)
    (m : String) (entries : List SpecEntry) (dg : String)
    (hdg : module_digest env specs graph fuel m entries = .ok dg) :
    ∃ b, staleCheckOne env specs graph fuel artifact m entries = .ok b := by
  unfold staleCheckOne
  cases artifact m with
  | missing => exact ⟨true, rfl⟩
  | unreadable => exact ⟨true, rfl⟩
  | content s =>
    rw [hdg]
    exact ⟨_, rfl⟩

/-- Reduction of an Except bind over a success. -/
theorem except_bind_ok {ε α β : Type} (a : α) (f : α → Except ε β) :
    ((Except.ok a : Except ε α) >>= f) = f a := rfl

/-- Membership in a conditionally extended accumulator. -/
theorem mem_ite_append {x a : String} {acc : List String} {b : Bool} :
    (x ∈ if b then acc ++ [a] else acc) ↔ (x ∈ acc ∨ (b = true ∧ x = a)) := by
  cases b <;> simp

/-- The stale condition of one module, under a hash function that
yields nonempty digests without an sha256 prefix: stale exactly when
the artifact is missing, unreadable, carries no parsable embedded
digest, or its embedded digest differs from the computed one. -/
theorem staleCheckOne_iff (env : DigestEnv) (specs : List (String × SpecEntry))
    (graph : String → List String) (fuel : Nat) (artifact : String → ReadRes)
    (m : String) (entries : List SpecEntry) (dg : String)
    (hdg : module_digest env specs graph fuel m entries = .ok dg)
    (hne : dg ≠ "") (hpre : ¬ isPrefixOfStr "sha256:" dg = true) :
    (staleCheckOne env specs graph fuel artifact m entries = .ok true ↔
      (artifact m = .missing ∨ artifact m = .unreadable ∨
        ∃ s, artifact m = .content s ∧
          (normalize_digest (extract_module_digest s) = none ∨
           normalize_digest (extract_module_digest s) ≠ some dg))) := by
  unfold staleCheckOne
  have hnorm : normalize_digest (some dg) = some dg := by
    unfold normalize_digest
    simp [hne, hpre]
  cases hart : artifact m with
  | missing => simp [hart]
  | unreadable => simp [hart]
  | content s =>
    rw [hdg]
    dsimp only [except_bind_ok]
    simp only [hnorm, Except.ok.injEq, hart]
    cases hnd : normalize_digest (extract_module_digest s) with
    | none => simp [hnd]
    | some v =>
      by_cases hv : v = dg
      · subst hv
        simp [hnd]
      · simp [hnd, hv]

/-- The fold of detect_stale_modules accumulates exactly the modules
whose stale check returned true. -/
theorem detect_stale_fold (env : DigestEnv) (specs : List (String × SpecEntry))
    (graph : String → List String) (fuel : Nat) (artifact : String → ReadRes) :
    ∀ (ms : List (String × List SpecEntry)) (acc : List String),
      (∀ p ∈ ms, ∃ b, staleCheckOne env specs graph fuel artifact p.1 p.2 = .ok b) →
      ∃ l, (ms.foldlM (fun acc p => do
          let st ← staleCheckOne env specs graph fuel artifact p.1 p.2
          .ok (if st then acc ++ [p.1] else acc)) acc) = .ok l ∧
        ∀ x, x ∈ l ↔ (x ∈ acc ∨ ∃ p ∈ ms,
          x = p.1 ∧ staleCheckOne env specs graph fuel artifact p.1 p.2 = .ok true)
  | [], acc, _ => ⟨acc, rfl, by simp⟩
  | p :: ms, acc, hok => by
    obtain ⟨b, hb⟩ := hok p (List.mem_cons_self p ms)
    obtain ⟨l, hl, hmem⟩ := detect_stale_fold env specs graph fuel artifact ms
      (if b then acc ++ [p.1] else acc)
      (fun q hq => hok q (List.mem_cons_of_mem p hq))
    refine ⟨l, ?_, ?_⟩
    · simp only [List.foldlM, hb, except_bind_ok]
      exact hl
    · intro x
      rw [hmem x, mem_ite_append]
      constructor
      · rintro ((hx | ⟨hbt, hxp⟩) | ⟨q, hq, hxq, hq2⟩)
        · exact .inl hx
        · exact .inr ⟨p, List.mem_cons_self p ms, hxp, hbt ▸ hb⟩
        · exact .inr ⟨q, List.mem_cons_of_mem p hq, hxq, hq2⟩
      · rintro (hx | ⟨q, hq, hxq, hq2⟩)
        · exact .inl (.inl hx)
        · rcases List.mem_cons.mp hq with h1 | h1
          · subst h1
            rw [hq2] at hb
            cases hb
            exact .inl (.inr ⟨rfl, hxq⟩)
          · exact .inr ⟨q, h1, hxq, hq2⟩

/-! ## Theorems: generation with retry -/

/-- Closed-form behaviour of generate_with_retry at its default bound
of two attempts. -/
theorem generate_with_retry_eq (e : GenEnv) :
    generate_with_retry e 2 =
      (if e.validate (e.gen 1 none) = [] then ⟨1, some (e.gen 1 none), []⟩
       else
         let ctx := (e.validate (e.gen 1 none)).map
           (fun s => "previous output errors: " ++ s)
         if e.validate (e.gen 2 (some ctx)) = [] then ⟨2, some (e.gen 2 (some ctx)), []⟩
         else ⟨2, some (e.gen 2 (some ctx)), e.validate (e.gen 2 (some ctx))⟩) := by
  unfold generate_with_retry
  by_cases h1 : e.validate (e.gen 1 none) = []
  · simp [retryLoop, h1]
  · by_cases h2 : e.validate (e.gen 2 (some ((e.validate (e.gen 1 none)).map
        (fun s => "previous output errors: " ++ s)))) = []
    · simp [retryLoop, h1, h2, Option.getD]
    · simp [retryLoop, h1, h2, Option.getD]

/-! ## Theorems: cycle error messages of the digest engine -/

/-- Inversion of a failing Except bind. -/
theorem except_bind_error_inv {ε α β : Type} {x : Except ε α} {f : α → Except ε β}
    {e : ε} (h : (x >>= f) = .error e) :
    x = .error e ∨ ∃ a, x = .ok a ∧ f a = .error e := by
  cases x with
  | error e' =>
    left
    cases h
    rfl
  | ok a => exact .inr ⟨a, rfl, h⟩

/-- local_digest never raises a cycle error. -/
theorem local_digest_no_cycle (env : DigestEnv) (e : SpecEntry) (msg : String) :
    local_digest env e ≠ .error (.cycleDetected msg) := by
  unfold local_digest extract_source_segment
  cases hfs : env.fs e.source_file with
  | none => simp [Except.map]
  | some src =>
    cases hseg : env.segOf src e.qualname with
    | none => simp [Except.map, hseg]
    | some seg => simp [Except.map, hseg]

/-- Every cycle error the digest worker raises carries the message
naming the re-entered reference. -/
theorem graphDigestGo_cycle_msg (env : DigestEnv)
    (specs : List (String × SpecEntry)) (g : String → List String) :
    ∀ fuel visiting memo ws msg,
      graphDigestGo env specs g fuel visiting memo ws =
        .error (.cycleDetected msg) →
      ∃ sr, msg = "Dependency cycle detected while hashing: " ++ sr := by
  intro fuel
  induction fuel with
  | zero =>
    intro visiting memo ws msg h
    cases h
  | succ fuel ih =>
    intro visiting memo ws msg h
    cases ws with
    | nil => cases h
    | cons sr rest =>
      rw [graphDigestGo] at h
      split at h
      · rcases except_bind_error_inv h with h1 | ⟨a, _, h2⟩
        · exact ih _ _ _ _ h1
        · cases h2
      · split at h
        · cases h
          exact ⟨sr, rfl⟩
        · split at h
          · cases h
          · rcases except_bind_error_inv h with h1 | ⟨ld, _, h2⟩
            · exact absurd h1 (local_digest_no_cycle env _ msg)
            · rcases except_bind_error_inv h2 with h3 | ⟨pr, _, h4⟩
              · exact ih _ _ _ _ h3
              · rcases except_bind_error_inv h4 with h5 | ⟨pr2, _, h6⟩
                · exact ih _ _ _ _ h5
                · cases h6

/-! ## Theorems: list accounting helpers for the scheduler -/

theorem count_nodup {l : List String} (h : l.Nodup) (a : String) :
    l.count a = if a ∈ l then 1 else 0 := by
  by_cases ha : a ∈ l
  · rw [if_pos ha]
    exact List.count_eq_one_of_mem h ha
  · rw [if_neg ha]
    exact List.count_eq_zero_of_not_mem ha

theorem filter_not_mem_cons_length {l : List String} (hl : l.Nodup)
    {dep : String} {completed : List String} (hdc : dep ∉ completed) :
    (l.filter (fun d => d ∉ dep :: completed)).length +
      (if dep ∈ l then 1 else 0) =
    (l.filter (fun d => d ∉ completed)).length := by
  induction l with
  | nil => simp
  | cons x xs ih =>
    have hx : x ∉ xs := (List.nodup_cons.mp hl).1
    have ih' := ih (List.nodup_cons.mp hl).2
    by_cases hxd : x = dep
    · subst hxd
      have hfc : xs.filter (fun d => d ∉ x :: completed) =
          xs.filter (fun d => d ∉ completed) := by
        apply List.filter_congr
        intro y hy
        have hyx : ¬ y = x := fun h => hx (h ▸ hy)
        simp [hyx]
      simp at hfc
      simp [List.filter_cons, hdc, hx]
      rw [hfc]
    · have hdx : ¬ dep = x := fun h => hxd h.symm
      by_cases hdxs : dep ∈ xs <;> by_cases hxc : x ∈ completed <;>
        simp [List.filter_cons, hxc, hxd, hdx, hdxs] at ih' ⊢ <;> omega

theorem filter_length_le {α : Type} (l : List α) (p q : α → Bool)
    (himp : ∀ x ∈ l, p x = true → q x = true) :
    (l.filter p).length ≤ (l.filter q).length := by
  induction l with
  | nil => simp
  | cons x xs ih =>
    have ih' := ih (fun y hy => himp y (List.mem_cons_of_mem x hy))
    simp only [List.filter_cons]
    by_cases hpx : p x = true
    · rw [if_pos hpx, if_pos (himp x (List.mem_cons_self x xs) hpx)]
      simpa using ih'
    · rw [if_neg (by simp [hpx])]
      by_cases hqx : q x = true
      · rw [if_pos hqx]
        simp only [List.length_cons]
        omega
      · rw [if_neg (by simp [hqx])]
        exact ih'

theorem filter_length_lt {α : Type} (l : List α) (p q : α → Bool)
    (himp : ∀ x ∈ l, p x = true → q x = true) (a : α) (ha : a ∈ l)
    (hqa : q a = true) (hpa : p a = false) :
    (l.filter p).length < (l.filter q).length := by
  induction l with
  | nil => cases ha
  | cons x xs ih =>
    simp only [List.filter_cons]
    rcases List.mem_cons.mp ha with h | h
    · subst h
      simp only [hpa, Bool.false_eq_true, if_false, if_pos hqa, List.length_cons]
      have := filter_length_le xs p q (fun y hy => himp y (List.mem_cons_of_mem _ hy))
      omega
    · have ih' := ih (fun y hy => himp y (List.mem_cons_of_mem x hy)) h
      by_cases hpx : p x = true
      · rw [if_pos hpx, if_pos (himp x (List.mem_cons_self x xs) hpx)]
        simpa using ih'
      · rw [if_neg (by simp [hpx])]
        by_cases hqx : q x = true
        · rw [if_pos hqx]
          simp only [List.length_cons]
          omega
        · rw [if_neg (by simp [hqx])]
          exact ih'

/-! ## Theorems: scheduler invariant preservation -/

theorem Ext.refl (st : BState) : Ext st st :=
  ⟨List.suffix_refl _, List.suffix_refl _, List.suffix_refl _, List.prefix_refl _⟩

theorem Ext.trans {s1 s2 s3 : BState} (h1 : Ext s1 s2) (h2 : Ext s2 s3) : Ext s1 s3 :=
  ⟨h1.completed.trans h2.completed, h1.generated.trans h2.generated,
   h1.failed.trans h2.failed, h1.events.trans h2.events⟩

theorem Sublist.ext_events {l : List Event} {s1 s2 : BState}
    (h : l.Sublist s1.events) (he : Ext s1 s2) : l.Sublist s2.events :=
  h.trans he.events.sublist

/-- Dropping a pending decrement for an already completed module. -/
theorem WInv.skip {C : Ctx} {dep : String} {rest : List String} {st : BState}
    (hw : WInv C (dep :: rest) st) (hc : dep ∈ st.completed) : WInv C rest st := by
  refine { hw with
    work_stale := fun m hm => hw.work_stale m (List.mem_cons_of_mem _ hm),
    windeg := ?_ }
  intro m hm hmc
  have := hw.windeg m hm hmc
  rw [List.count_cons] at this
  have hmd : ¬ dep = m := fun h => hmc (h ▸ hc)
  simpa [hmd] using this

/-- The indegree of a module with a pending decrement is positive, so
such a module is neither ready nor in flight. -/
theorem WInv.pending_pos {C : Ctx} {dep : String} {rest : List String} {st : BState}
    (hw : WInv C (dep :: rest) st) (hc : dep ∉ st.completed) :
    1 ≤ st.indeg dep ∧ dep ∉ st.ready ∧ dep ∉ st.inFlight := by
  have hst : dep ∈ C.stale := hw.work_stale dep (List.mem_cons_self _ _)
  have heq := hw.windeg dep hst hc
  rw [List.count_cons_self] at heq
  have hpos : 1 ≤ st.indeg dep := by omega
  refine ⟨hpos, fun hr => ?_, fun hf => ?_⟩
  · have := hw.ready_indeg dep hr
    omega
  · have := hw.infl_indeg dep hf
    omega

/-- Applying one pending decrement that leaves the indegree nonzero. -/
theorem WInv.decrement {C : Ctx} {dep : String} {rest : List String} {st : BState}
    (hw : WInv C (dep :: rest) st) (hc : dep ∉ st.completed)
    (hnz : st.indeg dep - 1 ≠ 0) :
    WInv C rest
      { st with indeg := fun x => if x = dep then st.indeg dep - 1 else st.indeg x } := by
  obtain ⟨hpos, hnready, hninfl⟩ := hw.pending_pos hc
  refine { hw with
    work_stale := fun m hm => hw.work_stale m (List.mem_cons_of_mem _ hm),
    ready_indeg := ?_, infl_indeg := ?_, windeg := ?_, wzero := ?_ }
  · intro m hm
    have hne : ¬ m = dep := fun h => hnready (h ▸ hm)
    simpa [hne] using hw.ready_indeg m hm
  · intro m hm
    have hne : ¬ m = dep := fun h => hninfl (h ▸ hm)
    simpa [hne] using hw.infl_indeg m hm
  · intro m hm hmc
    have heq := hw.windeg m hm hmc
    rw [List.count_cons] at heq
    by_cases hmd : m = dep
    · subst hmd
      simp at heq ⊢
      omega
    · have : ¬ dep = m := fun h => hmd h.symm
      simp [this] at heq
      simpa [hmd] using heq
  · intro m hm hmc hz
    by_cases hmd : m = dep
    · subst hmd
      simp only [if_pos rfl] at hz
      exact absurd hz hnz
    · simp only [if_neg hmd] at hz
      exact hw.wzero m hm hmc hz

/-- Applying the last pending decrement of a module with no failed
dependency: it becomes ready. -/
theorem WInv.pushReady {C : Ctx} {dep : String} {rest : List String} {st : BState}
    (hw : WInv C (dep :: rest) st) (hc : dep ∉ st.completed)
    (hz : st.indeg dep - 1 = 0)
    (hbad : ((C.depsIn dep).filter (fun d => d ∈ failedKeys st.failed)).isEmpty = true) :
    WInv C rest
      { st with indeg := fun x => if x = dep then st.indeg dep - 1 else st.indeg x,
                ready := dep :: st.ready } := by
  obtain ⟨hpos, hnready, hninfl⟩ := hw.pending_pos hc
  have hstale : dep ∈ C.stale := hw.work_stale dep (List.mem_cons_self _ _)
  have heqd := hw.windeg dep hstale hc
  rw [List.count_cons_self] at heqd
  have hF0 : ((C.depsIn dep).filter (fun d => d ∉ st.completed)).length = 0 := by omega
  have hcnt0 : rest.count dep = 0 := by omega
  have hdeps : ∀ d ∈ C.depsIn dep, d ∈ st.completed := by
    intro d hd
    by_contra hdc
    have : d ∈ (C.depsIn dep).filter (fun x => x ∉ st.completed) :=
      List.mem_filter.mpr ⟨hd, by simpa using hdc⟩
    rw [List.length_eq_zero.mp hF0] at this
    cases this
  have hbad' : ∀ d ∈ C.depsIn dep, d ∉ failedKeys st.failed := by
    intro d hd hdf
    have : d ∈ (C.depsIn dep).filter (fun x => x ∈ failedKeys st.failed) :=
      List.mem_filter.mpr ⟨hd, by simpa using hdf⟩
    rw [List.isEmpty_iff.mp hbad] at this
    cases this
  refine { hw with
    work_stale := fun m hm => hw.work_stale m (List.mem_cons_of_mem _ hm),
    ready_stale := ?_, ready_nodup := ?_, ready_comp := ?_, ready_infl := ?_,
    ready_indeg := ?_, infl_indeg := ?_, windeg := ?_, wzero := ?_, ready_deps := ?_ }
  · intro m hm
    rcases List.mem_cons.mp hm with h | h
    · exact h ▸ hstale
    · exact hw.ready_stale m h
  · exact List.nodup_cons.mpr ⟨hnready, hw.ready_nodup⟩
  · intro m hm
    rcases List.mem_cons.mp hm with h | h
    · exact h ▸ hc
    · exact hw.ready_comp m h
  · intro m hm
    rcases List.mem_cons.mp hm with h | h
    · exact h ▸ hninfl
    · exact hw.ready_infl m h
  · intro m hm
    rcases List.mem_cons.mp hm with h | h
    · subst h
      simpa using hz
    · have hne : ¬ m = dep := fun hx => hnready (hx ▸ h)
      simpa [hne] using hw.ready_indeg m h
  · intro m hm
    have hne : ¬ m = dep := fun h => hninfl (h ▸ hm)
    simpa [hne] using hw.infl_indeg m hm
  · intro m hm hmc
    have heq := hw.windeg m hm hmc
    rw [List.count_cons] at heq
    by_cases hmd : m = dep
    · subst hmd
      simp at heq ⊢
      omega
    · have : ¬ dep = m := fun h => hmd h.symm
      simp [this] at heq
      simpa [hmd] using heq
  · intro m hm hmc hzz
    by_cases hmd : m = dep
    · exact .inl (hmd ▸ List.mem_cons_self _ _)
    · simp only [if_neg hmd] at hzz
      rcases hw.wzero m hm hmc hzz with h | h
      · exact .inl (List.mem_cons_of_mem _ h)
      · exact .inr h
  · intro m hm d hd
    rcases List.mem_cons.mp hm with h | h
    · subst h
      exact ⟨hdeps d hd, hbad' d hd⟩
    · exact hw.ready_deps m h d hd

/-- Membership of dispatched events is unchanged by appending a
terminal event. -/
theorem dispatched_mem_append_terminal {evs : List Event} {m d : String} :
    Event.dispatched m ∈ evs ++ [Event.terminal d] ↔ Event.dispatched m ∈ evs := by
  simp

/-- Membership of terminal events after appending one. -/
theorem terminal_mem_append_terminal {evs : List Event} {m d : String} :
    Event.terminal m ∈ evs ++ [Event.terminal d] ↔
      Event.terminal m ∈ evs ∨ m = d := by
  simp [Event.terminal.injEq]

/-- Applying the last pending decrement of a module one of whose stale
dependencies failed: the module is failed immediately and its
dependents are pushed onto the worklist. -/
theorem WInv.failProp {C : Ctx} (hC : CtxOK C) {dep : String} {rest : List String}
    {st : BState} (hw : WInv C (dep :: rest) st) (hc : dep ∉ st.completed)
    (hz : st.indeg dep - 1 = 0)
    (hbad : ¬ ((C.depsIn dep).filter (fun d => d ∈ failedKeys st.failed)).isEmpty = true) :
    WInv C (C.dependentsOf dep ++ rest)
      { st with indeg := fun x => if x = dep then st.indeg dep - 1 else st.indeg x,
                failed := (dep, ((C.depsIn dep).filter
                  (fun d => d ∈ failedKeys st.failed)).map
                    (fun d => "Dependency failed: " ++ d)) :: st.failed,
                completed := dep :: st.completed,
                events := st.events ++ [Event.terminal dep] } := by
  obtain ⟨hpos, hnready, hninfl⟩ := hw.pending_pos hc
  have hstale : dep ∈ C.stale := hw.work_stale dep (List.mem_cons_self _ _)
  have heqd := hw.windeg dep hstale hc
  rw [List.count_cons_self] at heqd
  have hF0 : ((C.depsIn dep).filter (fun d => d ∉ st.completed)).length = 0 := by omega
  have hcnt0 : rest.count dep = 0 := by omega
  have hdeps : ∀ d ∈ C.depsIn dep, d ∈ st.completed := by
    intro d hd
    by_contra hdc
    have : d ∈ (C.depsIn dep).filter (fun x => x ∉ st.completed) :=
      List.mem_filter.mpr ⟨hd, by simpa using hdc⟩
    rw [List.length_eq_zero.mp hF0] at this
    cases this
  have hdepne : ∀ d ∈ C.depsIn dep, d ≠ dep := by
    intro d hd h
    exact hc (h ▸ hdeps d hd)
  have hndisp : Event.dispatched dep ∉ st.events := by
    intro h
    rcases hw.disp_state dep h with h1 | h1
    · exact hninfl h1
    · exact hc h1
  -- the new failed-keys list is the old one with dep in front
  have hfk : ∀ st2fail,
      failedKeys ((dep, st2fail) :: st.failed) = dep :: failedKeys st.failed :=
    fun _ => rfl
  refine ⟨?_, ?_, ?_, ?_, ?_, ?_, ?_, ?_, ?_, ?_, ?_, ?_, ?_, ?_, ?_, ?_, ?_,
    ?_, ?_, ?_, ?_, ?_, ?_, ?_, ?_, ?_⟩
  · intro m hm
    rcases List.mem_append.mp hm with h | h
    · exact ((hC.dependents_mem dep m).mp h).1
    · exact hw.work_stale m (List.mem_cons_of_mem _ h)
  · intro m hm
    rcases List.mem_cons.mp hm with h | h
    · exact h ▸ hstale
    · exact hw.comp_stale m h
  · exact List.nodup_cons.mpr ⟨hc, hw.comp_nodup⟩
  · exact hw.infl_stale
  · exact hw.infl_nodup
  · intro m hm
    have h1 := hw.infl_comp m hm
    have h2 : m ≠ dep := fun h => hninfl (h ▸ hm)
    simp [h2, h1]
  · exact hw.ready_stale
  · exact hw.ready_nodup
  · intro m hm
    have h1 := hw.ready_comp m hm
    have h2 : m ≠ dep := fun h => hnready (h ▸ hm)
    simp [h2, h1]
  · exact hw.ready_infl
  · intro m hm
    have hne : ¬ m = dep := fun h => hnready (h ▸ hm)
    simpa [hne] using hw.ready_indeg m hm
  · intro m hm
    have hne : ¬ m = dep := fun h => hninfl (h ▸ hm)
    simpa [hne] using hw.infl_indeg m hm
  · intro m hm
    exact List.mem_cons_of_mem _ (hw.gen_sub m hm)
  · intro m hm
    rw [hfk] at hm
    rcases List.mem_cons.mp hm with h | h
    · exact h ▸ List.mem_cons_self _ _
    · exact List.mem_cons_of_mem _ (hw.fail_sub m h)
  · intro m hm
    rcases List.mem_cons.mp hm with h | h
    · exact .inr (by rw [hfk]; exact h ▸ List.mem_cons_self _ _)
    · rcases hw.comp_cover m h with h1 | h1
      · exact .inl h1
      · exact .inr (by rw [hfk]; exact List.mem_cons_of_mem _ h1)
  · intro m hm
    rw [hfk]
    have h1 := hw.gen_fail_disj m hm
    have h2 : m ≠ dep := fun h => hc (h ▸ hw.gen_sub m hm)
    simp [h2, h1]
  · intro m hm hmc
    have hmd : m ≠ dep := fun h => hmc (h ▸ List.mem_cons_self _ _)
    have hmc' : m ∉ st.completed := fun h => hmc (List.mem_cons_of_mem _ h)
    have heq := hw.windeg m hm hmc'
    rw [List.count_cons] at heq
    simp [hmd, Ne.symm hmd] at heq
    have hlen : (((C.depsIn m).filter (fun d => d ∉ dep :: st.completed)).length +
        (if dep ∈ C.depsIn m then 1 else 0)) =
        ((C.depsIn m).filter (fun d => d ∉ st.completed)).length :=
      filter_not_mem_cons_length (hC.depsIn_nodup m) hc
    by_cases hdd : dep ∈ C.depsIn m
    · have hcd1 : (C.dependentsOf dep).count m = 1 := by
        rw [count_nodup (hC.dependents_nodup dep),
          if_pos ((hC.dependents_mem dep m).mpr ⟨hm, hdd⟩)]
      rw [if_pos hdd] at hlen
      simp only [List.count_append, hcd1]
      simp [hmd] at hlen ⊢
      omega
    · have hcd0 : (C.dependentsOf dep).count m = 0 := by
        rw [count_nodup (hC.dependents_nodup dep),
          if_neg (fun h => hdd ((hC.dependents_mem dep m).mp h).2)]
      rw [if_neg hdd] at hlen
      simp only [List.count_append, hcd0]
      simp [hmd] at hlen ⊢
      omega
  · intro m hm hmc hzz
    have hmd : m ≠ dep := fun h => hmc (h ▸ List.mem_cons_self _ _)
    have hmc' : m ∉ st.completed := fun h => hmc (List.mem_cons_of_mem _ h)
    simp only [if_neg hmd] at hzz
    exact hw.wzero m hm hmc' hzz
  · intro m hm d hd
    have h1 := hw.ready_deps m hm d hd
    have h2 : d ≠ dep := fun h => hc (h ▸ h1.1)
    rw [hfk]
    exact ⟨List.mem_cons_of_mem _ h1.1, by simp [h2, h1.2]⟩
  · intro m hm d hd
    rw [dispatched_mem_append_terminal] at hm
    have h1 := hw.disp_deps m hm d hd
    have h2 : d ≠ dep := fun h => hc (h ▸ h1.1)
    rw [hfk]
    exact ⟨List.mem_cons_of_mem _ h1.1, by simp [h2, h1.2]⟩
  · intro m
    rw [terminal_mem_append_terminal]
    constructor
    · rintro (h | h)
      · exact List.mem_cons_of_mem _ ((hw.term_comp m).mp h)
      · exact h ▸ List.mem_cons_self _ _
    · intro h
      rcases List.mem_cons.mp h with h1 | h1
      · exact .inr h1
      · exact .inl ((hw.term_comp m).mpr h1)
  · intro m hm
    rw [dispatched_mem_append_terminal] at hm
    rcases hw.disp_state m hm with h | h
    · exact .inl h
    · exact .inr (List.mem_cons_of_mem _ h)
  · intro m hm
    exact List.mem_append_left _ (hw.infl_disp m hm)
  · intro m hm
    exact List.mem_append_left _ (hw.gen_disp m hm)
  · intro m hm d hd
    rw [dispatched_mem_append_terminal] at hm
    exact (hw.edge_order m hm d hd).trans (List.sublist_append_left _ _)
  · intro p hp
    rcases List.mem_cons.mp hp with h | h
    · subst h
      refine .inr ⟨hstale, ?_, ?_, ?_, ?_⟩
      · rw [dispatched_mem_append_terminal]
        exact hndisp
      · intro d hd
        exact List.mem_cons_of_mem _ (hdeps d hd)
      · rw [hfk]
        have : (C.depsIn dep).filter (fun d => d ∈ dep :: failedKeys st.failed) =
            (C.depsIn dep).filter (fun d => d ∈ failedKeys st.failed) := by
          apply List.filter_congr
          intro d hd
          simp [hdepne d hd]
        rw [this]
        intro hnil
        rw [hnil] at hbad
        exact hbad rfl
      · rw [hfk]
        have : (C.depsIn dep).filter (fun d => d ∈ dep :: failedKeys st.failed) =
            (C.depsIn dep).filter (fun d => d ∈ failedKeys st.failed) := by
          apply List.filter_congr
          intro d hd
          simp [hdepne d hd]
        rw [this]
    · rcases hw.fail_reasons p h with h1 | ⟨hps, hpd, hpc, hpn, hpe⟩
      · exact .inl (List.mem_append_left _ h1)
      · have hdnp : dep ∉ C.depsIn p.1 := fun hin => hc (hpc dep hin)
        have hfilt : (C.depsIn p.1).filter (fun d => d ∈ dep :: failedKeys st.failed) =
            (C.depsIn p.1).filter (fun d => d ∈ failedKeys st.failed) := by
          apply List.filter_congr
          intro d hd
          have : d ≠ dep := fun hx => hdnp (hx ▸ hd)
          simp [this]
        refine .inr ⟨hps, ?_, fun d hd => List.mem_cons_of_mem _ (hpc d hd), ?_, ?_⟩
        · rw [dispatched_mem_append_terminal]
          exact hpd
        · rw [hfk, hfilt]
          exact hpn
        · rw [hfk, hfilt]
          exact hpe

/-- Reduction of a reflexive conditional. -/
theorem ite_self_eq {α : Type} (a : String) (x y : α) : (if a = a then x else y) = x :=
  if_pos rfl

/-- The complete worklist preserves the scheduler invariant and only
extends the records. -/
theorem completeW_inv (C : Ctx) (hC : CtxOK C) :
    ∀ fuel work st st', completeW C fuel work st = some st' → WInv C work st →
      WInv C [] st' ∧ Ext st st' := by
  intro fuel
  induction fuel with
  | zero =>
    intro work st st' h
    cases h
  | succ fuel ih =>
    intro work st st' h hw
    cases work with
    | nil =>
      cases h
      exact ⟨hw, Ext.refl _⟩
    | cons dep rest =>
      rw [completeW] at h
      dsimp only at h
      rw [ite_self_eq] at h
      by_cases hc : dep ∈ st.completed
      · rw [if_pos hc] at h
        exact ih _ _ _ h (hw.skip hc)
      · rw [if_neg hc] at h
        by_cases hnz : st.indeg dep - 1 ≠ 0
        · rw [if_pos hnz] at h
          obtain ⟨h1, h2⟩ := ih _ _ _ h (hw.decrement hc hnz)
          exact ⟨h1, h2.completed, h2.generated, h2.failed, h2.events⟩
        · rw [if_neg hnz] at h
          have hz : st.indeg dep - 1 = 0 := by
            by_contra hne
            exact hnz hne
          by_cases hbad : ((C.depsIn dep).filter
              (fun d => d ∈ failedKeys st.failed)).isEmpty = true
          · rw [if_pos hbad] at h
            obtain ⟨h1, h2⟩ := ih _ _ _ h (hw.pushReady hc hz hbad)
            exact ⟨h1, h2.completed, h2.generated, h2.failed, h2.events⟩
          · rw [if_neg hbad] at h
            have hres := ih _ _ st' h (hw.failProp hC hc hz hbad)
            refine ⟨hres.1, Ext.trans ?_ hres.2⟩
            exact ⟨List.suffix_cons _ _, List.suffix_refl _,
              List.suffix_cons _ _, List.prefix_append _ _⟩

/-- completeW never touches the in-flight set. -/
theorem completeW_inFlight (C : Ctx) :
    ∀ fuel work st st', completeW C fuel work st = some st' →
      st'.inFlight = st.inFlight := by
  intro fuel
  induction fuel with
  | zero =>
    intro work st st' h
    cases h
  | succ fuel ih =>
    intro work st st' h
    cases work with
    | nil =>
      cases h
      rfl
    | cons dep rest =>
      rw [completeW] at h
      dsimp only at h
      rw [ite_self_eq] at h
      by_cases hc : dep ∈ st.completed
      · rw [if_pos hc] at h
        exact ih _ _ _ h
      · rw [if_neg hc] at h
        by_cases hnz : st.indeg dep - 1 ≠ 0
        · rw [if_pos hnz] at h
          have hx := ih _ _ _ h
          exact hx
        · rw [if_neg hnz] at h
          by_cases hbad : ((C.depsIn dep).filter
              (fun d => d ∈ failedKeys st.failed)).isEmpty = true
          · rw [if_pos hbad] at h
            have hx := ih _ _ _ h
            exact hx
          · rw [if_neg hbad] at h
            have hx := ih _ _ _ h
            exact hx

/-- Recording the outcome of one finished build task establishes the
worklist invariant for its dependents. -/
theorem WInv.taskComplete {C : Ctx} (hC : CtxOK C) {m : String} {st : BState}
    (hw : SInv C st) (hin : m ∈ st.inFlight) (res : Bool × List String) :
    WInv C (C.dependentsOf m)
      (if res.1 then
        { st with inFlight := st.inFlight.erase m, completed := m :: st.completed,
                  events := st.events ++ [Event.terminal m],
                  generated := m :: st.generated }
       else
        { st with inFlight := st.inFlight.erase m, completed := m :: st.completed,
                  events := st.events ++ [Event.terminal m],
                  failed := (m, if res.2.isEmpty then ["Unknown error."] else res.2) ::
                    st.failed }) := by
  have hstale : m ∈ C.stale := hw.infl_stale m hin
  have hc : m ∉ st.completed := hw.infl_comp m hin
  have hiz : st.indeg m = 0 := hw.infl_indeg m hin
  have hdisp : Event.dispatched m ∈ st.events := hw.infl_disp m hin
  have hdeps : ∀ d ∈ C.depsIn m, d ∈ st.completed ∧ d ∉ failedKeys st.failed :=
    hw.disp_deps m hdisp
  have hnready : m ∉ st.ready := fun hr => hw.ready_infl m hr hin
  have hfkm : m ∉ failedKeys st.failed := fun hf => hc (hw.fail_sub m hf)
  have herase : ∀ x, x ∈ st.inFlight.erase m ↔ (x ≠ m ∧ x ∈ st.inFlight) :=
    fun x => List.Nodup.mem_erase_iff hw.infl_nodup
  have windeg2 : ∀ m' ∈ C.stale, m' ∉ m :: st.completed →
      st.indeg m' =
        (((C.depsIn m').filter (fun d => d ∉ m :: st.completed)).length : Int) +
          ((C.dependentsOf m).count m' : Int) := by
    intro m' hm' hmc
    have hmd : m' ≠ m := fun h => hmc (h ▸ List.mem_cons_self _ _)
    have hmc' : m' ∉ st.completed := fun h => hmc (List.mem_cons_of_mem _ h)
    have heq := hw.windeg m' hm' hmc'
    simp only [List.count_nil] at heq
    have hlen : (((C.depsIn m').filter (fun d => d ∉ m :: st.completed)).length +
        (if m ∈ C.depsIn m' then 1 else 0)) =
        ((C.depsIn m').filter (fun d => d ∉ st.completed)).length :=
      filter_not_mem_cons_length (hC.depsIn_nodup m') hc
    by_cases hdd : m ∈ C.depsIn m'
    · have hcd1 : (C.dependentsOf m).count m' = 1 := by
        rw [count_nodup (hC.dependents_nodup m),
          if_pos ((hC.dependents_mem m m').mpr ⟨hm', hdd⟩)]
      rw [if_pos hdd] at hlen
      simp [hcd1] at hlen heq ⊢
      omega
    · have hcd0 : (C.dependentsOf m).count m' = 0 := by
        rw [count_nodup (hC.dependents_nodup m),
          if_neg (fun h => hdd ((hC.dependents_mem m m').mp h).2)]
      rw [if_neg hdd] at hlen
      simp [hcd0] at hlen heq ⊢
      omega
  cases hres : res.1 with
  | true =>
    rw [if_pos rfl]
    refine ⟨?_, ?_, ?_, ?_, ?_, ?_, ?_, ?_, ?_, ?_, ?_, ?_, ?_, ?_, ?_, ?_, ?_,
      ?_, ?_, ?_, ?_, ?_, ?_, ?_, ?_, ?_⟩
    · intro x hx
      exact ((hC.dependents_mem m x).mp hx).1
    · intro x hx
      rcases List.mem_cons.mp hx with h | h
      · exact h ▸ hstale
      · exact hw.comp_stale x h
    · exact List.nodup_cons.mpr ⟨hc, hw.comp_nodup⟩
    · intro x hx
      exact hw.infl_stale x (((herase x).mp hx).2)
    · exact hw.infl_nodup.erase m
    · intro x hx
      obtain ⟨hxm, hxf⟩ := (herase x).mp hx
      have := hw.infl_comp x hxf
      simp [hxm, this]
    · exact hw.ready_stale
    · exact hw.ready_nodup
    · intro x hx
      have h1 := hw.ready_comp x hx
      have h2 : x ≠ m := fun h => hnready (h ▸ hx)
      simp [h2, h1]
    · intro x hx
      intro hxe
      exact hw.ready_infl x hx ((herase x).mp hxe).2
    · exact hw.ready_indeg
    · intro x hx
      exact hw.infl_indeg x ((herase x).mp hx).2
    · intro x hx
      rcases List.mem_cons.mp hx with h | h
      · exact h ▸ List.mem_cons_self _ _
      · exact List.mem_cons_of_mem _ (hw.gen_sub x h)
    · intro x hx
      exact List.mem_cons_of_mem _ (hw.fail_sub x hx)
    · intro x hx
      rcases List.mem_cons.mp hx with h | h
      · exact .inl (h ▸ List.mem_cons_self _ _)
      · rcases hw.comp_cover x h with h1 | h1
        · exact .inl (List.mem_cons_of_mem _ h1)
        · exact .inr h1
    · intro x hx
      rcases List.mem_cons.mp hx with h | h
      · exact h ▸ hfkm
      · exact hw.gen_fail_disj x h
    · exact windeg2
    · intro x hx hxc hxz
      have hxm : x ≠ m := fun h => hxc (h ▸ List.mem_cons_self _ _)
      have hxc' : x ∉ st.completed := fun h => hxc (List.mem_cons_of_mem _ h)
      rcases hw.wzero x hx hxc' hxz with h | h
      · exact .inl h
      · exact .inr ((herase x).mpr ⟨hxm, h⟩)
    · intro x hx d hd
      have h1 := hw.ready_deps x hx d hd
      exact ⟨List.mem_cons_of_mem _ h1.1, h1.2⟩
    · intro x hx d hd
      rw [dispatched_mem_append_terminal] at hx
      have h1 := hw.disp_deps x hx d hd
      exact ⟨List.mem_cons_of_mem _ h1.1, h1.2⟩
    · intro x
      rw [terminal_mem_append_terminal]
      constructor
      · rintro (h | h)
        · exact List.mem_cons_of_mem _ ((hw.term_comp x).mp h)
        · exact h ▸ List.mem_cons_self _ _
      · intro h
        rcases List.mem_cons.mp h with h1 | h1
        · exact .inr h1
        · exact .inl ((hw.term_comp x).mpr h1)
    · intro x hx
      rw [dispatched_mem_append_terminal] at hx
      rcases hw.disp_state x hx with h | h
      · by_cases hxm : x = m
        · exact .inr (hxm ▸ List.mem_cons_self _ _)
        · exact .inl ((herase x).mpr ⟨hxm, h⟩)
      · exact .inr (List.mem_cons_of_mem _ h)
    · intro x hx
      exact List.mem_append_left _ (hw.infl_disp x ((herase x).mp hx).2)
    · intro x hx
      rcases List.mem_cons.mp hx with h | h
      · exact List.mem_append_left _ (h ▸ hdisp)
      · exact List.mem_append_left _ (hw.gen_disp x h)
    · intro x hx d hd
      rw [dispatched_mem_append_terminal] at hx
      exact (hw.edge_order x hx d hd).trans (List.sublist_append_left _ _)
    · intro p hp
      rcases hw.fail_reasons p hp with h1 | ⟨hps, hpd, hpc, hpn, hpe⟩
      · exact .inl (List.mem_append_left _ h1)
      · refine .inr ⟨hps, ?_, fun d hd => List.mem_cons_of_mem _ (hpc d hd), hpn, hpe⟩
        rw [dispatched_mem_append_terminal]
        exact hpd
  | false =>
    rw [if_neg (by simp [hres])]
    have hfk2 : failedKeys ((m, if res.2.isEmpty then ["Unknown error."] else res.2) ::
        st.failed) = m :: failedKeys st.failed := rfl
    refine ⟨?_, ?_, ?_, ?_, ?_, ?_, ?_, ?_, ?_, ?_, ?_, ?_, ?_, ?_, ?_, ?_, ?_,
      ?_, ?_, ?_, ?_, ?_, ?_, ?_, ?_, ?_⟩
    · intro x hx
      exact ((hC.dependents_mem m x).mp hx).1
    · intro x hx
      rcases List.mem_cons.mp hx with h | h
      · exact h ▸ hstale
      · exact hw.comp_stale x h
    · exact List.nodup_cons.mpr ⟨hc, hw.comp_nodup⟩
    · intro x hx
      exact hw.infl_stale x (((herase x).mp hx).2)
    · exact hw.infl_nodup.erase m
    · intro x hx
      obtain ⟨hxm, hxf⟩ := (herase x).mp hx
      have := hw.infl_comp x hxf
      simp [hxm, this]
    · exact hw.ready_stale
    · exact hw.ready_nodup
    · intro x hx
      have h1 := hw.ready_comp x hx
      have h2 : x ≠ m := fun h => hnready (h ▸ hx)
      simp [h2, h1]
    · intro x hx
      intro hxe
      exact hw.ready_infl x hx ((herase x).mp hxe).2
    · exact hw.ready_indeg
    · intro x hx
      exact hw.infl_indeg x ((herase x).mp hx).2
    · intro x hx
      exact List.mem_cons_of_mem _ (hw.gen_sub x hx)
    · intro x hx
      rw [hfk2] at hx
      rcases List.mem_cons.mp hx with h | h
      · exact h ▸ List.mem_cons_self _ _
      · exact List.mem_cons_of_mem _ (hw.fail_sub x h)
    · intro x hx
      rcases List.mem_cons.mp hx with h | h
      · exact .inr (by rw [hfk2]; exact h ▸ List.mem_cons_self _ _)
      · rcases hw.comp_cover x h with h1 | h1
        · exact .inl h1
        · exact .inr (by rw [hfk2]; exact List.mem_cons_of_mem _ h1)
    · intro x hx
      rw [hfk2]
      have h1 := hw.gen_fail_disj x hx
      have h2 : x ≠ m := fun h => hc (h ▸ hw.gen_sub x hx)
      simp [h2, h1]
    · exact windeg2
    · intro x hx hxc hxz
      have hxm : x ≠ m := fun h => hxc (h ▸ List.mem_cons_self _ _)
      have hxc' : x ∉ st.completed := fun h => hxc (List.mem_cons_of_mem _ h)
      rcases hw.wzero x hx hxc' hxz with h | h
      · exact .inl h
      · exact .inr ((herase x).mpr ⟨hxm, h⟩)
    · intro x hx d hd
      have h1 := hw.ready_deps x hx d hd
      have h2 : d ≠ m := fun h => hc (h ▸ h1.1)
      rw [hfk2]
      exact ⟨List.mem_cons_of_mem _ h1.1, by simp [h2, h1.2]⟩
    · intro x hx d hd
      rw [dispatched_mem_append_terminal] at hx
      have h1 := hw.disp_deps x hx d hd
      have h2 : d ≠ m := fun h => hc (h ▸ h1.1)
      rw [hfk2]
      exact ⟨List.mem_cons_of_mem _ h1.1, by simp [h2, h1.2]⟩
    · intro x
      rw [terminal_mem_append_terminal]
      constructor
      · rintro (h | h)
        · exact List.mem_cons_of_mem _ ((hw.term_comp x).mp h)
        · exact h ▸ List.mem_cons_self _ _
      · intro h
        rcases List.mem_cons.mp h with h1 | h1
        · exact .inr h1
        · exact .inl ((hw.term_comp x).mpr h1)
    · intro x hx
      rw [dispatched_mem_append_terminal] at hx
      rcases hw.disp_state x hx with h | h
      · by_cases hxm : x = m
        · exact .inr (hxm ▸ List.mem_cons_self _ _)
        · exact .inl ((herase x).mpr ⟨hxm, h⟩)
      · exact .inr (List.mem_cons_of_mem _ h)
    · intro x hx
      exact List.mem_append_left _ (hw.infl_disp x ((herase x).mp hx).2)
    · intro x hx
      exact List.mem_append_left _ (hw.gen_disp x hx)
    · intro x hx d hd
      rw [dispatched_mem_append_terminal] at hx
      exact (hw.edge_order x hx d hd).trans (List.sublist_append_left _ _)
    · intro p hp
      rcases List.mem_cons.mp hp with h | h
      · subst h
        refine .inl ?_
        rw [dispatched_mem_append_terminal]
        exact hdisp
      · rcases hw.fail_reasons p h with h1 | ⟨hps, hpd, hpc, hpn, hpe⟩
        · exact .inl (List.mem_append_left _ h1)
        · have hmnp : m ∉ C.depsIn p.1 := fun hin' => hc (hpc m hin')
          have hfilt : (C.depsIn p.1).filter (fun d => d ∈ m :: failedKeys st.failed) =
              (C.depsIn p.1).filter (fun d => d ∈ failedKeys st.failed) := by
            apply List.filter_congr
            intro d hd
            have : d ≠ m := fun hx => hmnp (hx ▸ hd)
            simp [this]
          refine .inr ⟨hps, ?_, fun d hd => List.mem_cons_of_mem _ (hpc d hd), ?_, ?_⟩
          · rw [dispatched_mem_append_terminal]
            exact hpd
          · rw [hfk2, hfilt]
            exact hpn
          · rw [hfk2, hfilt]
            exact hpe

/-- processDone preserves the scheduler invariant, extends the records,
and completes every processed module. -/
theorem processDone_inv (C : Ctx) (hC : CtxOK C) (cwFuel : Nat) :
    ∀ done st st', processDone C cwFuel done st = some st' → SInv C st →
      (∀ m ∈ done, m ∈ st.inFlight) → done.Nodup →
      SInv C st' ∧ Ext st st' ∧ (∀ m ∈ done, m ∈ st'.completed) ∧
        (∀ m ∈ st'.inFlight, m ∈ st.inFlight) := by
  intro done
  induction done with
  | nil =>
    intro st st' h hw _ _
    cases h
    exact ⟨hw, Ext.refl _, by simp, fun m hm => hm⟩
  | cons m ms ih =>
    intro st st' h hw hdone hnd
    rw [processDone] at h
    dsimp only at h
    have hin : m ∈ st.inFlight := hdone m (List.mem_cons_self _ _)
    have hw2 := WInv.taskComplete hC hw hin (C.genResult m)
    cases hcw : completeW C cwFuel (C.dependentsOf m)
        (if (C.genResult m).1 then
          { st with inFlight := st.inFlight.erase m, completed := m :: st.completed,
                    events := st.events ++ [Event.terminal m],
                    generated := m :: st.generated }
         else
          { st with inFlight := st.inFlight.erase m, completed := m :: st.completed,
                    events := st.events ++ [Event.terminal m],
                    failed := (m, if (C.genResult m).2.isEmpty then ["Unknown error."]
                      else (C.genResult m).2) :: st.failed }) with
    | none =>
      exfalso
      by_cases hok : (C.genResult m).1 <;>
        simp only [hok, if_true, if_false, Bool.false_eq_true] at hcw h <;>
        rw [hcw] at h <;> cases h
    | some st3 =>
      have hrec : processDone C cwFuel ms st3 = some st' := by
        by_cases hok : (C.genResult m).1 <;>
          simp only [hok, if_true, if_false, Bool.false_eq_true] at hcw h <;>
          rw [hcw] at h <;> exact h
      obtain ⟨hw3, hext3⟩ := completeW_inv C hC cwFuel _ _ st3 hcw hw2
      have hfl3 := completeW_inFlight C cwFuel _ _ st3 hcw
      have hflsub : ∀ x ∈ st3.inFlight, x ∈ st.inFlight := by
        intro x hx
        rw [hfl3] at hx
        by_cases hok : (C.genResult m).1 <;> simp only [hok, if_true, if_false,
          Bool.false_eq_true] at hx <;>
          exact (st.inFlight.erase_sublist m).mem hx
      have hcomp3 : m ∈ st3.completed := by
        have : m ∈ (if (C.genResult m).1 then
            { st with inFlight := st.inFlight.erase m, completed := m :: st.completed,
                      events := st.events ++ [Event.terminal m],
                      generated := m :: st.generated }
           else
            { st with inFlight := st.inFlight.erase m, completed := m :: st.completed,
                      events := st.events ++ [Event.terminal m],
                      failed := (m, if (C.genResult m).2.isEmpty then ["Unknown error."]
                        else (C.genResult m).2) :: st.failed } : BState).completed := by
          by_cases hok : (C.genResult m).1 <;> simp [hok]
        exact hext3.completed.subset this
      have hmsin : ∀ x ∈ ms, x ∈ st3.inFlight := by
        intro x hx
        rw [hfl3]
        have hxm : x ≠ m := fun hh => (List.nodup_cons.mp hnd).1 (hh ▸ hx)
        have hxin : x ∈ st.inFlight := hdone x (List.mem_cons_of_mem _ hx)
        by_cases hok : (C.genResult m).1 <;> simp only [hok, if_true, if_false,
          Bool.false_eq_true] <;>
          exact (List.Nodup.mem_erase_iff hw.infl_nodup).mpr ⟨hxm, hxin⟩
      obtain ⟨hw', hext', hcomp', hfl'⟩ := ih st3 st' hrec hw3 hmsin
        (List.nodup_cons.mp hnd).2
      have hext0 : Ext st st3 := by
        refine Ext.trans ?_ ⟨hext3.completed, hext3.generated, hext3.failed, hext3.events⟩
        by_cases hok : (C.genResult m).1 <;> simp only [hok, if_true, if_false,
          Bool.false_eq_true] <;>
          exact ⟨List.suffix_cons _ _, by first
            | exact List.suffix_refl _
            | exact List.suffix_cons _ _, by first
            | exact List.suffix_refl _
            | exact List.suffix_cons _ _, List.prefix_append _ _⟩
      refine ⟨hw', Ext.trans hext0 hext', ?_, fun x hx => hflsub x (hfl' x hx)⟩
      intro x hx
      rcases List.mem_cons.mp hx with h1 | h1
      · exact hext'.completed.subset (h1 ▸ hcomp3)
      · exact hcomp' x h1

/-! ## Theorems: heap ordering -/

theorem charsLt_eq_not_le : ∀ a b : List Char, charsLt a b = !(charsLe b a)
  | [], [] => rfl
  | [], _ :: _ => rfl
  | _ :: _, [] => rfl
  | c :: cs, d :: ds => by
    by_cases h1 : c.toNat < d.toNat
    · simp [charsLt, charsLe, h1, Nat.lt_asymm h1]
    · by_cases h2 : d.toNat < c.toNat
      · simp [charsLt, charsLe, h1, h2]
      · simp [charsLt, charsLe, h1, h2, charsLt_eq_not_le cs ds]

theorem charsLt_iff_not_le {a b : List Char} :
    charsLt a b = true ↔ ¬ (charsLe b a = true) := by
  rw [charsLt_eq_not_le]
  cases charsLe b a <;> simp

theorem charsLt_trans {a b c : List Char} (h1 : charsLt a b = true)
    (h2 : charsLt b c = true) : charsLt a c = true := by
  rw [charsLt_iff_not_le] at h1 h2 ⊢
  intro hca
  rcases charsLe_total b c with h | h
  · exact h1 (charsLe_trans _ _ _ h hca)
  · exact h2 h

theorem keyLtB_iff (C : Ctx) (x y : String) :
    keyLtB C x y = true ↔
      (C.prio y < C.prio x ∨ (C.prio x = C.prio y ∧ charsLt x.data y.data = true)) := by
  unfold keyLtB
  by_cases e : (-(C.prio x : Int)) = (-(C.prio y : Int))
  · have hpe : C.prio x = C.prio y := by omega
    rw [if_pos e]
    simp [hpe]
  · have hpe : ¬ C.prio x = C.prio y := fun h => e (by rw [h])
    rw [if_neg e]
    simp only [decide_eq_true_eq]
    constructor
    · intro h
      exact .inl (by omega)
    · rintro (h | ⟨h, _⟩)
      · omega
      · exact absurd h hpe

theorem keyLtB_false_iff (C : Ctx) (x y : String) :
    keyLtB C x y = false ↔
      (C.prio x < C.prio y ∨ (C.prio x = C.prio y ∧ charsLe y.data x.data = true)) := by
  rw [← Bool.not_eq_true, keyLtB_iff]
  constructor
  · intro h
    push_neg at h
    by_cases hpe : C.prio x = C.prio y
    · refine .inr ⟨hpe, ?_⟩
      have := h.2 hpe
      rcases charsLe_total y.data x.data with hle | hle
      · exact hle
      · by_contra hcon
        exact this (charsLt_iff_not_le.mpr (by simpa using hcon))
    · have h1 := h.1
      omega
  · rintro (h | ⟨hpe, hle⟩) <;> push_neg <;> constructor
    · omega
    · intro hpe
      omega
    · omega
    · intro _
      intro hlt
      exact charsLt_iff_not_le.mp hlt hle

theorem keyLtB_trans (C : Ctx) {x y z : String} (h1 : keyLtB C x y = true)
    (h2 : keyLtB C y z = true) : keyLtB C x z = true := by
  rw [keyLtB_iff] at h1 h2 ⊢
  rcases h1 with h1 | ⟨he1, hc1⟩ <;> rcases h2 with h2 | ⟨he2, hc2⟩
  · exact .inl (by omega)
  · exact .inl (by omega)
  · exact .inl (by omega)
  · exact .inr ⟨he1.trans he2, charsLt_trans hc1 hc2⟩

theorem keyLtB_neg_trans (C : Ctx) {x y z : String} (h1 : keyLtB C x y = false)
    (h2 : keyLtB C y z = false) : keyLtB C x z = false := by
  rw [keyLtB_false_iff] at h1 h2 ⊢
  rcases h1 with h1 | ⟨he1, hc1⟩ <;> rcases h2 with h2 | ⟨he2, hc2⟩
  · exact .inl (by omega)
  · exact .inl (by omega)
  · exact .inl (by omega)
  · exact .inr ⟨he1.trans he2, charsLe_trans _ _ _ hc2 hc1⟩

theorem keyLtB_false_of_beats (C : Ctx) {x y z : String} (h1 : keyLtB C x y = true)
    (h2 : keyLtB C x z = false) : keyLtB C y z = false := by
  by_contra hc
  rw [Bool.not_eq_false] at hc
  have h3 := keyLtB_trans C h1 hc
  rw [h2] at h3
  exact Bool.false_ne_true h3

theorem bestOf_mem (C : Ctx) : ∀ (l : List String) (b : String), bestOf C b l ∈ b :: l
  | [], b => List.mem_cons_self _ _
  | x :: xs, b => by
    rw [bestOf]
    by_cases hk : keyLtB C x b = true
    · rw [if_pos hk]
      rcases List.mem_cons.mp (bestOf_mem C xs x) with h | h
      · rw [h]
        exact List.mem_cons_of_mem _ (List.mem_cons_self _ _)
      · exact List.mem_cons_of_mem _ (List.mem_cons_of_mem _ h)
    · rw [if_neg hk]
      rcases List.mem_cons.mp (bestOf_mem C xs b) with h | h
      · rw [h]
        exact List.mem_cons_self _ _
      · exact List.mem_cons_of_mem _ (List.mem_cons_of_mem _ h)

theorem bestOf_min (C : Ctx) : ∀ (l : List String) (b : String),
    ∀ x ∈ b :: l, keyLtB C x (bestOf C b l) = false
  | [], b => by
    intro x hx
    rcases List.mem_cons.mp hx with h | h
    · subst h
      rw [bestOf, keyLtB_false_iff]
      exact .inr ⟨rfl, charsLe_refl _⟩
    · cases h
  | y :: ys, b => by
    intro x hx
    rw [bestOf]
    by_cases hk : keyLtB C y b = true
    · rw [if_pos hk]
      have hbase := bestOf_min C ys y
      have hyb : keyLtB C y (bestOf C y ys) = false := hbase y (List.mem_cons_self _ _)
      rcases List.mem_cons.mp hx with h | h
      · subst h
        exact keyLtB_false_of_beats C hk hyb
      · rcases List.mem_cons.mp h with h1 | h1
        · subst h1
          exact hyb
        · exact hbase x (List.mem_cons_of_mem _ h1)
    · rw [if_neg hk]
      have hbase := bestOf_min C ys b
      rcases List.mem_cons.mp hx with h | h
      · subst h
        exact hbase x (List.mem_cons_self _ _)
      · rcases List.mem_cons.mp h with h1 | h1
        · subst h1
          exact keyLtB_neg_trans C (by simpa using hk) (hbase b (List.mem_cons_self _ _))
        · exact hbase x (List.mem_cons_of_mem _ h1)

/-- Membership of dispatched events after appending one. -/
theorem dispatched_mem_append_dispatched {evs : List Event} {m d : String} :
    Event.dispatched m ∈ evs ++ [Event.dispatched d] ↔
      Event.dispatched m ∈ evs ∨ m = d := by
  simp [Event.dispatched.injEq]

/-- Membership of terminal events is unchanged by appending a dispatched
event. -/
theorem terminal_mem_append_dispatched {evs : List Event} {m d : String} :
    Event.terminal m ∈ evs ++ [Event.dispatched d] ↔ Event.terminal m ∈ evs := by
  simp

/-- Dispatching a ready module preserves the scheduler invariant. -/
theorem WInv.dispatch {C : Ctx} {m : String} {st : BState}
    (hw : WInv C [] st) (hm : m ∈ st.ready) :
    WInv C [] { st with ready := st.ready.erase m,
                        inFlight := m :: st.inFlight,
                        events := st.events ++ [Event.dispatched m] } := by
  have hcomp : m ∉ st.completed := hw.ready_comp m hm
  have hinfl : m ∉ st.inFlight := hw.ready_infl m hm
  have hstale : m ∈ C.stale := hw.ready_stale m hm
  have hmer : ∀ x, x ∈ st.ready.erase m → x ∈ st.ready :=
    fun x hx => List.mem_of_mem_erase hx
  refine { hw with
    infl_stale := ?_, infl_nodup := ?_, infl_comp := ?_,
    ready_stale := fun x hx => hw.ready_stale x (hmer x hx),
    ready_nodup := hw.ready_nodup.erase m,
    ready_comp := fun x hx => hw.ready_comp x (hmer x hx),
    ready_infl := ?_,
    ready_indeg := fun x hx => hw.ready_indeg x (hmer x hx),
    infl_indeg := ?_, wzero := ?_,
    ready_deps := fun x hx => hw.ready_deps x (hmer x hx),
    disp_deps := ?_, term_comp := ?_, disp_state := ?_, infl_disp := ?_,
    gen_disp := fun x hx => List.mem_append_left _ (hw.gen_disp x hx),
    edge_order := ?_, fail_reasons := ?_ }
  · intro x hx
    rcases List.mem_cons.mp hx with h | h
    · exact h ▸ hstale
    · exact hw.infl_stale x h
  · exact List.nodup_cons.mpr ⟨hinfl, hw.infl_nodup⟩
  · intro x hx
    rcases List.mem_cons.mp hx with h | h
    · exact h ▸ hcomp
    · exact hw.infl_comp x h
  · intro x hx
    obtain ⟨hne, hxr⟩ := (hw.ready_nodup.mem_erase_iff).mp hx
    intro hcon
    rcases List.mem_cons.mp hcon with h | h
    · exact hne h
    · exact hw.ready_infl x hxr h
  · intro x hx
    rcases List.mem_cons.mp hx with h | h
    · exact h ▸ hw.ready_indeg m hm
    · exact hw.infl_indeg x h
  · intro x hx hxc hz
    rcases hw.wzero x hx hxc hz with h | h
    · by_cases hxm : x = m
      · exact .inr (hxm ▸ List.mem_cons_self _ _)
      · exact .inl ((hw.ready_nodup.mem_erase_iff).mpr ⟨hxm, h⟩)
    · exact .inr (List.mem_cons_of_mem _ h)
  · intro x hx d hd
    rcases dispatched_mem_append_dispatched.mp hx with h | h
    · exact hw.disp_deps x h d hd
    · subst h
      exact hw.ready_deps x hm d hd
  · intro x
    rw [terminal_mem_append_dispatched]
    exact hw.term_comp x
  · intro x hx
    rcases dispatched_mem_append_dispatched.mp hx with h | h
    · rcases hw.disp_state x h with h2 | h2
      · exact .inl (List.mem_cons_of_mem _ h2)
      · exact .inr h2
    · subst h
      exact .inl (List.mem_cons_self _ _)
  · intro x hx
    rcases List.mem_cons.mp hx with h | h
    · subst h
      exact List.mem_append_right _ (List.mem_cons_self _ _)
    · exact List.mem_append_left _ (hw.infl_disp x h)
  · intro x hx d hd
    rcases dispatched_mem_append_dispatched.mp hx with h | h
    · exact (hw.edge_order x h d hd).trans (List.sublist_append_left _ _)
    · subst h
      have hdc : d ∈ st.completed := (hw.ready_deps x hm d hd).1
      have hterm : Event.terminal d ∈ st.events := (hw.term_comp d).mpr hdc
      exact List.Sublist.append (List.singleton_sublist.mpr hterm) (List.Sublist.refl _)
  · intro p hp
    rcases hw.fail_reasons p hp with h | ⟨hst, hnd, hcd, hne, heq⟩
    · exact .inl (List.mem_append_left _ h)
    · refine .inr ⟨hst, ?_, hcd, hne, heq⟩
      intro hcon
      rcases dispatched_mem_append_dispatched.mp hcon with h2 | h2
      · exact hnd h2
      · have hpk : p.1 ∈ failedKeys st.failed := List.mem_map_of_mem _ hp
        exact hcomp (h2 ▸ hw.fail_sub p.1 hpk)

/-- The dispatch loop preserves the scheduler invariant, only extends
the state, never completes anything, and stops only when the ready heap
is drained or the concurrency limit is reached. -/
theorem dispatchLoop_inv (C : Ctx) :
    ∀ fuel st st', WInv C [] st → dispatchLoop C fuel st = some st' →
      WInv C [] st' ∧ Ext st st' ∧ st'.completed = st.completed ∧
        (st'.ready = [] ∨ ¬ st'.inFlight.length < C.jobsN) := by
  intro fuel
  induction fuel with
  | zero =>
    intro st st' hw h
    cases h
  | succ fuel ih =>
    intro st st' hw h
    rw [dispatchLoop] at h
    cases hr : st.ready with
    | nil =>
      rw [hr] at h
      cases h
      exact ⟨hw, Ext.refl _, rfl, .inl hr⟩
    | cons r rs =>
      rw [hr] at h
      dsimp only at h
      by_cases hcap : st.inFlight.length < C.jobsN
      · rw [if_pos hcap] at h
        have hmem : bestOf C r rs ∈ st.ready := hr ▸ bestOf_mem C rs r
        by_cases hcm : bestOf C r rs ∈ st.completed
        · exact absurd hcm (hw.ready_comp _ hmem)
        · rw [if_neg hcm] at h
          have hd := hw.dispatch hmem
          rw [hr] at hd
          obtain ⟨h1, h2, h3, h4⟩ := ih _ _ hd h
          refine ⟨h1, Ext.trans ?_ h2, h3, h4⟩
          exact ⟨List.suffix_refl _, List.suffix_refl _,
            List.suffix_refl _, List.prefix_append _ _⟩
      · rw [if_neg hcap] at h
        cases h
        exact ⟨hw, Ext.refl _, rfl, .inr hcap⟩

/-- The dispatch loop finishes inside its ready-plus-one fuel budget. -/
theorem dispatchLoop_some (C : Ctx) :
    ∀ fuel st, st.ready.length < fuel → ∃ st', dispatchLoop C fuel st = some st' := by
  intro fuel
  induction fuel with
  | zero =>
    intro st h
    exact absurd h (Nat.not_lt_zero _)
  | succ fuel ih =>
    intro st h
    rw [dispatchLoop]
    cases hr : st.ready with
    | nil => exact ⟨st, rfl⟩
    | cons r rs =>
      rw [hr] at h
      dsimp only
      by_cases hcap : st.inFlight.length < C.jobsN
      · rw [if_pos hcap]
        have hmem : bestOf C r rs ∈ r :: rs := bestOf_mem C rs r
        have hlen : ((r :: rs).erase (bestOf C r rs)).length < fuel := by
          rw [List.length_erase_of_mem hmem]
          simp only [List.length_cons] at h ⊢
          omega
        by_cases hcm : bestOf C r rs ∈ st.completed
        · rw [if_pos hcm]
          exact ih _ hlen
        · rw [if_neg hcm]
          exact ih _ hlen
      · rw [if_neg hcap]
        exact ⟨st, rfl⟩

/-! ## Theorems: scheduler termination -/

theorem sum_map_filter_le {α : Type} (l : List α) (p : α → Bool) (f : α → Nat) :
    ((l.filter p).map f).sum ≤ (l.map f).sum := by
  induction l with
  | nil => simp
  | cons x xs ih =>
    simp only [List.filter_cons, List.map_cons, List.sum_cons]
    by_cases hp : p x = true
    · rw [if_pos hp]
      simp only [List.map_cons, List.sum_cons]
      omega
    · rw [if_neg (by simp [hp])]
      omega

theorem sum_filter_not_mem_cons {l : List String} (hl : l.Nodup) (f : String → Nat)
    {dep : String} {completed : List String} (hdc : dep ∉ completed) :
    ((l.filter (fun d => d ∉ dep :: completed)).map f).sum +
      (if dep ∈ l then f dep else 0) =
    ((l.filter (fun d => d ∉ completed)).map f).sum := by
  induction l with
  | nil => simp
  | cons x xs ih =>
    have hx : x ∉ xs := (List.nodup_cons.mp hl).1
    have ih' := ih (List.nodup_cons.mp hl).2
    by_cases hxd : x = dep
    · subst hxd
      have hfc : xs.filter (fun d => d ∉ x :: completed) =
          xs.filter (fun d => d ∉ completed) := by
        apply List.filter_congr
        intro y hy
        have hyx : ¬ y = x := fun h => hx (h ▸ hy)
        simp [hyx]
      simp at hfc
      simp [List.filter_cons, hdc, hx]
      rw [hfc]
      omega
    · have hdx : ¬ dep = x := fun h => hxd h.symm
      by_cases hdxs : dep ∈ xs <;> by_cases hxc : x ∈ completed <;>
        simp [List.filter_cons, hxc, hxd, hdx, hdxs] at ih' ⊢ <;> omega

/-- completeW returns within any fuel exceeding its potential. -/
theorem completeW_some (C : Ctx) (hC : CtxOK C) :
    ∀ fuel work st, WInv C work st → cwPot C work st < fuel →
      ∃ st', completeW C fuel work st = some st' := by
  intro fuel
  induction fuel with
  | zero =>
    intro work st _ h
    exact absurd h (Nat.not_lt_zero _)
  | succ fuel ih =>
    intro work st hw hpot
    cases work with
    | nil => exact ⟨st, rfl⟩
    | cons dep rest =>
      rw [completeW]
      dsimp only
      rw [ite_self_eq]
      by_cases hc : dep ∈ st.completed
      · rw [if_pos hc]
        apply ih rest st (hw.skip hc)
        simp only [cwPot, List.length_cons] at hpot ⊢
        omega
      · rw [if_neg hc]
        by_cases hnz : st.indeg dep - 1 ≠ 0
        · rw [if_pos hnz]
          apply ih rest _ (hw.decrement hc hnz)
          simp only [cwPot, List.length_cons] at hpot ⊢
          omega
        · rw [if_neg hnz]
          have hz : st.indeg dep - 1 = 0 := not_not.mp hnz
          by_cases hbad : ((C.depsIn dep).filter
              (fun d => d ∈ failedKeys st.failed)).isEmpty = true
          · rw [if_pos hbad]
            apply ih rest _ (hw.pushReady hc hz hbad)
            simp only [cwPot, List.length_cons] at hpot ⊢
            omega
          · rw [if_neg hbad]
            apply ih _ _ (hw.failProp hC hc hz hbad)
            have hsum := sum_filter_not_mem_cons hC.stale_nodup
              (fun x => (C.dependentsOf x).length) hc
            rw [if_pos (hw.work_stale dep (List.mem_cons_self _ _))] at hsum
            have hbeta : (fun x => (C.dependentsOf x).length) dep =
                (C.dependentsOf dep).length := rfl
            rw [hbeta] at hsum
            simp only [cwPot, List.length_cons, List.length_append] at hpot ⊢
            omega

/-- One bookkeeping pass returns within the fuel bound run_build gives
completeW. -/
theorem processDone_some (C : Ctx) (hC : CtxOK C) (cwFuel : Nat)
    (Hfuel : ∀ m ∈ C.stale, (C.dependentsOf m).length +
      ((C.stale.map (fun x => (C.dependentsOf x).length)).sum) < cwFuel) :
    ∀ done st, SInv C st → (∀ m ∈ done, m ∈ st.inFlight) → done.Nodup →
      ∃ st', processDone C cwFuel done st = some st' := by
  intro done
  induction done with
  | nil =>
    intro st _ _ _
    exact ⟨st, rfl⟩
  | cons m ms ih =>
    intro st hw hdone hnd
    rw [processDone]
    dsimp only
    have hin : m ∈ st.inFlight := hdone m (List.mem_cons_self _ _)
    have hstale : m ∈ C.stale := hw.infl_stale m hin
    have hw2 := WInv.taskComplete hC hw hin (C.genResult m)
    have hpot : cwPot C (C.dependentsOf m)
        (if (C.genResult m).1 then
          { st with inFlight := st.inFlight.erase m, completed := m :: st.completed,
                    events := st.events ++ [Event.terminal m],
                    generated := m :: st.generated }
         else
          { st with inFlight := st.inFlight.erase m, completed := m :: st.completed,
                    events := st.events ++ [Event.terminal m],
                    failed := (m, if (C.genResult m).2.isEmpty then ["Unknown error."]
                      else (C.genResult m).2) :: st.failed }) < cwFuel := by
      have hle := sum_map_filter_le C.stale
        (fun x => decide (x ∉ m :: st.completed)) (fun x => (C.dependentsOf x).length)
      have hb := Hfuel m hstale
      by_cases hok : (C.genResult m).1 <;>
        simp only [hok, if_true, if_false, Bool.false_eq_true, cwPot] <;>
        omega
    obtain ⟨st3, hcw⟩ := completeW_some C hC cwFuel _ _ hw2 hpot
    obtain ⟨hw3, hext3⟩ := completeW_inv C hC cwFuel _ _ st3 hcw hw2
    have hfl3 := completeW_inFlight C cwFuel _ _ st3 hcw
    have hmsin : ∀ x ∈ ms, x ∈ st3.inFlight := by
      intro x hx
      rw [hfl3]
      have hxm : x ≠ m := fun hh => (List.nodup_cons.mp hnd).1 (hh ▸ hx)
      have hxin : x ∈ st.inFlight := hdone x (List.mem_cons_of_mem _ hx)
      by_cases hok : (C.genResult m).1 <;> simp only [hok, if_true, if_false,
        Bool.false_eq_true] <;>
        exact (List.Nodup.mem_erase_iff hw.infl_nodup).mpr ⟨hxm, hxin⟩
    obtain ⟨st', h'⟩ := ih st3 hw3 hmsin (List.nodup_cons.mp hnd).2
    refine ⟨st', ?_⟩
    by_cases hok : (C.genResult m).1 <;>
      simp only [hok, if_true, if_false, Bool.false_eq_true] at hcw ⊢ <;>
      rw [hcw] <;> exact h'

/-- Every completion the oracle chooses is in flight. -/
theorem chooseDone_sub (pick : List String) (infl : List String) :
    ∀ x ∈ chooseDone pick infl, x ∈ infl := by
  intro x hx
  rw [chooseDone] at hx
  by_cases he : ((pick.filter (fun m => m ∈ infl)).dedup).isEmpty = true
  · rw [if_pos he] at hx
    exact hx
  · rw [if_neg he] at hx
    have := (List.mem_filter.mp (List.mem_dedup.mp hx)).2
    simpa using this

/-- The chosen completions are duplicate free. -/
theorem chooseDone_nodup (pick : List String) {infl : List String} (h : infl.Nodup) :
    (chooseDone pick infl).Nodup := by
  rw [chooseDone]
  by_cases he : ((pick.filter (fun m => m ∈ infl)).dedup).isEmpty = true
  · rw [if_pos he]
    exact h
  · rw [if_neg he]
    exact List.nodup_dedup _

/-- With tasks in flight, at least one completion is chosen, as
asyncio.wait with FIRST_COMPLETED returns a nonempty done set. -/
theorem chooseDone_ne_nil (pick : List String) {infl : List String} (h : infl ≠ []) :
    chooseDone pick infl ≠ [] := by
  rw [chooseDone]
  by_cases he : ((pick.filter (fun m => m ∈ infl)).dedup).isEmpty = true
  · rw [if_pos he]
    exact h
  · rw [if_neg he]
    intro hc
    rw [hc] at he
    exact he rfl

/-- The main scheduling loop preserves the invariant, only extends the
state, and stops only with an empty ready heap and nothing in flight. -/
theorem mainLoop_inv (C : Ctx) (hC : CtxOK C) (cwFuel : Nat) :
    ∀ fuel st st', mainLoop C cwFuel fuel st = some st' → SInv C st →
      SInv C st' ∧ Ext st st' ∧ st'.ready = [] ∧ st'.inFlight = [] := by
  intro fuel
  induction fuel with
  | zero =>
    intro st st' h
    cases h
  | succ fuel ih =>
    intro st st' h hw
    rw [mainLoop] at h
    by_cases hemp : (st.ready.isEmpty && st.inFlight.isEmpty) = true
    · rw [if_pos hemp] at h
      cases h
      obtain ⟨h1, h2⟩ := Bool.and_eq_true_iff.mp hemp
      exact ⟨hw, Ext.refl _, List.isEmpty_iff.mp h1, List.isEmpty_iff.mp h2⟩
    · rw [if_neg hemp] at h
      cases hdl : dispatchLoop C (st.ready.length + 1) st with
      | none =>
        rw [hdl] at h
        cases h
      | some st1 =>
        rw [hdl] at h
        dsimp only at h
        obtain ⟨hw1, hext1, hcomp1, hpost1⟩ := dispatchLoop_inv C _ _ _ hw hdl
        by_cases hif : st1.inFlight.isEmpty = true
        · rw [if_pos hif] at h
          cases h
          have hfe : st'.inFlight = [] := List.isEmpty_iff.mp hif
          have hre : st'.ready = [] := by
            rcases hpost1 with h1 | h1
            · exact h1
            · exfalso
              rw [hfe] at h1
              exact h1 (Nat.lt_of_lt_of_le Nat.zero_lt_one hC.jobs_pos)
          exact ⟨hw1, hext1, hre, hfe⟩
        · rw [if_neg hif] at h
          cases hpd : processDone C cwFuel (chooseDone (C.pickDone fuel) st1.inFlight) st1 with
          | none =>
            rw [hpd] at h
            cases h
          | some st2 =>
            rw [hpd] at h
            dsimp only at h
            obtain ⟨hw2, hext2, _, _⟩ := processDone_inv C hC cwFuel _ _ _ hpd hw1
              (chooseDone_sub _ _) (chooseDone_nodup _ hw1.infl_nodup)
            obtain ⟨hw', hext', hr', hf'⟩ := ih _ _ h hw2
            exact ⟨hw', Ext.trans hext1 (Ext.trans hext2 hext'), hr', hf'⟩

/-- The main loop drains within fuel exceeding the number of stale
modules not yet completed. -/
theorem mainLoop_some (C : Ctx) (hC : CtxOK C) (cwFuel : Nat)
    (Hfuel : ∀ m ∈ C.stale, (C.dependentsOf m).length +
      ((C.stale.map (fun x => (C.dependentsOf x).length)).sum) < cwFuel) :
    ∀ fuel st, SInv C st →
      (C.stale.filter (fun x => x ∉ st.completed)).length < fuel →
      ∃ st', mainLoop C cwFuel fuel st = some st' := by
  intro fuel
  induction fuel with
  | zero =>
    intro st _ h
    exact absurd h (Nat.not_lt_zero _)
  | succ fuel ih =>
    intro st hw hmu
    rw [mainLoop]
    by_cases hemp : (st.ready.isEmpty && st.inFlight.isEmpty) = true
    · rw [if_pos hemp]
      exact ⟨st, rfl⟩
    · rw [if_neg hemp]
      obtain ⟨st1, hdl⟩ := dispatchLoop_some C (st.ready.length + 1) st
        (Nat.lt_succ_self _)
      rw [hdl]
      dsimp only
      obtain ⟨hw1, hext1, hcomp1, hpost1⟩ := dispatchLoop_inv C _ _ _ hw hdl
      by_cases hif : st1.inFlight.isEmpty = true
      · rw [if_pos hif]
        exact ⟨st1, rfl⟩
      · rw [if_neg hif]
        have hifne : st1.inFlight ≠ [] := fun hc => hif (by rw [hc]; rfl)
        have hdne := chooseDone_ne_nil (C.pickDone fuel) hifne
        obtain ⟨st2, hpd⟩ := processDone_some C hC cwFuel Hfuel
          (chooseDone (C.pickDone fuel) st1.inFlight) st1 hw1
          (chooseDone_sub _ _) (chooseDone_nodup _ hw1.infl_nodup)
        rw [hpd]
        dsimp only
        obtain ⟨hw2, hext2, hdcomp, _⟩ := processDone_inv C hC cwFuel _ _ _ hpd hw1
          (chooseDone_sub _ _) (chooseDone_nodup _ hw1.infl_nodup)
        apply ih st2 hw2
        cases hcd : chooseDone (C.pickDone fuel) st1.inFlight with
        | nil => exact absurd hcd hdne
        | cons m ms =>
          have hmin : m ∈ st1.inFlight :=
            chooseDone_sub _ _ m (hcd ▸ List.mem_cons_self _ _)
          have hmst : m ∈ C.stale := hw1.infl_stale m hmin
          have hmnc1 : m ∉ st1.completed := hw1.infl_comp m hmin
          have hmc2 : m ∈ st2.completed := hdcomp m (hcd ▸ List.mem_cons_self _ _)
          have hlt : (C.stale.filter (fun x => x ∉ st2.completed)).length <
              (C.stale.filter (fun x => x ∉ st1.completed)).length := by
            apply filter_length_lt C.stale _ _ ?_ m hmst ?_ ?_
            · intro x _ hx
              simp only [decide_eq_true_eq] at hx ⊢
              intro hc
              exact hx (hext2.completed.sublist.subset hc)
            · simp [hmnc1]
            · simp [hmc2]
          have heq1 : (C.stale.filter (fun x => x ∉ st1.completed)).length =
              (C.stale.filter (fun x => x ∉ st.completed)).length := by
            rw [hcomp1]
          omega

/-! ## Theorems: a full run of the scheduler -/

/-- The context run_build builds is well formed whenever the spec table
has duplicate-free keys and the DAG duplicate-free dependency sets. -/
theorem ctxOf_ok (P : SchedParams) (hkeys : P.specKeys.Nodup)
    (hdag : ∀ m, (graphDeps P.moduleDag m).Nodup) : CtxOK (ctxOf P) := by
  refine ⟨?_, ?_, ?_, ?_, ?_, ?_⟩
  · exact List.Nodup.filter _ hkeys
  · intro m _ d hd
    have := List.mem_filter.mp hd
    simpa using this.2
  · intro m
    exact List.Nodup.filter _ (hdag m)
  · intro d m
    constructor
    · intro hm
      have := List.mem_filter.mp (mem_sortStr.mp hm)
      exact ⟨this.1, by simpa using this.2⟩
    · intro hp
      exact mem_sortStr.mpr (List.mem_filter.mpr ⟨hp.1, by simpa using hp.2⟩)
  · intro d
    exact sortStr_nodup (List.Nodup.filter _ (List.Nodup.filter _ hkeys))
  · have h1 : (1 : Int) ≤ max 1 P.jobs := le_max_left _ _
    show 1 ≤ (max 1 P.jobs).toNat
    omega

/-- The initial scheduler state satisfies the invariant. -/
theorem initState_inv (P : SchedParams) (hkeys : P.specKeys.Nodup) :
    SInv (ctxOf P) (initState P) := by
  refine ⟨?_, ?_, ?_, ?_, ?_, ?_, ?_, ?_, ?_, ?_, ?_, ?_, ?_, ?_, ?_, ?_, ?_, ?_,
    ?_, ?_, ?_, ?_, ?_, ?_, ?_, ?_⟩
  · exact fun m hm => absurd hm (List.not_mem_nil m)
  · exact fun m hm => absurd hm (List.not_mem_nil m)
  · exact List.nodup_nil
  · exact fun m hm => absurd hm (List.not_mem_nil m)
  · exact List.nodup_nil
  · exact fun m hm => absurd hm (List.not_mem_nil m)
  · intro m hm
    exact (List.mem_filter.mp hm).1
  · exact List.Nodup.filter _ (List.Nodup.filter _ hkeys)
  · exact fun m _ => List.not_mem_nil m
  · exact fun m _ => List.not_mem_nil m
  · intro m hm
    have h2 := (List.mem_filter.mp hm).2
    simp only [decide_eq_true_eq] at h2
    show ((depsInOf P m).length : Int) = 0
    rw [h2]
    rfl
  · exact fun m hm => absurd hm (List.not_mem_nil m)
  · exact fun m hm => absurd hm (List.not_mem_nil m)
  · exact fun m hm => absurd hm (List.not_mem_nil m)
  · exact fun m hm => absurd hm (List.not_mem_nil m)
  · exact fun m hm => absurd hm (List.not_mem_nil m)
  · intro m hm _
    have hfe : ((ctxOf P).depsIn m).filter (fun d => d ∉ (initState P).completed) =
        (ctxOf P).depsIn m := by
      apply List.filter_eq_self.mpr
      intro d _
      simp [initState]
    show ((depsInOf P m).length : Int) = _
    rw [hfe]
    simp
    rfl
  · intro m hm _ hz
    refine .inl (List.mem_filter.mpr ⟨hm, ?_⟩)
    have hz' : ((depsInOf P m).length : Int) = 0 := hz
    simp only [decide_eq_true_eq]
    omega
  · intro m hm d hd
    have h2 := (List.mem_filter.mp hm).2
    simp only [decide_eq_true_eq] at h2
    have h0 : (ctxOf P).depsIn m = [] := List.length_eq_zero.mp h2
    rw [h0] at hd
    cases hd
  · exact fun m hm => absurd hm (List.not_mem_nil _)
  · exact fun m => ⟨fun h => absurd h (List.not_mem_nil _),
      fun h => absurd h (List.not_mem_nil _)⟩
  · exact fun m hm => absurd hm (List.not_mem_nil _)
  · exact fun m hm => absurd hm (List.not_mem_nil m)
  · exact fun m hm => absurd hm (List.not_mem_nil m)
  · exact fun m hm => absurd hm (List.not_mem_nil _)
  · exact fun p hp => absurd hp (List.not_mem_nil p)

/-- A run that returns ok went through the scheduling loop (or had
nothing stale) and ended in an invariant state in which every stale
module completed; the report is read off that final state. -/
theorem run_sched_ok (P : SchedParams) (hkeys : P.specKeys.Nodup)
    (hdag : ∀ m, (graphDeps P.moduleDag m).Nodup) {out : RunOut}
    (h : run_sched P = .ok out) :
    ∃ stF, SInv (ctxOf P) stF ∧ (∀ m ∈ staleOf P, m ∈ stF.completed) ∧
      out = ⟨stF.generated, skippedOf P, stF.failed, stF.events⟩ := by
  rw [run_sched] at h
  cases hexp : expandedOf P with
  | none =>
    rw [hexp] at h
    cases h
  | some l =>
    rw [hexp] at h
    dsimp only at h
    by_cases hst : (staleOf P).isEmpty = true
    · rw [if_pos hst] at h
      cases h
      refine ⟨initState P, initState_inv P hkeys, ?_, rfl⟩
      intro m hm
      rw [List.isEmpty_iff.mp hst] at hm
      cases hm
    · rw [if_neg hst] at h
      cases htp : toposort (inducedGraph P) (topoFuel (inducedGraph P)) with
      | error e =>
        cases e <;> rw [htp] at h <;> cases h
      | ok v =>
        rw [htp] at h
        dsimp only at h
        cases hml : mainLoop (ctxOf P) (completeFuel P) ((staleOf P).length + 1)
            (initState P) with
        | none =>
          rw [hml] at h
          cases h
        | some stF =>
          rw [hml] at h
          dsimp only at h
          obtain ⟨hwF, _, _, _⟩ := mainLoop_inv (ctxOf P) (ctxOf_ok P hkeys hdag)
            (completeFuel P) _ _ _ hml (initState_inv P hkeys)
          by_cases hrem : ((staleOf P).filter (fun m => m ∉ stF.completed)).isEmpty = true
          · rw [if_pos hrem] at h
            cases h
            refine ⟨stF, hwF, ?_, rfl⟩
            intro m hm
            by_contra hc
            have hmem : m ∈ (staleOf P).filter (fun m => m ∉ stF.completed) :=
              List.mem_filter.mpr ⟨hm, by simpa using hc⟩
            rw [List.isEmpty_iff.mp hrem] at hmem
            cases hmem
          · rw [if_neg hrem] at h
            split at h <;> cases h

/-- Dependency sets looked up from a DAG whose entries are duplicate
free are duplicate free. -/
theorem graphDeps_nodup_of (dag : List (String × List String))
    (hp : ∀ p ∈ dag, p.2.Nodup) : ∀ m, (graphDeps dag m).Nodup := by
  intro m
  rw [graphDeps]
  cases h : dag.lookup m with
  | none => exact List.nodup_nil
  | some v => exact hp (m, v) (lookup_mem h)

/-- In a drained invariant state, a stale module with a failed stale
dependency is itself recorded failed, was never dispatched, and all its
failure reasons name failed direct dependencies. -/
theorem stepFail {C : Ctx} {st : BState} (hw : SInv C st)
    (hall : ∀ m ∈ C.stale, m ∈ st.completed) {d m : String} (hm : m ∈ C.stale)
    (hd : d ∈ C.depsIn m) (hdf : d ∈ failedKeys st.failed) :
    m ∈ failedKeys st.failed ∧ Event.dispatched m ∉ st.events ∧
      ∃ reasons, (m, reasons) ∈ st.failed ∧ reasons ≠ [] ∧
        ("Dependency failed: " ++ d) ∈ reasons ∧
        ∀ r ∈ reasons, ∃ x, x ∈ C.depsIn m ∧ x ∈ failedKeys st.failed ∧
          r = "Dependency failed: " ++ x := by
  have hcomp : m ∈ st.completed := hall m hm
  have hdisp : Event.dispatched m ∉ st.events := by
    intro hcon
    exact (hw.disp_deps m hcon d hd).2 hdf
  have hmf : m ∈ failedKeys st.failed := by
    rcases hw.comp_cover m hcomp with h | h
    · exact absurd (hw.gen_disp m h) hdisp
    · exact h
  obtain ⟨p, hp, hp1⟩ := List.mem_map.mp hmf
  rcases hw.fail_reasons p hp with h | ⟨_, _, _, hne, heq⟩
  · exact absurd (hp1 ▸ h) hdisp
  · refine ⟨hmf, hdisp, p.2, ?_, ?_, ?_, ?_⟩
    · have : p = (m, p.2) := by
        rw [← hp1]
      rw [← this]
      exact hp
    · rw [hp1] at heq hne
      rw [heq]
      intro hc
      exact hne (List.map_eq_nil_iff.mp hc)
    · rw [hp1] at heq
      rw [heq]
      exact List.mem_map_of_mem _ (List.mem_filter.mpr ⟨hd, by simpa using hdf⟩)
    · intro r hr
      rw [hp1] at heq
      rw [heq] at hr
      obtain ⟨x, hx, hxr⟩ := List.mem_map.mp hr
      obtain ⟨hx1, hx2⟩ := List.mem_filter.mp hx
      exact ⟨x, hx1, by simpa using hx2, hxr.symm⟩

/-! ## Theorems: stale-set expansion terminates -/

theorem expandAdd_measure (keys : List String) :
    ∀ ds expanded queue, (∀ d ∈ ds, d ∈ keys) →
      (keys.filter (fun x => x ∉ (expandAdd ds expanded queue).1)).length +
        (expandAdd ds expanded queue).2.length ≤
      (keys.filter (fun x => x ∉ expanded)).length + queue.length := by
  intro ds
  induction ds with
  | nil =>
    intro expanded queue _
    rw [expandAdd]
  | cons d ds ih =>
    intro expanded queue hsub
    rw [expandAdd]
    by_cases hd : d ∈ expanded
    · rw [if_pos hd]
      exact ih expanded queue (fun x hx => hsub x (List.mem_cons_of_mem _ hx))
    · rw [if_neg hd]
      have h1 := ih (expanded ++ [d]) (d :: queue)
        (fun x hx => hsub x (List.mem_cons_of_mem _ hx))
      have h2 : (keys.filter (fun x => x ∉ expanded ++ [d])).length <
          (keys.filter (fun x => x ∉ expanded)).length := by
        apply filter_length_lt keys _ _ ?_ d (hsub d (List.mem_cons_self _ _)) ?_ ?_
        · intro x _ hx
          simp only [decide_eq_true_eq, List.mem_append] at hx ⊢
          intro hc
          exact hx (.inl hc)
        · simp [hd]
        · simp
      simp only [List.length_cons] at h1
      omega

theorem expandGo_some (dag : List (String × List String)) :
    ∀ fuel expanded queue,
      ((dag.map (·.1)).filter (fun x => x ∉ expanded)).length + queue.length < fuel →
      ∃ e, expandGo dag fuel expanded queue = some e := by
  intro fuel
  induction fuel with
  | zero =>
    intro e q h
    exact absurd h (Nat.not_lt_zero _)
  | succ fuel ih =>
    intro expanded queue h
    cases queue with
    | nil => exact ⟨expanded, rfl⟩
    | cons m qs =>
      rw [expandGo]
      have hsub : ∀ d ∈ dagDependents dag m, d ∈ dag.map (·.1) := by
        intro d hd
        exact (List.mem_filter.mp hd).1
      have hm := expandAdd_measure (dag.map (·.1)) (dagDependents dag m) expanded qs hsub
      obtain ⟨e, he⟩ := ih (expandAdd (dagDependents dag m) expanded qs).1
        (expandAdd (dagDependents dag m) expanded qs).2
        (by simp only [List.length_cons] at h; omega)
      rcases hp : expandAdd (dagDependents dag m) expanded qs with ⟨e1, q1⟩
      rw [hp] at he
      exact ⟨e, he⟩

/-- Stale-set expansion always succeeds within the fuel run_build
gives it. -/
theorem expandedOf_some (P : SchedParams) : ∃ e, expandedOf P = some e := by
  apply expandGo_some
  have hle := List.length_filter_le (fun x => decide (x ∉ P.staleIn))
    (P.moduleDag.map (·.1))
  simp only [List.length_map] at hle
  simp only [expandFuel]
  omega

/-! ## Theorems: summation helpers for the toposort potential -/

theorem sum_filter_mono {α : Type} (l : List α) (p q : α → Bool) (f : α → Nat)
    (himp : ∀ x ∈ l, p x = true → q x = true) :
    ((l.filter p).map f).sum ≤ ((l.filter q).map f).sum := by
  induction l with
  | nil => simp
  | cons x xs ih =>
    have ih' := ih (fun y hy => himp y (List.mem_cons_of_mem x hy))
    simp only [List.filter_cons]
    by_cases hpx : p x = true
    · rw [if_pos hpx, if_pos (himp x (List.mem_cons_self x xs) hpx)]
      simp only [List.map_cons, List.sum_cons]
      omega
    · rw [if_neg (by simp [hpx])]
      by_cases hqx : q x = true
      · rw [if_pos hqx]
        simp only [List.map_cons, List.sum_cons]
        omega
      · rw [if_neg (by simp [hqx])]
        exact ih'

theorem sum_filter_lt {α : Type} (l : List α) (p q : α → Bool) (f : α → Nat)
    (himp : ∀ x ∈ l, p x = true → q x = true) (a : α) (ha : a ∈ l)
    (hqa : q a = true) (hpa : p a = false) :
    ((l.filter p).map f).sum + f a ≤ ((l.filter q).map f).sum := by
  induction l with
  | nil => cases ha
  | cons x xs ih =>
    simp only [List.filter_cons]
    rcases List.mem_cons.mp ha with h | h
    · subst h
      rw [if_neg (by simp [hpa]), if_pos hqa]
      simp only [List.map_cons, List.sum_cons]
      have := sum_filter_mono xs p q f (fun y hy => himp y (List.mem_cons_of_mem _ hy))
      omega
    · have ih' := ih (fun y hy => himp y (List.mem_cons_of_mem x hy)) h
      by_cases hpx : p x = true
      · rw [if_pos hpx, if_pos (himp x (List.mem_cons_self x xs) hpx)]
        simp only [List.map_cons, List.sum_cons]
        omega
      · rw [if_neg (by simp [hpx])]
        by_cases hqx : q x = true
        · rw [if_pos hqx]
          simp only [List.map_cons, List.sum_cons]
          omega
        · rw [if_neg (by simp [hqx])]
          exact ih'

theorem sum_map_add_const {α : Type} (l : List α) (f : α → Nat) (c : Nat) :
    (l.map (fun x => f x + c)).sum = (l.map f).sum + c * l.length := by
  induction l with
  | nil => simp
  | cons x xs ih =>
    simp only [List.map_cons, List.sum_cons, List.length_cons, ih, Nat.mul_succ]
    omega

theorem sum_graphDeps_le (graph : List (String × List String)) :
    ∀ l : List String, l.Nodup →
      (l.map (fun n => (graphDeps graph n).length)).sum ≤
        (graph.map (·.2.length)).sum := by
  induction graph with
  | nil =>
    intro l _
    have h0 : ∀ n : String, graphDeps [] n = [] := fun n => rfl
    simp [h0]
  | cons p G ih =>
    obtain ⟨k, v⟩ := p
    intro l hl
    by_cases hk : k ∈ l
    · have hperm : l.Perm (k :: l.erase k) := List.perm_cons_erase hk
      have hsum : (l.map (fun n => (graphDeps ((k, v) :: G) n).length)).sum =
          ((k :: l.erase k).map (fun n => (graphDeps ((k, v) :: G) n).length)).sum :=
        (hperm.map _).sum_eq
      rw [hsum]
      simp only [List.map_cons, List.sum_cons]
      have h1 : graphDeps ((k, v) :: G) k = v := by
        simp [graphDeps, List.lookup]
      have h2 : (l.erase k).map (fun n => (graphDeps ((k, v) :: G) n).length) =
          (l.erase k).map (fun n => (graphDeps G n).length) := by
        apply List.map_congr_left
        intro n hn
        have hne : n ≠ k := (List.Nodup.mem_erase_iff hl).mp hn |>.1
        have hbeq : (n == k) = false := by
          simp [hne]
        simp [graphDeps, List.lookup, hbeq]
      rw [h1, h2]
      have h3 := ih (l.erase k) (hl.erase k)
      omega
    · have h2 : l.map (fun n => (graphDeps ((k, v) :: G) n).length) =
          l.map (fun n => (graphDeps G n).length) := by
        apply List.map_congr_left
        intro n hn
        have hne : n ≠ k := fun hc => hk (hc ▸ hn)
        have hbeq : (n == k) = false := by
          simp [hne]
        simp [graphDeps, List.lookup, hbeq]
      rw [h2]
      have h3 := ih l hl
      simp only [List.map_cons, List.sum_cons]
      omega

/-! ## Theorems: the toposort DFS succeeds on acyclic graphs -/

theorem ShapeR_pop_enter {g : String → List String} {allN : List String}
    {n : String} {work : List TItem} :
    ∀ s, ShapeR g allN (TItem.enter n :: work) s →
      ShapeR g allN work s ∧ (s = [] → n ∈ allN) ∧
        (∀ t srest, s = t :: srest → n ∈ g t)
  | [], h => by
    refine ⟨fun it hit => h it (List.mem_cons_of_mem _ hit), fun _ => ?_,
      fun t srest hs => by cases hs⟩
    obtain ⟨m, hm1, hm2⟩ := h (TItem.enter n) (List.mem_cons_self _ _)
    cases hm1
    exact hm2
  | t :: srest, h => by
    obtain ⟨w1, w2, heq, hw1, hsh⟩ := h
    cases w1 with
    | nil =>
      simp only [List.map_nil, List.nil_append] at heq
      exact absurd (List.cons.inj heq).1 (by simp)
    | cons a w1t =>
      simp only [List.map_cons, List.cons_append] at heq
      obtain ⟨h1, h2⟩ := List.cons.inj heq
      have hna : n = a := by injection h1
      subst hna
      refine ⟨⟨w1t, w2, h2, fun x hx => hw1 x (List.mem_cons_of_mem _ hx), hsh⟩,
        fun hc => absurd hc (by simp), fun t1 srest1 hs => ?_⟩
      obtain ⟨ht1, _⟩ := List.cons.inj hs
      exact ht1 ▸ hw1 n (List.mem_cons_self _ _)

theorem ShapeR_pop_leave {g : String → List String} {allN : List String}
    {n : String} {work : List TItem} :
    ∀ s, ShapeR g allN (TItem.leave n :: work) s →
      ∃ srest, s = n :: srest ∧ ShapeR g allN work srest
  | [], h => by
    obtain ⟨m, hm1, _⟩ := h (TItem.leave n) (List.mem_cons_self _ _)
    exact absurd hm1 (by simp)
  | t :: srest, h => by
    obtain ⟨w1, w2, heq, hw1, hsh⟩ := h
    cases w1 with
    | nil =>
      simp only [List.map_nil, List.nil_append] at heq
      obtain ⟨h1, h2⟩ := List.cons.inj heq
      have hnt : n = t := by injection h1
      subst hnt
      exact ⟨srest, rfl, h2 ▸ hsh⟩
    | cons a w1t =>
      simp only [List.map_cons, List.cons_append] at heq
      exact absurd (List.cons.inj heq).1 (by simp)

theorem rank_le_of_chain {R : String → String → Prop} {rank : String → Nat}
    (hR : ∀ a b, R a b → rank b < rank a) :
    ∀ l : List String, l.Chain' R → ∀ x ∈ l, ∀ t, l.getLast? = some t →
      rank t ≤ rank x
  | [] => by
    intro _ x hx
    cases hx
  | [a] => by
    intro _ x hx t ht
    have hxa : x = a := List.mem_singleton.mp hx
    have hta : t = a := by
      simp only [List.getLast?_singleton, Option.some.injEq] at ht
      exact ht.symm
    rw [hxa, hta]
  | a :: b :: l => by
    intro hch x hx t ht
    rw [List.getLast?_cons_cons] at ht
    obtain ⟨hab, hch2⟩ := List.chain'_cons.mp hch
    rcases List.mem_cons.mp hx with h | h
    · have hb := rank_le_of_chain hR (b :: l) hch2 b (List.mem_cons_self _ _) t ht
      have hba := hR _ _ hab
      rw [h]
      omega
    · exact rank_le_of_chain hR (b :: l) hch2 x h t ht

/-- The DFS of toposort completes without a cycle error on a graph with
ranks strictly decreasing along edges, given fuel above the potential. -/
theorem topoGo_ok (g : String → List String) (allN : List String)
    (rank : String → Nat) (hg : ∀ a b, b ∈ g a → rank b < rank a)
    (hgsub : ∀ a b, b ∈ g a → b ∈ allN) :
    ∀ fuel work ts, TInv g allN work ts → topoPot g allN work ts < fuel →
      ∃ ts2, topoGo g fuel work ts = .ok ts2 := by
  intro fuel
  induction fuel with
  | zero =>
    intro work ts _ h
    exact absurd h (Nat.not_lt_zero _)
  | succ fuel ih =>
    intro work ts hinv hpot
    cases work with
    | nil => exact ⟨ts, rfl⟩
    | cons it rest =>
      cases it with
      | enter n =>
        rw [topoGo]
        by_cases hperm : n ∈ ts.perm
        · rw [if_pos hperm]
          apply ih rest ts ?_ ?_
          · exact { hinv with shape := (ShapeR_pop_enter _ hinv.shape).1 }
          · simp only [topoPot, List.length_cons] at hpot ⊢
            omega
        · rw [if_neg hperm]
          have hpop := ShapeR_pop_enter ts.stack.reverse hinv.shape
          have htemp : n ∉ ts.temp := by
            intro hc
            have hstk : n ∈ ts.stack := (hinv.temp_stack n).mp hc
            cases hrev : ts.stack.reverse with
            | nil =>
              rw [List.reverse_eq_nil_iff.mp hrev] at hstk
              cases hstk
            | cons t srest =>
              have hgt : n ∈ g t := hpop.2.2 t srest hrev
              have hlt : rank n < rank t := hg t n hgt
              have hlast : ts.stack.getLast? = some t := by
                rw [← List.head?_reverse, hrev]
                rfl
              have hle : rank t ≤ rank n :=
                rank_le_of_chain (fun a b => hg a b) ts.stack hinv.stack_chain
                  n hstk t hlast
              omega
          rw [if_neg htemp]
          have hnallN : n ∈ allN := by
            cases hrev : ts.stack.reverse with
            | nil => exact hpop.2.1 hrev
            | cons t srest => exact hgsub t n (hpop.2.2 t srest hrev)
          have hnstk : n ∉ ts.stack := fun hc => htemp ((hinv.temp_stack n).mpr hc)
          apply ih _ _ ?_ ?_
          · refine ⟨?_, ?_, ?_, ?_, ?_, ?_, hinv.perm_sub⟩
            · show ShapeR g allN
                ((sortStr (g n)).map TItem.enter ++ TItem.leave n :: rest)
                ((ts.stack ++ [n]).reverse)
              have hrev2 : (ts.stack ++ [n]).reverse = n :: ts.stack.reverse := by
                simp
              rw [hrev2]
              exact ⟨sortStr (g n), rest, rfl, fun x hx => mem_sortStr.mp hx,
                hpop.1⟩
            · intro x
              have hx := hinv.temp_stack x
              constructor
              · intro h
                rcases List.mem_cons.mp h with h1 | h1
                · exact List.mem_append_right _ (List.mem_singleton.mpr h1)
                · exact List.mem_append_left _ (hx.mp h1)
              · intro h
                rcases List.mem_append.mp h with h1 | h1
                · exact List.mem_cons_of_mem _ (hx.mpr h1)
                · rw [List.mem_singleton.mp h1]
                  exact List.mem_cons_self _ _
            · exact List.nodup_cons.mpr ⟨htemp, hinv.temp_nodup⟩
            · rw [List.nodup_append]
              exact ⟨hinv.stack_nodup, List.nodup_singleton _,
                fun a ha hb => by
                  rw [List.mem_singleton.mp hb] at ha
                  exact hnstk ha⟩
            · cases hrev : ts.stack.reverse with
              | nil =>
                rw [List.reverse_eq_nil_iff.mp hrev]
                exact List.chain'_singleton _
              | cons t srest =>
                apply List.Chain'.append hinv.stack_chain (List.chain'_singleton _)
                intro x hx y hy
                have hlast : ts.stack.getLast? = some t := by
                  rw [← List.head?_reverse, hrev]
                  rfl
                rw [hlast] at hx
                have hxt : x = t := by
                  cases hx
                  rfl
                have hyn : y = n := by
                  cases hy
                  rfl
                rw [hxt, hyn]
                exact hpop.2.2 t srest hrev
            · intro x hx
              rcases List.mem_append.mp hx with h | h
              · exact hinv.stack_sub x h
              · rw [List.mem_singleton.mp h]
                exact hnallN
          · have hsum := sum_filter_lt allN
              (fun x => decide (x ∉ n :: ts.temp ∧ x ∉ ts.perm))
              (fun x => decide (x ∉ ts.temp ∧ x ∉ ts.perm))
              (fun x => (sortStr (g x)).length + 2) ?_ n hnallN ?_ ?_
            · have hbeta : (fun x => (sortStr (g x)).length + 2) n =
                  (sortStr (g n)).length + 2 := rfl
              rw [hbeta] at hsum
              simp only [topoPot, List.length_cons, List.length_append,
                List.length_map] at hpot ⊢
              omega
            · intro x _ hx
              simp only [decide_eq_true_eq] at hx ⊢
              exact ⟨fun hc => hx.1 (List.mem_cons_of_mem _ hc), hx.2⟩
            · simp [htemp, hperm]
            · simp
      | leave n =>
        rw [topoGo]
        obtain ⟨srest, hrev, hsh⟩ := ShapeR_pop_leave ts.stack.reverse hinv.shape
        have hstack : ts.stack = srest.reverse ++ [n] := by
          have := congrArg List.reverse hrev
          simpa using this
        have hnstk : n ∈ ts.stack := by
          rw [hstack]
          exact List.mem_append_right _ (List.mem_singleton.mpr rfl)
        have hntemp : n ∈ ts.temp := (hinv.temp_stack n).mpr hnstk
        have hnsrest : n ∉ srest.reverse := by
          have hnd := hinv.stack_nodup
          rw [hstack, List.nodup_append] at hnd
          intro hc
          exact hnd.2.2 hc (List.mem_singleton.mpr rfl)
        have hdrop : ts.stack.dropLast = srest.reverse := by
          rw [hstack]
          exact List.dropLast_concat
        apply ih rest _ ?_ ?_
        · refine ⟨?_, ?_, ?_, ?_, ?_, ?_, ?_⟩
          · show ShapeR g allN rest (ts.stack.dropLast.reverse)
            rw [hdrop, List.reverse_reverse]
            exact hsh
          · intro x
            show x ∈ ts.temp.erase n ↔ x ∈ ts.stack.dropLast
            rw [hdrop, List.Nodup.mem_erase_iff hinv.temp_nodup]
            constructor
            · intro hx
              have hxs : x ∈ ts.stack := (hinv.temp_stack x).mp hx.2
              rw [hstack] at hxs
              rcases List.mem_append.mp hxs with h | h
              · exact h
              · exact absurd (List.mem_singleton.mp h) hx.1
            · intro hx
              have hxn : x ≠ n := fun hc => hnsrest (hc ▸ hx)
              refine ⟨hxn, (hinv.temp_stack x).mpr ?_⟩
              rw [hstack]
              exact List.mem_append_left _ hx
          · exact hinv.temp_nodup.erase n
          · show ts.stack.dropLast.Nodup
            rw [hdrop]
            have hnd := hinv.stack_nodup
            rw [hstack, List.nodup_append] at hnd
            exact hnd.1
          · show ts.stack.dropLast.Chain' _
            rw [hdrop]
            have hch := hinv.stack_chain
            rw [hstack] at hch
            exact hch.left_of_append
          · intro x hx
            have hx2 : x ∈ ts.stack := by
              have hsl := List.dropLast_sublist ts.stack
              exact hsl.subset hx
            exact hinv.stack_sub x hx2
          · intro x hx
            rcases List.mem_cons.mp hx with h | h
            · exact h ▸ hinv.stack_sub n hnstk
            · exact hinv.perm_sub x h
        · have hfc : allN.filter
              (fun x => decide (x ∉ ts.temp.erase n ∧ x ∉ n :: ts.perm)) =
              allN.filter
                (fun x => decide (x ∉ ts.temp ∧ x ∉ ts.perm)) := by
            apply List.filter_congr
            intro x _
            by_cases hxn : x = n
            · subst hxn
              have h1 : x ∈ ts.temp := hntemp
              have h2 : x ∈ x :: ts.perm := List.mem_cons_self _ _
              simp [h1, h2]
            · have h1 : x ∈ ts.temp.erase n ↔ x ∈ ts.temp :=
                ⟨fun h => List.mem_of_mem_erase h,
                 fun h => (List.Nodup.mem_erase_iff hinv.temp_nodup).mpr ⟨hxn, h⟩⟩
              have h2 : (x ∈ n :: ts.perm) ↔ x ∈ ts.perm := by
                simp [hxn]
              by_cases hxt : x ∈ ts.temp <;> by_cases hxp : x ∈ ts.perm <;>
                simp [h1, h2, hxt, hxp]
          simp only [topoPot, List.length_cons] at hpot ⊢
          rw [hfc]
          omega

theorem lookup_keyed_map (f : String → List String) :
    ∀ (l : List String) (n : String),
      ((l.map (fun m => (m, f m))).lookup n).getD [] =
        if n ∈ l then f n else [] := by
  intro l
  induction l with
  | nil =>
    intro n
    simp
  | cons x xs ih =>
    intro n
    by_cases hx : n = x
    · subst hx
      simp [List.lookup]
    · have hbeq : (n == x) = false := by simp [hx]
      simp [List.lookup, hbeq, hx, ih n]

/-- Dependency lookup on the induced subgraph is the induced dependency
map on stale modules and empty elsewhere. -/
theorem graphDeps_induced (P : SchedParams) (n : String) :
    graphDeps (inducedGraph P) n = if n ∈ staleOf P then depsInOf P n else [] := by
  rw [graphDeps, inducedGraph]
  exact lookup_keyed_map (depsInOf P) (staleOf P) n

/-- toposort succeeds within its fuel on every graph admitting a rank
strictly decreasing along edges. -/
theorem toposort_ok (graph : List (String × List String)) (rank : String → Nat)
    (hg : ∀ a b, b ∈ graphDeps graph a → rank b < rank a) :
    ∃ order, toposort graph (topoFuel graph) = .ok order := by
  have hgsub : ∀ a b, b ∈ graphDeps graph a → b ∈ allNodesOf graph := by
    intro a b hb
    rw [graphDeps] at hb
    cases hl : graph.lookup a with
    | none =>
      rw [hl] at hb
      exact absurd hb (List.not_mem_nil b)
    | some v =>
      rw [hl] at hb
      have hmem : (a, v) ∈ graph := lookup_mem hl
      rw [allNodesOf]
      apply mem_sortStr.mpr
      apply List.mem_dedup.mpr
      apply List.mem_append_right
      apply List.mem_flatten.mpr
      exact ⟨v, List.mem_map_of_mem _ hmem, hb⟩
  have hinit : TInv (graphDeps graph) (allNodesOf graph)
      ((allNodesOf graph).map TItem.enter) ⟨[], [], [], []⟩ := by
    refine ⟨?_, ?_, ?_, ?_, ?_, ?_, ?_⟩
    · show ShapeR _ _ _ (([] : List String).reverse)
      intro it hit
      obtain ⟨n, hn, he⟩ := List.mem_map.mp hit
      exact ⟨n, he.symm, hn⟩
    · intro x
      exact ⟨fun h => absurd h (List.not_mem_nil x),
        fun h => absurd h (List.not_mem_nil x)⟩
    · exact List.nodup_nil
    · exact List.nodup_nil
    · exact List.chain'_nil
    · intro x hx
      exact absurd hx (List.not_mem_nil x)
    · intro x hx
      exact absurd hx (List.not_mem_nil x)
  have hnodup : (allNodesOf graph).Nodup := sortStr_nodup (List.nodup_dedup _)
  have hpot : topoPot (graphDeps graph) (allNodesOf graph)
      ((allNodesOf graph).map TItem.enter) ⟨[], [], [], []⟩ < topoFuel graph := by
    simp only [topoPot, topoFuel]
    have hfeq : (allNodesOf graph).filter
        (fun n => decide (n ∉ ([] : List String) ∧ n ∉ ([] : List String))) =
        allNodesOf graph := by
      apply List.filter_eq_self.mpr
      intro a _
      simp
    rw [hfeq]
    have hadd := sum_map_add_const (allNodesOf graph)
      (fun n => (sortStr (graphDeps graph n)).length) 2
    have hcg : (allNodesOf graph).map
        (fun n => (sortStr (graphDeps graph n)).length + 2) =
        (allNodesOf graph).map
          (fun x => (fun n => (sortStr (graphDeps graph n)).length) x + 2) := rfl
    have hlens : (allNodesOf graph).map
        (fun n => (sortStr (graphDeps graph n)).length) =
        (allNodesOf graph).map (fun n => (graphDeps graph n).length) := by
      apply List.map_congr_left
      intro n _
      exact sortStr_length _
    have hsumle := sum_graphDeps_le graph (allNodesOf graph) hnodup
    have hlenall : (allNodesOf graph).length ≤
        graph.length + (graph.map (·.2.length)).sum := by
      have h1 : (allNodesOf graph).length =
          ((graph.map (·.1) ++ (graph.map (·.2)).flatten).dedup).length := by
        rw [allNodesOf, sortStr_length]
      have h2 := List.Sublist.length_le
        (List.dedup_sublist (graph.map (·.1) ++ (graph.map (·.2)).flatten))
      have h3 : (graph.map (·.1) ++ (graph.map (·.2)).flatten).length =
          graph.length + ((graph.map (·.2)).map List.length).sum := by
        simp [List.length_flatten]
      have h4 : ((graph.map (·.2)).map List.length).sum =
          (graph.map (·.2.length)).sum := by
        rw [List.map_map]
        rfl
      omega
    rw [hcg, hadd, hlens] at *
    simp only [List.length_map]
    omega
  obtain ⟨ts2, h2⟩ := topoGo_ok (graphDeps graph) (allNodesOf graph) rank hg hgsub
    (topoFuel graph) _ _ hinit hpot
  rw [toposort, h2]
  exact ⟨ts2.order, rfl⟩

theorem le_sum_of_mem {l : List String} {m : String} (f : String → Nat)
    (h : m ∈ l) : f m ≤ (l.map f).sum := by
  induction l with
  | nil => cases h
  | cons x xs ih =>
    simp only [List.map_cons, List.sum_cons]
    rcases List.mem_cons.mp h with h1 | h1
    · rw [h1]
      omega
    · have := ih h1
      omega

theorem list_exists_min_image (f : String → Nat) :
    ∀ l : List String, l ≠ [] → ∃ a, a ∈ l ∧ ∀ b ∈ l, f a ≤ f b
  | [], h => absurd rfl h
  | [x], _ =>
    ⟨x, List.mem_singleton.mpr rfl, fun b hb => by rw [List.mem_singleton.mp hb]⟩
  | x :: y :: l, _ => by
    obtain ⟨a, ha, hmin⟩ := list_exists_min_image f (y :: l) (by simp)
    by_cases hc : f x ≤ f a
    · refine ⟨x, List.mem_cons_self _ _, ?_⟩
      intro b hb
      rcases List.mem_cons.mp hb with h | h
      · rw [h]
      · have := hmin b h
        omega
    · refine ⟨a, List.mem_cons_of_mem _ ha, ?_⟩
      intro b hb
      rcases List.mem_cons.mp hb with h | h
      · rw [h]
        omega
      · exact hmin b h

/-- In a drained invariant state of an acyclic induced subgraph, every
stale module has completed: the loop cannot stall. -/
theorem stale_drained (C : Ctx) (hC : CtxOK C) {st : BState} (hw : SInv C st)
    (hr : st.ready = []) (hf : st.inFlight = []) (rank : String → Nat)
    (hrank : ∀ m ∈ C.stale, ∀ d ∈ C.depsIn m, rank d < rank m) :
    ∀ m ∈ C.stale, m ∈ st.completed := by
  by_contra hc
  push_neg at hc
  obtain ⟨m0, hm0, hm0c⟩ := hc
  have hne : C.stale.filter (fun x => x ∉ st.completed) ≠ [] := by
    intro h0
    have hmem : m0 ∈ C.stale.filter (fun x => x ∉ st.completed) :=
      List.mem_filter.mpr ⟨hm0, by simpa using hm0c⟩
    rw [h0] at hmem
    cases hmem
  obtain ⟨a, ha, hmin⟩ := list_exists_min_image rank _ hne
  obtain ⟨hast, hanc'⟩ := List.mem_filter.mp ha
  have hanc : a ∉ st.completed := by simpa using hanc'
  have hdeps : ∀ d ∈ C.depsIn a, d ∈ st.completed := by
    intro d hd
    by_contra hdc
    have hdst : d ∈ C.stale := hC.depsIn_sub a hast d hd
    have hdf : d ∈ C.stale.filter (fun x => x ∉ st.completed) :=
      List.mem_filter.mpr ⟨hdst, by simpa using hdc⟩
    have h1 := hmin d hdf
    have h2 := hrank a hast d hd
    omega
  have hind := hw.windeg a hast hanc
  have hflt : (C.depsIn a).filter (fun d => d ∉ st.completed) = [] := by
    rw [List.filter_eq_nil_iff]
    intro d hd
    simpa using hdeps d hd
  rw [hflt] at hind
  simp only [List.length_nil, List.count_nil, Nat.cast_zero, Int.Nat.cast_ofNat_Int,
    zero_add, add_zero] at hind
  rcases hw.wzero a hast hanc (by simpa using hind) with h | h
  · rw [hr] at h
    cases h
  · rw [hf] at h
    cases h

/-- Under an acyclic induced stale subgraph, run_sched always returns
ok. -/
theorem run_sched_acyclic (P : SchedParams) (hkeys : P.specKeys.Nodup)
    (hdag : ∀ m, (graphDeps P.moduleDag m).Nodup) (hacyc : InducedAcyclic P) :
    ∃ out, run_sched P = .ok out := by
  obtain ⟨rank, hrank⟩ := hacyc
  obtain ⟨e, he⟩ := expandedOf_some P
  rw [run_sched, he]
  dsimp only
  by_cases hst : (staleOf P).isEmpty = true
  · rw [if_pos hst]
    exact ⟨_, rfl⟩
  · rw [if_neg hst]
    have hgr : ∀ a b, b ∈ graphDeps (inducedGraph P) a → rank b < rank a := by
      intro a b hb
      rw [graphDeps_induced] at hb
      by_cases hain : a ∈ staleOf P
      · rw [if_pos hain] at hb
        exact hrank a hain b hb
      · rw [if_neg hain] at hb
        exact absurd hb (List.not_mem_nil b)
    obtain ⟨order, htp⟩ := toposort_ok (inducedGraph P) rank hgr
    rw [htp]
    dsimp only
    have hC := ctxOf_ok P hkeys hdag
    have Hfuel : ∀ m ∈ (ctxOf P).stale, ((ctxOf P).dependentsOf m).length +
        (((ctxOf P).stale.map (fun x => ((ctxOf P).dependentsOf x).length)).sum) <
          completeFuel P := by
      intro m hm
      show (dependentsOfP P m).length +
        (((staleOf P).map (fun x => (dependentsOfP P x).length)).sum) < completeFuel P
      have hmem : m ∈ staleOf P := hm
      have hL : 1 ≤ (staleOf P).length := by
        cases hsl : staleOf P with
        | nil =>
          rw [hsl] at hmem
          cases hmem
        | cons x xs => simp
      have hfm : (dependentsOfP P m).length ≤
          ((staleOf P).map (fun x => (dependentsOfP P x).length)).sum :=
        le_sum_of_mem (fun x => (dependentsOfP P x).length) hmem
      rw [completeFuel]
      have hmul : ((staleOf P).length + 1) *
          ((((staleOf P).map (fun m => (dependentsOfP P m).length)).sum +
            (staleOf P).length + 2)) =
          (staleOf P).length *
            ((((staleOf P).map (fun m => (dependentsOfP P m).length)).sum +
              (staleOf P).length + 2)) +
          ((((staleOf P).map (fun m => (dependentsOfP P m).length)).sum +
            (staleOf P).length + 2)) := by
        ring
      have hge : (((staleOf P).map (fun m => (dependentsOfP P m).length)).sum +
          (staleOf P).length + 2) ≤
          (staleOf P).length *
            ((((staleOf P).map (fun m => (dependentsOfP P m).length)).sum +
              (staleOf P).length + 2)) := by
        exact Nat.le_mul_of_pos_left _ hL
      omega
    have hmu : ((ctxOf P).stale.filter
        (fun x => x ∉ (initState P).completed)).length < (staleOf P).length + 1 := by
      have hfe : (ctxOf P).stale.filter (fun x => x ∉ (initState P).completed) =
          (ctxOf P).stale := by
        apply List.filter_eq_self.mpr
        intro a _
        simp [initState]
      rw [hfe]
      show (staleOf P).length < (staleOf P).length + 1
      omega
    obtain ⟨stF, hml⟩ := mainLoop_some (ctxOf P) hC (completeFuel P) Hfuel
      ((staleOf P).length + 1) (initState P) (initState_inv P hkeys) hmu
    rw [hml]
    dsimp only
    obtain ⟨hwF, _, hrF, hfF⟩ := mainLoop_inv (ctxOf P) hC (completeFuel P) _ _ _
      hml (initState_inv P hkeys)
    have hall := stale_drained (ctxOf P) hC hwF hrF hfF rank
      (fun m hm d hd => hrank m hm d hd)
    have hrem : ((staleOf P).filter (fun m => m ∉ stF.completed)).isEmpty = true := by
      rw [List.isEmpty_iff, List.filter_eq_nil_iff]
      intro m hm
      simpa using hall m hm
    rw [if_pos hrem]
    exact ⟨_, rfl⟩

/-! ## Theorems: critical-path priorities -/

theorem cplGo_stable (children : String → List String) (stale : List String)
    (rank : String → Nat)
    (hch : ∀ m, ∀ c ∈ children m,
      (stale.filter (fun x => rank c < rank x)).length <
        (stale.filter (fun x => rank m < rank x)).length) :
    ∀ n m fuel1 fuel2,
      (stale.filter (fun x => rank m < rank x)).length < n →
      (stale.filter (fun x => rank m < rank x)).length < fuel1 →
      (stale.filter (fun x => rank m < rank x)).length < fuel2 →
      cplGo children fuel1 m = cplGo children fuel2 m := by
  intro n
  induction n with
  | zero =>
    intro m f1 f2 h _ _
    exact absurd h (Nat.not_lt_zero _)
  | succ n ih =>
    intro m f1 f2 hn h1 h2
    cases f1 with
    | zero => exact absurd h1 (Nat.not_lt_zero _)
    | succ f1 =>
      cases f2 with
      | zero => exact absurd h2 (Nat.not_lt_zero _)
      | succ f2 =>
        rw [cplGo, cplGo]
        cases hc : children m with
        | nil => rfl
        | cons c cs =>
          have hmap : (c :: cs).map (cplGo children f1) =
              (c :: cs).map (cplGo children f2) := by
            apply List.map_congr_left
            intro x hx
            have hlt := hch m x (by rw [hc]; exact hx)
            exact ih x f1 f2 (by omega) (by omega) (by omega)
          dsimp only
          rw [hmap]

theorem childrenOf_above (P : SchedParams) (rank : String → Nat)
    (hrank : ∀ m ∈ staleOf P, ∀ d ∈ depsInOf P m, rank d < rank m) :
    ∀ m, ∀ c ∈ childrenOf P m,
      ((staleOf P).filter (fun x => rank c < rank x)).length <
        ((staleOf P).filter (fun x => rank m < rank x)).length := by
  intro m c hcm
  obtain ⟨hcst, hdep'⟩ := List.mem_filter.mp hcm
  have hdep : m ∈ depsInOf P c := by simpa using hdep'
  have hr : rank m < rank c := hrank c hcst m hdep
  apply filter_length_lt _ _ _ ?_ c hcst ?_ ?_
  · intro x _ hx
    simp only [decide_eq_true_eq] at hx ⊢
    omega
  · simp [hr]
  · simp

/-- The priorities run_build computes satisfy the critical-path
recurrence on every acyclic induced subgraph. -/
theorem prioOf_eq (P : SchedParams) (hacyc : InducedAcyclic P) (m : String) :
    prioOf P m =
      (if childrenOf P m = [] then 0
       else 1 + natMaxList ((childrenOf P m).map (prioOf P))) := by
  obtain ⟨rank, hrank⟩ := hacyc
  have hch := childrenOf_above P rank hrank
  rw [prioOf, cplGo]
  cases hc : childrenOf P m with
  | nil => simp
  | cons c cs =>
    have hne : c :: cs ≠ [] := by simp
    rw [if_neg hne]
    have hmap : (c :: cs).map (cplGo (childrenOf P) (staleOf P).length) =
        (c :: cs).map (fun x => prioOf P x) := by
      apply List.map_congr_left
      intro x hx
      have hlt := hch m x (by rw [hc]; exact hx)
      have hbound := List.length_filter_le
        (fun y => decide (rank m < rank y)) (staleOf P)
      rw [prioOf]
      exact cplGo_stable (childrenOf P) (staleOf P) rank hch
        (((staleOf P).filter (fun y => rank x < rank y)).length + 1) x
        (staleOf P).length ((staleOf P).length + 1)
        (by omega) (by omega) (by omega)
    dsimp only
    rw [hmap]

/-! ## Claim theorems -/

/-- Claim C1, corrected: in every run of the scheduler that returns ok,
if module A is recorded failed and B transitively depends on A within
the induced stale subgraph, then B is recorded in the failed map and
generation is never invoked for B (it is never dispatched), and every
failure reason of B has the form "Dependency failed: d" where d is a
failed direct induced dependency of B.  The reasons name B's direct
dependencies, so a transitive dependent's reason does not mention A
itself (see the counterexample). -/
theorem C1_failure_propagation (P : SchedParams) (hkeys : P.specKeys.Nodup)
    (hdag : ∀ m, (graphDeps P.moduleDag m).Nodup) {out : RunOut}
    (h : run_sched P = .ok out) {A B : String}
    (hA : A ∈ failedKeys out.failed) (hB : TransDep (ctxOf P) A B) :
    B ∈ failedKeys out.failed ∧ Event.dispatched B ∉ out.events ∧
      ∃ reasons, (B, reasons) ∈ out.failed ∧ reasons ≠ [] ∧
        ∀ r ∈ reasons, ∃ x, x ∈ (ctxOf P).depsIn B ∧ x ∈ failedKeys out.failed ∧
          r = "Dependency failed: " ++ x := by
  obtain ⟨stF, hw, hall, hout⟩ := run_sched_ok P hkeys hdag h
  subst hout
  induction hB with
  | base hb hd =>
    obtain ⟨h1, h2, reasons, h3, h4, _, h6⟩ := stepFail hw hall hb hd hA
    exact ⟨h1, h2, reasons, h3, h4, h6⟩
  | step hab hcst hdep ih =>
    obtain ⟨hbf, _⟩ := ih
    obtain ⟨h1, h2, reasons, h3, h4, _, h6⟩ := stepFail hw hall hcst hdep hbf
    exact ⟨h1, h2, reasons, h3, h4, h6⟩

/-- Claim C1 witness: the corrected statement applied to the concrete
three-module chain in which only m1 fails to generate. -/
theorem C1_failure_propagation_witness :
    "m3" ∈ failedKeys
      [("m3", ["Dependency failed: m2"]), ("m2", ["Dependency failed: m1"]),
       ("m1", ["generation failed"])] ∧
    Event.dispatched "m3" ∉
      [Event.dispatched "m1", Event.terminal "m1", Event.terminal "m2",
       Event.terminal "m3"] := by
  have h := @C1_failure_propagation chainParams (by decide)
    (graphDeps_nodup_of _ (by decide))
    ⟨[], [],
      [("m3", ["Dependency failed: m2"]), ("m2", ["Dependency failed: m1"]),
       ("m1", ["generation failed"])],
      [Event.dispatched "m1", Event.terminal "m1", Event.terminal "m2",
       Event.terminal "m3"]⟩
    rfl "m1" "m3" (by decide)
    (@TransDep.step _ "m1" "m2" "m3"
      (@TransDep.base _ "m1" "m2" (by decide) (by decide)) (by decide) (by decide))
  exact ⟨h.1, h.2.1⟩

/-- Claim C1 counterexample: in the three-module chain m3 -> m2 -> m1
where only m1 fails, m3 is a transitive dependent of the failed m1, yet
its single failure reason is "Dependency failed: m2", which does not
mention m1 -- the original claim's "reason mentioning A" is false. -/
theorem C1_counterexample :
    run_sched chainParams = .ok
      ⟨[], [],
       [("m3", ["Dependency failed: m2"]), ("m2", ["Dependency failed: m1"]),
        ("m1", ["generation failed"])],
       [Event.dispatched "m1", Event.terminal "m1", Event.terminal "m2",
        Event.terminal "m3"]⟩ ∧
    TransDep (ctxOf chainParams) "m1" "m3" ∧
    ¬ Mentions "Dependency failed: m2" "m1" := by
  refine ⟨rfl, ?_, by decide⟩
  exact @TransDep.step _ "m1" "m2" "m3"
    (@TransDep.base _ "m1" "m2" (by decide) (by decide)) (by decide) (by decide)

/-- Claim C2: in every run of the scheduler that returns ok, for each
module B that was dispatched and each induced stale dependency A of B,
the event history contains the terminal outcome of A strictly before the
dispatch of B (as a two-element sublist), A is stale, and A did reach a
terminal outcome. -/
theorem C2_dependency_ordering (P : SchedParams) (hkeys : P.specKeys.Nodup)
    (hdag : ∀ m, (graphDeps P.moduleDag m).Nodup) {out : RunOut}
    (h : run_sched P = .ok out) {B : String}
    (hB : Event.dispatched B ∈ out.events) {A : String}
    (hA : A ∈ (ctxOf P).depsIn B) :
    [Event.terminal A, Event.dispatched B].Sublist out.events ∧
      A ∈ (ctxOf P).stale ∧ Event.terminal A ∈ out.events := by
  obtain ⟨stF, hw, hall, hout⟩ := run_sched_ok P hkeys hdag h
  subst hout
  have hsub := hw.edge_order B hB A hA
  refine ⟨hsub, ?_, ?_⟩
  · have h2 := (List.mem_filter.mp hA).2
    simpa using h2
  · show Event.terminal A ∈ stF.events
    exact hsub.subset (List.mem_cons_self _ _)

/-- Claim C2 witness: the dependency-ordering statement applied to the
concrete two-module chain b -> a in which both modules generate. -/
theorem C2_dependency_ordering_witness :
    [Event.terminal "a", Event.dispatched "b"].Sublist
      [Event.dispatched "a", Event.terminal "a", Event.dispatched "b",
       Event.terminal "b"] := by
  have h := @C2_dependency_ordering twoChainParams (by decide)
    (graphDeps_nodup_of _ (by decide))
    ⟨["b", "a"], [], [],
      [Event.dispatched "a", Event.terminal "a", Event.dispatched "b",
       Event.terminal "b"]⟩
    rfl "b" (by decide) "a" (by decide)
  exact h.1

/-- Claim C3: on every input with duplicate-free spec keys and
dependency sets whose stale-induced module subgraph is acyclic,
run_build returns ok (it never raises the post-loop dependency-cycle
error), every stale module ends in generated or failed and only stale
modules do, generated and failed are disjoint, and skipped is exactly
the modules with queued units that are not stale. -/
theorem C3_report_partition (P : SchedParams) (hkeys : P.specKeys.Nodup)
    (hdag : ∀ m, (graphDeps P.moduleDag m).Nodup) (hacyc : InducedAcyclic P) :
    ∃ rep : BuildReport, run_build P = .ok rep ∧
      (∀ m, (m ∈ rep.generated ∨ m ∈ failedKeys rep.failed) ↔ m ∈ staleOf P) ∧
      (∀ m ∈ rep.generated, m ∉ failedKeys rep.failed) ∧
      rep.skipped = P.specKeys.filter (fun m => m ∉ staleOf P) ∧
      (∀ m ∈ staleOf P, m ∈ P.specKeys) ∧
      (∀ m ∈ rep.skipped, m ∉ staleOf P) := by
  obtain ⟨out, hok⟩ := run_sched_acyclic P hkeys hdag hacyc
  obtain ⟨stF, hw, hall, houteq⟩ := run_sched_ok P hkeys hdag hok
  subst houteq
  refine ⟨⟨stF.generated, skippedOf P, stF.failed⟩, ?_, ?_, ?_, ?_, ?_, ?_⟩
  · rw [run_build, hok]
    rfl
  · intro m
    constructor
    · rintro (h | h)
      · exact hw.comp_stale m (hw.gen_sub m h)
      · exact hw.comp_stale m (hw.fail_sub m h)
    · intro h
      exact hw.comp_cover m (hall m h)
  · exact hw.gen_fail_disj
  · rfl
  · intro m hm
    exact (List.mem_filter.mp hm).1
  · intro m hm
    have h2 := (List.mem_filter.mp hm).2
    simpa using h2

/-- Claim C3 witness: the partition statement applied to the two-module
chain b -> a with both modules stale and generating successfully. -/
theorem C3_report_partition_witness :
    ∃ rep : BuildReport, run_build twoChainParams = .ok rep ∧
      (∀ m, (m ∈ rep.generated ∨ m ∈ failedKeys rep.failed) ↔
        m ∈ staleOf twoChainParams) ∧
      (∀ m ∈ rep.generated, m ∉ failedKeys rep.failed) ∧
      rep.skipped = twoChainParams.specKeys.filter
        (fun m => m ∉ staleOf twoChainParams) ∧
      (∀ m ∈ staleOf twoChainParams, m ∈ twoChainParams.specKeys) ∧
      (∀ m ∈ rep.skipped, m ∉ staleOf twoChainParams) :=
  C3_report_partition twoChainParams (by decide) (graphDeps_nodup_of _ (by decide))
    ⟨fun s => if s = "b" then 1 else 0, by decide⟩

/-- Claim C7: on every acyclic induced subgraph, the scheduler's
priorities satisfy priority(m) = 0 when m has no dependents in the
induced stale set and 1 + max of the dependents' priorities otherwise;
and whenever the dispatch loop runs with a nonempty ready heap and spare
capacity, the module it dispatches is a ready module of maximal
priority, with ties broken by ascending module name. -/
theorem C7_priority_dispatch (P : SchedParams) (hacyc : InducedAcyclic P) :
    (∀ m, prioOf P m =
      (if childrenOf P m = [] then 0
       else 1 + natMaxList ((childrenOf P m).map (prioOf P)))) ∧
    (∀ (fuel : Nat) (st : BState) (r : String) (rs : List String),
      st.ready = r :: rs → st.inFlight.length < (ctxOf P).jobsN →
      bestOf (ctxOf P) r rs ∉ st.completed →
      (dispatchLoop (ctxOf P) (fuel + 1) st =
        dispatchLoop (ctxOf P) fuel
          { st with ready := st.ready.erase (bestOf (ctxOf P) r rs),
                    inFlight := bestOf (ctxOf P) r rs :: st.inFlight,
                    events := st.events ++
                      [Event.dispatched (bestOf (ctxOf P) r rs)] }) ∧
      bestOf (ctxOf P) r rs ∈ st.ready ∧
      (∀ x ∈ st.ready, prioOf P x < prioOf P (bestOf (ctxOf P) r rs) ∨
        (prioOf P x = prioOf P (bestOf (ctxOf P) r rs) ∧
          strLe (bestOf (ctxOf P) r rs) x))) := by
  refine ⟨fun m => prioOf_eq P hacyc m, ?_⟩
  intro fuel st r rs hready hcap hcm
  refine ⟨?_, hready ▸ bestOf_mem (ctxOf P) rs r, ?_⟩
  · rw [dispatchLoop, hready]
    dsimp only
    rw [if_pos hcap, if_neg hcm]
  · intro x hx
    have h := bestOf_min (ctxOf P) rs r x (hready ▸ hx)
    rw [keyLtB_false_iff] at h
    exact h

/-- Claim C7 witness: the statement applied to the two-module chain,
whose induced subgraph is ranked by b above a. -/
theorem C7_priority_dispatch_witness :
    (∀ m, prioOf twoChainParams m =
      (if childrenOf twoChainParams m = [] then 0
       else 1 + natMaxList
         ((childrenOf twoChainParams m).map (prioOf twoChainParams)))) ∧
    (∀ (fuel : Nat) (st : BState) (r : String) (rs : List String),
      st.ready = r :: rs → st.inFlight.length < (ctxOf twoChainParams).jobsN →
      bestOf (ctxOf twoChainParams) r rs ∉ st.completed →
      (dispatchLoop (ctxOf twoChainParams) (fuel + 1) st =
        dispatchLoop (ctxOf twoChainParams) fuel
          { st with ready := st.ready.erase (bestOf (ctxOf twoChainParams) r rs),
                    inFlight := bestOf (ctxOf twoChainParams) r rs :: st.inFlight,
                    events := st.events ++
                      [Event.dispatched (bestOf (ctxOf twoChainParams) r rs)] }) ∧
      bestOf (ctxOf twoChainParams) r rs ∈ st.ready ∧
      (∀ x ∈ st.ready, prioOf twoChainParams x <
          prioOf twoChainParams (bestOf (ctxOf twoChainParams) r rs) ∨
        (prioOf twoChainParams x =
            prioOf twoChainParams (bestOf (ctxOf twoChainParams) r rs) ∧
          strLe (bestOf (ctxOf twoChainParams) r rs) x))) :=
  C7_priority_dispatch twoChainParams ⟨fun s => if s = "b" then 1 else 0, by decide⟩

/-- Claim C4: without force, detect_stale_modules returns exactly the
modules with queued units whose artifact is missing, unreadable, embeds
no parsable digest, or embeds a digest different from the freshly
computed module_digest; if every module's artifact embeds exactly its
fresh module_digest the returned stale set is empty; and with force it
returns every module with queued units (assuming the hash yields
nonempty digests without an sha256 prefix, as hexdigests are). -/
theorem C4_stale_detection (env : DigestEnv) (specs : List (String × SpecEntry))
    (graph : String → List String) (fuel : Nat) (artifact : String → ReadRes)
    (moduleSpecs : List (String × List SpecEntry))
    (hok : ∀ p ∈ moduleSpecs, ∃ dg,
      module_digest env specs graph fuel p.1 p.2 = .ok dg ∧
      dg ≠ "" ∧ ¬ isPrefixOfStr "sha256:" dg = true) :
    (detect_stale_modules env specs graph fuel artifact moduleSpecs true =
      .ok (moduleSpecs.map (·.1))) ∧
    (∃ l, detect_stale_modules env specs graph fuel artifact moduleSpecs false =
        .ok l ∧
      ∀ x, x ∈ l ↔ ∃ p ∈ moduleSpecs, x = p.1 ∧ ∃ dg,
        module_digest env specs graph fuel p.1 p.2 = .ok dg ∧
        (artifact p.1 = .missing ∨ artifact p.1 = .unreadable ∨
          ∃ s, artifact p.1 = .content s ∧
            (normalize_digest (extract_module_digest s) = none ∨
             normalize_digest (extract_module_digest s) ≠ some dg))) ∧
    ((∀ p ∈ moduleSpecs, ∃ s dg, artifact p.1 = .content s ∧
        module_digest env specs graph fuel p.1 p.2 = .ok dg ∧
        extract_module_digest s = some dg) →
      detect_stale_modules env specs graph fuel artifact moduleSpecs false =
        .ok []) := by
  have htot : ∀ p ∈ moduleSpecs, ∃ b,
      staleCheckOne env specs graph fuel artifact p.1 p.2 = .ok b := by
    intro p hp
    obtain ⟨dg, hdg, _, _⟩ := hok p hp
    exact staleCheckOne_total env specs graph fuel artifact p.1 p.2 dg hdg
  obtain ⟨l, hl, hmem⟩ := detect_stale_fold env specs graph fuel artifact
    moduleSpecs [] htot
  refine ⟨rfl, ⟨l, hl, ?_⟩, ?_⟩
  · intro x
    rw [hmem x]
    constructor
    · rintro (hx | ⟨p, hp, hxp, hsc⟩)
      · exact absurd hx (List.not_mem_nil x)
      · obtain ⟨dg, hdg, hne, hpre⟩ := hok p hp
        have hiff := staleCheckOne_iff env specs graph fuel artifact p.1 p.2 dg
          hdg hne hpre
        exact ⟨p, hp, hxp, dg, hdg, hiff.mp hsc⟩
    · rintro ⟨p, hp, hxp, dg, hdg, hcond⟩
      obtain ⟨dg2, hdg2, hne2, hpre2⟩ := hok p hp
      rw [hdg] at hdg2
      have hdgeq : dg = dg2 := Except.ok.inj hdg2
      subst hdgeq
      have hiff := staleCheckOne_iff env specs graph fuel artifact p.1 p.2 dg
        hdg hne2 hpre2
      exact .inr ⟨p, hp, hxp, hiff.mpr hcond⟩
  · intro hfresh
    have hlnil : l = [] := by
      rw [List.eq_nil_iff_forall_not_mem]
      intro x hx
      rw [hmem x] at hx
      rcases hx with hx | ⟨p, hp, hxp, hsc⟩
      · exact List.not_mem_nil x hx
      · obtain ⟨s, dg, hart, hdg, hext⟩ := hfresh p hp
        obtain ⟨dg2, hdg2, hne2, hpre2⟩ := hok p hp
        rw [hdg] at hdg2
        have hdgeq : dg = dg2 := Except.ok.inj hdg2
        subst hdgeq
        have hiff := staleCheckOne_iff env specs graph fuel artifact p.1 p.2 dg
          hdg hne2 hpre2
        have hcond := hiff.mp hsc
        have hnorm : normalize_digest (some dg) = some dg := by
          unfold normalize_digest
          simp [hne2, hpre2]
        rcases hcond with h | h | ⟨s2, hs2, hbad⟩
        · rw [hart] at h
          cases h
        · rw [hart] at h
          cases h
        · rw [hart] at hs2
          have hss : s = s2 := ReadRes.content.inj hs2
          subst hss
          rw [hext, hnorm] at hbad
          rcases hbad with h | h
          · cases h
          · exact h rfl
    rw [hlnil] at hl
    exact hl

/-- Claim C4 witness: the characterisation applied to one module with
two entries whose artifact is missing. -/
theorem C4_stale_detection_witness :
    (detect_stale_modules envW specsW (fun _ => []) 10 (fun _ => ReadRes.missing)
      moduleSpecsW true = .ok (moduleSpecsW.map (·.1))) ∧
    (∃ l, detect_stale_modules envW specsW (fun _ => []) 10
        (fun _ => ReadRes.missing) moduleSpecsW false = .ok l ∧
      ∀ x, x ∈ l ↔ ∃ p ∈ moduleSpecsW, x = p.1 ∧ ∃ dg,
        module_digest envW specsW (fun _ => []) 10 p.1 p.2 = .ok dg ∧
        ((fun _ => ReadRes.missing : String → ReadRes) p.1 = .missing ∨
          (fun _ => ReadRes.missing : String → ReadRes) p.1 = .unreadable ∨
          ∃ s, (fun _ => ReadRes.missing : String → ReadRes) p.1 = .content s ∧
            (normalize_digest (extract_module_digest s) = none ∨
             normalize_digest (extract_module_digest s) ≠ some dg))) ∧
    ((∀ p ∈ moduleSpecsW, ∃ s dg,
        (fun _ => ReadRes.missing : String → ReadRes) p.1 = .content s ∧
        module_digest envW specsW (fun _ => []) 10 p.1 p.2 = .ok dg ∧
        extract_module_digest s = some dg) →
      detect_stale_modules envW specsW (fun _ => []) 10 (fun _ => ReadRes.missing)
        moduleSpecsW false = .ok []) := by
  apply C4_stale_detection envW specsW (fun _ => []) 10 (fun _ => ReadRes.missing)
    moduleSpecsW
  intro p hp
  have hp1 : p = ("pkg.m", [entryA, entryB]) := List.mem_singleton.mp hp
  subst hp1
  exact ⟨"HHHfa\nkwa\n\nHHfb\nkwb\n", rfl, by decide, by decide⟩

/-- Claim C5: module_digest is deterministic and order independent --
permuting the module's entry list and each dependency set of the spec
graph leaves the digest computation unchanged, since entries and
dependencies are always iterated in sorted order. -/
theorem C5_module_digest_order (env : DigestEnv)
    (specs : List (String × SpecEntry)) (g1 g2 : String → List String)
    (fuel : Nat) (n : String) (l1 l2 : List SpecEntry)
    (hperm : List.Perm l1 l2) (hn : (l1.map (·.spec_ref)).Nodup)
    (hg : ∀ sr, List.Perm (g1 sr) (g2 sr)) :
    module_digest env specs g1 fuel n l1 = module_digest env specs g2 fuel n l2 :=
  module_digest_perm env specs g1 g2 fuel n l1 l2 hperm hn hg

/-- Claim C5 witness: a three-entry module digested with its entries
reversed and each dependency set permuted. -/
theorem C5_module_digest_order_witness :
    module_digest envW specsW3 gPermA 10 "pkg.m" [entryA, entryB, entryC] =
      module_digest envW specsW3 gPermB 10 "pkg.m" [entryC, entryB, entryA] := by
  apply C5_module_digest_order envW specsW3 gPermA gPermB 10 "pkg.m"
    [entryA, entryB, entryC] [entryC, entryB, entryA] (by decide) (by decide)
  intro sr
  by_cases h : sr = "pkg.m:fb"
  · rw [gPermA, gPermB]
    rw [if_pos h, if_pos h]
    decide
  · rw [gPermA, gPermB]
    rw [if_neg h, if_neg h]

/-- Claim C6, corrected: every dependency-cycle error graph_digest
raises carries the message "Dependency cycle detected while hashing: r"
naming the re-entered reference r (a single participant, not all of
them -- see the counterexample), and the computation never hangs; the
scheduler's pre-flight toposort check, by contrast, reports the cycle
a -> b -> a of the two-cycle graph with a message mentioning both
participants. -/
theorem C6_cycle_error (env : DigestEnv) (specs : List (String × SpecEntry))
    (g : String → List String) (fuel : Nat) (cache : DigestMemo) (sr msg : String)
    (h : graph_digest env specs g fuel cache sr = .error (.cycleDetected msg)) :
    (∃ r, msg = "Dependency cycle detected while hashing: " ++ r) ∧
    toposort [("a", ["b"]), ("b", ["a"])]
        (topoFuel [("a", ["b"]), ("b", ["a"])]) =
      .error (.cycleFound "Dependency cycle detected: a -> b -> a") ∧
    Mentions "Dependency cycle detected: a -> b -> a" "a" ∧
    Mentions "Dependency cycle detected: a -> b -> a" "b" := by
  refine ⟨?_, rfl, by decide, by decide⟩
  rw [graph_digest] at h
  rcases except_bind_error_inv h with h1 | ⟨a, _, h2⟩
  · exact graphDigestGo_cycle_msg env specs g fuel [] cache [sr] msg h1
  · obtain ⟨ds, memo⟩ := a
    dsimp only at h2
    cases ds with
    | nil => simp at h2
    | cons d rest =>
      cases rest with
      | nil => simp at h2
      | cons d2 r2 => simp at h2

/-- Claim C6 witness: the message shape applied to the concrete
two-cycle fa -> fb -> fa of the digest witness graph. -/
theorem C6_cycle_error_witness :
    (∃ r, "Dependency cycle detected while hashing: pkg.m:fa" =
      "Dependency cycle detected while hashing: " ++ r) ∧
    toposort [("a", ["b"]), ("b", ["a"])]
        (topoFuel [("a", ["b"]), ("b", ["a"])]) =
      .error (.cycleFound "Dependency cycle detected: a -> b -> a") ∧
    Mentions "Dependency cycle detected: a -> b -> a" "a" ∧
    Mentions "Dependency cycle detected: a -> b -> a" "b" :=
  C6_cycle_error envW specsW graphCycW 10 [] "pkg.m:fa"
    "Dependency cycle detected while hashing: pkg.m:fa" rfl

/-- Claim C6 counterexample: on the two-cycle graph fa -> fb -> fa,
graph_digest raises the cycle error naming only the re-entered
reference fa; the message does not mention the other participant fb, so
the claimed "names every participant / mentions both A and B" fails for
graph_digest. -/
theorem C6_counterexample :
    graph_digest envW specsW graphCycW 10 [] "pkg.m:fa" =
      .error (.cycleDetected "Dependency cycle detected while hashing: pkg.m:fa") ∧
    ¬ Mentions "Dependency cycle detected while hashing: pkg.m:fa" "pkg.m:fb" ∧
    Mentions "Dependency cycle detected while hashing: pkg.m:fa" "pkg.m:fa" :=
  ⟨rfl, by decide, by decide⟩

/-- Claim C8: generate_with_retry at its default bound performs at most
two generator invocations; its result has empty errors exactly when one
of the two attempts validates cleanly; when the first attempt fails it
retries once, passing the first attempt's validation errors prefixed
"previous output errors: " as extra context, and returns the second
attempt's source and validation errors. -/
theorem C8_generate_with_retry (e : GenEnv) :
    (generate_with_retry e 2).attempts ≤ 2 ∧
    ((generate_with_retry e 2).errors = [] ↔
      (e.validate (e.gen 1 none) = [] ∨
       e.validate (e.gen 2 (some ((e.validate (e.gen 1 none)).map
         (fun s => "previous output errors: " ++ s)))) = [])) ∧
    (e.validate (e.gen 1 none) = [] →
      generate_with_retry e 2 = ⟨1, some (e.gen 1 none), []⟩) ∧
    (e.validate (e.gen 1 none) ≠ [] →
      generate_with_retry e 2 =
        ⟨2, some (e.gen 2 (some ((e.validate (e.gen 1 none)).map
            (fun s => "previous output errors: " ++ s)))),
          e.validate (e.gen 2 (some ((e.validate (e.gen 1 none)).map
            (fun s => "previous output errors: " ++ s))))⟩) := by
  have he := generate_with_retry_eq e
  by_cases h1 : e.validate (e.gen 1 none) = []
  · rw [he, if_pos h1]
    refine ⟨?_, ?_, fun _ => rfl, fun hc => absurd h1 hc⟩
    · show (1 : Nat) ≤ 2
      decide
    · show ([] : List String) = [] ↔ _
      exact ⟨fun _ => .inl h1, fun _ => rfl⟩
  · rw [he, if_neg h1]
    dsimp only
    by_cases h2 : e.validate (e.gen 2 (some ((e.validate (e.gen 1 none)).map
        (fun s => "previous output errors: " ++ s)))) = []
    · rw [if_pos h2]
      refine ⟨?_, ?_, fun hc => absurd hc h1, fun _ => ?_⟩
      · show (2 : Nat) ≤ 2
        decide
      · show ([] : List String) = [] ↔ _
        exact ⟨fun _ => .inr h2, fun _ => rfl⟩
      · rw [h2]
    · rw [if_neg h2]
      refine ⟨?_, ?_, fun hc => absurd hc h1, fun _ => rfl⟩
      · show (2 : Nat) ≤ 2
        decide
      · exact ⟨fun hh => .inr hh, fun hh => hh.elim (fun hx => absurd hx h1) id⟩

/-- Claim C9: the digest computations are pure functions of the spec
entries, the dependency graph and the relevant source texts: changing
the file system anywhere outside the source files the spec entries name
changes no result of local_digest, graph_digest or module_digest. -/
theorem C9_digest_purity (fs1 fs2 : String → Option String)
    (segOf : String → String → Option String) (hashF : String → String)
    (specs : List (String × SpecEntry)) (g : String → List String) (fuel : Nat)
    (hfs : ∀ p ∈ specs, fs1 p.2.source_file = fs2 p.2.source_file) :
    (∀ e : SpecEntry, fs1 e.source_file = fs2 e.source_file →
      local_digest ⟨fs1, segOf, hashF⟩ e = local_digest ⟨fs2, segOf, hashF⟩ e) ∧
    (∀ cache sr, graph_digest ⟨fs1, segOf, hashF⟩ specs g fuel cache sr =
      graph_digest ⟨fs2, segOf, hashF⟩ specs g fuel cache sr) ∧
    (∀ n entries, module_digest ⟨fs1, segOf, hashF⟩ specs g fuel n entries =
      module_digest ⟨fs2, segOf, hashF⟩ specs g fuel n entries) := by
  have hgo := graphDigestGo_fs fs1 fs2 segOf hashF specs g hfs
  refine ⟨fun e he => local_digest_congr fs1 fs2 segOf hashF e he, ?_, ?_⟩
  · intro cache sr
    unfold graph_digest
    rw [hgo]
  · intro n entries
    unfold module_digest
    rw [hgo]

/-- Claim C9 witness: purity applied to two file systems differing only
on a file no witness entry reads. -/
theorem C9_digest_purity_witness :
    (∀ e : SpecEntry, (fun _ => some "text" : String → Option String) e.source_file =
        fsW2 e.source_file →
      local_digest ⟨fun _ => some "text", fun _ q => some q, hashW⟩ e =
        local_digest ⟨fsW2, fun _ q => some q, hashW⟩ e) ∧
    (∀ cache sr,
      graph_digest ⟨fun _ => some "text", fun _ q => some q, hashW⟩ specsW
          (fun _ => []) 10 cache sr =
        graph_digest ⟨fsW2, fun _ q => some q, hashW⟩ specsW (fun _ => []) 10
          cache sr) ∧
    (∀ n entries,
      module_digest ⟨fun _ => some "text", fun _ q => some q, hashW⟩ specsW
          (fun _ => []) 10 n entries =
        module_digest ⟨fsW2, fun _ q => some q, hashW⟩ specsW (fun _ => []) 10
          n entries) :=
  C9_digest_purity (fun _ => some "text") fsW2 (fun _ q => some q) hashW specsW
    (fun _ => []) 10 (by decide)

/-- Claim C10: when the expanded stale set restricted to the modules
with queued units is empty, run_build returns immediately with nothing
generated, nothing failed, every module with queued units skipped, and
an empty event history (the generator backend is never invoked),
without consulting the module DAG for cycles -- so a cyclic DAG raises
no error when none of its members are stale. -/
theorem C10_no_stale (P : SchedParams) (h0 : staleOf P = []) :
    run_sched P = .ok ⟨[], P.specKeys, [], []⟩ ∧
    run_build P = .ok ⟨[], P.specKeys, []⟩ := by
  obtain ⟨e, he⟩ := expandedOf_some P
  have hskip : skippedOf P = P.specKeys := by
    rw [skippedOf, h0]
    apply List.filter_eq_self.mpr
    intro a _
    simp
  have hrs : run_sched P = .ok ⟨[], skippedOf P, [], []⟩ := by
    rw [run_sched, he]
    dsimp only
    rw [if_pos]
    rw [h0]
    rfl
  rw [hskip] at hrs
  refine ⟨hrs, ?_⟩
  rw [run_build, hrs]
  rfl

/-- Claim C10 witness: the early return applied to the two-module cyclic
DAG whose induced stale set is empty. -/
theorem C10_no_stale_witness :
    run_sched cycNoStaleParams = .ok ⟨[], cycNoStaleParams.specKeys, [], []⟩ ∧
    run_build cycNoStaleParams = .ok ⟨[], cycNoStaleParams.specKeys, []⟩ :=
  C10_no_stale cycNoStaleParams rfl

end Jaunt